import Mathlib

/-!
# Verification of the ProjectQ C++ state-vector simulator core

Shallow embedding of `projectq/backends/_sim/_cppkernels/simulator.hpp`,
`fusion.hpp` and the `nointrin` kernels.  Amplitudes (`std::complex<double>`)
are modelled exactly over the rationals, so floating tolerances in the spec
become exact equalities.  `std::size_t` arithmetic that can wrap is modelled
as `Nat` with an explicit `% 2^64`.  The square-root routine used by the
renormalization steps (`std::sqrt` on `double`) is an external numeric
routine; the operations that call it take the scalar square root as an
explicit function parameter `sqrt : ℚ → ℚ`.
-/

/-- Exact model of `std::complex<double>`: a complex number with rational
real and imaginary parts. -/
structure Cplx where
  re : ℚ
  im : ℚ
deriving DecidableEq, Repr

namespace Cplx

def add (x y : Cplx) : Cplx := ⟨x.re + y.re, x.im + y.im⟩

def mul (x y : Cplx) : Cplx := ⟨x.re * y.re - x.im * y.im, x.re * y.im + x.im * y.re⟩

def neg (x : Cplx) : Cplx := ⟨-x.re, -x.im⟩

instance : Zero Cplx := ⟨⟨0, 0⟩⟩
instance : One Cplx := ⟨⟨1, 0⟩⟩
instance : Add Cplx := ⟨add⟩
instance : Mul Cplx := ⟨mul⟩
instance : Neg Cplx := ⟨neg⟩

@[simp] theorem zero_re : (0 : Cplx).re = 0 := rfl
@[simp] theorem zero_im : (0 : Cplx).im = 0 := rfl
@[simp] theorem one_re : (1 : Cplx).re = 1 := rfl
@[simp] theorem one_im : (1 : Cplx).im = 0 := rfl
@[simp] theorem add_re (x y : Cplx) : (x + y).re = x.re + y.re := rfl
@[simp] theorem add_im (x y : Cplx) : (x + y).im = x.im + y.im := rfl
@[simp] theorem mul_re (x y : Cplx) : (x * y).re = x.re * y.re - x.im * y.im := rfl
@[simp] theorem mul_im (x y : Cplx) : (x * y).im = x.re * y.im + x.im * y.re := rfl
@[simp] theorem neg_re (x : Cplx) : (-x).re = -x.re := rfl
@[simp] theorem neg_im (x : Cplx) : (-x).im = -x.im := rfl

theorem ext_iff {x y : Cplx} : x = y ↔ x.re = y.re ∧ x.im = y.im := by
  constructor
  · intro h; exact ⟨by rw [h], by rw [h]⟩
  · rintro ⟨h1, h2⟩; cases x; cases y; simp_all

protected theorem ext {x y : Cplx} (h1 : x.re = y.re) (h2 : x.im = y.im) : x = y :=
  ext_iff.mpr ⟨h1, h2⟩

instance : CommRing Cplx where
  add_assoc x y z := Cplx.ext (by simp [add_assoc]) (by simp [add_assoc])
  zero_add x := Cplx.ext (by simp) (by simp)
  add_zero x := Cplx.ext (by simp) (by simp)
  add_comm x y := Cplx.ext (by simp [add_comm]) (by simp [add_comm])
  mul_assoc x y z := Cplx.ext (by simp; ring) (by simp; ring)
  one_mul x := Cplx.ext (by simp) (by simp)
  mul_one x := Cplx.ext (by simp) (by simp)
  left_distrib x y z := Cplx.ext (by simp; ring) (by simp; ring)
  right_distrib x y z := Cplx.ext (by simp; ring) (by simp; ring)
  mul_comm x y := Cplx.ext (by simp; ring) (by simp; ring)
  neg_add_cancel x := Cplx.ext (by simp) (by simp)
  zero_mul x := Cplx.ext (by simp) (by simp)
  mul_zero x := Cplx.ext (by simp) (by simp)
  nsmul := nsmulRec
  zsmul := zsmulRec

/-- `std::norm`: the squared magnitude of a complex amplitude. -/
def normSq (z : Cplx) : ℚ := z.re * z.re + z.im * z.im

/-- Multiplication by a real (`double`) scalar, as in `vec_[i] *= N`. -/
def smul (c : ℚ) (z : Cplx) : Cplx := ⟨c * z.re, c * z.im⟩

@[simp] theorem smul_re (c : ℚ) (z : Cplx) : (smul c z).re = c * z.re := rfl
@[simp] theorem smul_im (c : ℚ) (z : Cplx) : (smul c z).im = c * z.im := rfl

@[simp] theorem smul_zero_right (c : ℚ) : smul c 0 = 0 := by
  apply Cplx.ext <;> simp

@[simp] theorem normSq_zero : normSq 0 = 0 := by simp [normSq]

theorem normSq_nonneg (z : Cplx) : 0 ≤ normSq z := by
  have h1 : 0 ≤ z.re * z.re := mul_self_nonneg _
  have h2 : 0 ≤ z.im * z.im := mul_self_nonneg _
  simp [normSq]; linarith

theorem normSq_smul (c : ℚ) (z : Cplx) : normSq (smul c z) = c * c * normSq z := by
  simp [normSq]; ring

theorem normSq_pos_of_ne_zero {z : Cplx} (h : z ≠ 0) : 0 < normSq z := by
  rcases lt_or_eq_of_le (normSq_nonneg z) with h1 | h1
  · exact h1
  · exfalso
    apply h
    have hre : z.re * z.re + z.im * z.im = 0 := by simp [normSq] at h1; linarith
    have h2 : z.re * z.re = 0 ∧ z.im * z.im = 0 := by
      constructor <;> nlinarith [mul_self_nonneg z.re, mul_self_nonneg z.im]
    apply Cplx.ext
    · simpa using mul_self_eq_zero.mp h2.1
    · simpa using mul_self_eq_zero.mp h2.2

theorem ne_zero_of_normSq_pos {z : Cplx} (h : 0 < normSq z) : z ≠ 0 := by
  intro hz; rw [hz] at h; simp at h

end Cplx

/-! ## Vectors and matrices

`StateVector` is `std::vector<std::complex<double>>`; a matrix is
`std::vector<std::vector<std::complex<double>>>`.  Out-of-range access
(never exercised by well-formed calls) defaults to `0`. -/

/-- A state vector: the dense amplitude array. -/
abbrev Vec := List Cplx

/-- A complex matrix as a row list (`Fusion::Matrix`). -/
abbrev Mat := List (List Cplx)

/-- `v[i]` for a state vector. -/
def ventry (v : Vec) (i : ℕ) : Cplx := v.getD i 0

/-- `m[i][j]` for a matrix. -/
def mentry (m : Mat) (i j : ℕ) : Cplx := (m.getD i []).getD j 0

/-- Build a vector of length `n` whose `i`-th entry is `f i`; the pure form
of a `for (i = 0; i < n; ++i) vec[i] = f(i);` loop whose iterations are
independent. -/
def buildVec (n : ℕ) (f : ℕ → Cplx) : Vec := (List.range n).map f

@[simp] theorem length_buildVec (n : ℕ) (f : ℕ → Cplx) : (buildVec n f).length = n := by
  simp [buildVec]

theorem ventry_buildVec {n i : ℕ} (f : ℕ → Cplx) (h : i < n) :
    ventry (buildVec n f) i = f i := by
  simp [ventry, buildVec, List.getD_eq_getElem?_getD, List.getElem?_map,
        List.getElem?_range h]

theorem ventry_buildVec_ge {n i : ℕ} (f : ℕ → Cplx) (h : n ≤ i) :
    ventry (buildVec n f) i = 0 := by
  simp [ventry, buildVec, List.getD_eq_getElem?_getD, List.getElem?_map]
  rw [List.getElem?_eq_none (by simpa using h)]
  rfl

/-- Sum of `f i` for `i < n`; the pure form of an accumulation loop
(`reduction(+:...)` loops are order-independent by design, §5 of the spec). -/
def qsum (n : ℕ) (f : ℕ → ℚ) : ℚ := ((List.range n).map f).sum

/-- Complex sum of `f i` for `i < n`. -/
def csum (n : ℕ) (f : ℕ → Cplx) : Cplx := ((List.range n).map f).sum

theorem qsum_succ (n : ℕ) (f : ℕ → ℚ) : qsum (n + 1) f = qsum n f + f n := by
  simp [qsum, List.range_succ]

theorem csum_succ (n : ℕ) (f : ℕ → Cplx) : csum (n + 1) f = csum n f + f n := by
  simp [csum, List.range_succ]

@[simp] theorem qsum_zero (f : ℕ → ℚ) : qsum 0 f = 0 := rfl
@[simp] theorem csum_zero (f : ℕ → Cplx) : csum 0 f = 0 := rfl

theorem qsum_congr {n : ℕ} {f g : ℕ → ℚ} (h : ∀ i, i < n → f i = g i) :
    qsum n f = qsum n g := by
  induction n with
  | zero => rfl
  | succ k ih =>
      rw [qsum_succ, qsum_succ, ih (fun i hi => h i (Nat.lt_succ_of_lt hi)),
          h k (Nat.lt_succ_self k)]

theorem csum_congr {n : ℕ} {f g : ℕ → Cplx} (h : ∀ i, i < n → f i = g i) :
    csum n f = csum n g := by
  induction n with
  | zero => rfl
  | succ k ih =>
      rw [csum_succ, csum_succ, ih (fun i hi => h i (Nat.lt_succ_of_lt hi)),
          h k (Nat.lt_succ_self k)]

theorem qsum_nonneg {n : ℕ} {f : ℕ → ℚ} (h : ∀ i, i < n → 0 ≤ f i) : 0 ≤ qsum n f := by
  induction n with
  | zero => simp
  | succ k ih =>
      rw [qsum_succ]
      have := h k (Nat.lt_succ_self k)
      have := ih (fun i hi => h i (Nat.lt_succ_of_lt hi))
      linarith

/-! ## The qubit index map

`std::map<unsigned, unsigned>`, embedded as a key-sorted association list.
`operator[]` on a missing key value-initializes the mapped value to `0`
(and inserts it), exactly as in C++. -/

/-- The index map `QubitId → Slot` (`Simulator::Map`). -/
abbrev Smap := List (ℕ × ℕ)

/-- `map_.count(k)` (as a Bool: 0 or 1 for `std::map`). -/
def mapCount (m : Smap) (k : ℕ) : Bool := m.any (fun p => p.1 = k)

/-- Lookup returning the mapped value, or `0` for a missing key (the value a
fresh `unsigned` is initialized to by `operator[]`). -/
def mapFindD (m : Smap) (k : ℕ) : ℕ :=
  match m.find? (fun p => p.1 = k) with
  | some p => p.2
  | none => 0

/-- Key-ordered insert-or-assign (`std::map` keeps keys sorted). -/
def mapInsertKV : Smap → ℕ → ℕ → Smap
  | [], k, v => [(k, v)]
  | (a, b) :: t, k, v =>
      if k < a then (k, v) :: (a, b) :: t
      else if k = a then (k, v) :: t
      else (a, b) :: mapInsertKV t k v

/-- `map_[k]` used as an rvalue: returns the (possibly grown) map and the
value; a missing key is inserted with value `0`. -/
def mapGetRef (m : Smap) (k : ℕ) : Smap × ℕ :=
  if mapCount m k then (m, mapFindD m k) else (mapInsertKV m k 0, 0)

/-- `map_.erase(k)`. -/
def mapErase (m : Smap) (k : ℕ) : Smap := m.filter (fun p => p.1 ≠ k)

/-- Computable check that the keys are strictly increasing. -/
def smapSortedB : Smap → Bool
  | [] => true
  | [_] => true
  | p :: q :: t => decide (p.1 < q.1) && smapSortedB (q :: t)

/-- Well-formedness of the embedded `std::map`: keys strictly increasing
(hence duplicate-free), as `std::map` guarantees. -/
def SmapWF (m : Smap) : Prop := smapSortedB m = true

instance (m : Smap) : Decidable (SmapWF m) := by
  unfold SmapWF; infer_instance

theorem smapSortedB_iff : ∀ (m : Smap),
    smapSortedB m = true ↔ (m.map Prod.fst).Chain' (· < ·)
  | [] => by simp [smapSortedB]
  | [p] => by simp [smapSortedB]
  | p :: q :: t => by
      have ih := smapSortedB_iff (q :: t)
      rw [smapSortedB]
      simp only [Bool.and_eq_true, decide_eq_true_eq, ih, List.map_cons,
        List.chain'_cons]

theorem smapSortedB_tail {p : ℕ × ℕ} {t : Smap}
    (h : smapSortedB (p :: t) = true) : smapSortedB t = true := by
  cases t with
  | nil => rfl
  | cons q r =>
      rw [smapSortedB, Bool.and_eq_true] at h
      exact h.2

/-! ## Simulator state and errors -/

/-- The error kinds surfaced by the simulator (`std::runtime_error` throws,
distinguished by message), plus `assertViolation` for a failed C++ `assert`
(a debug-build abort, not a catchable exception; compiled out in release
builds). -/
inductive SimError where
  | duplicateId
  | unknownId
  | notClassical
  | invalidPermutation
  | zeroProbability
  | assertViolation
deriving DecidableEq, Repr

/-- The simulator state after a flush: qubit count `N_`, amplitude vector
`vec_` and index map `map_`.  Every public method of `Simulator` begins with
`run()`, which is the identity when the fusion buffer is empty; the
operations below are the post-flush bodies.  The buffered state and
`apply_controlled_gate`/`run` are modelled separately. -/
structure Sim where
  N : ℕ
  vec : Vec
  map : Smap
deriving DecidableEq, Repr

/-- `Simulator::Simulator`: no qubit, one amplitude set to `1.`. -/
def initSim : Sim := ⟨0, [1], []⟩

/-- `for (i = start; i < stop; i += step)`: the visited loop indices
`start, start+step, ...` below `stop` (every call site passes a nonzero
power-of-two step). -/
def stepRange (start stop step : ℕ) : List ℕ :=
  if step = 0 then []
  else (List.range ((stop - start + step - 1) / step)).map (fun k => start + k * step)

/-- `Simulator::check_ids`. -/
def check_ids (s : Sim) (ids : List ℕ) : Bool := ids.all (fun id => mapCount s.map id)

/-- `Simulator::allocate_qubit`. -/
def allocate_qubit (s : Sim) (id : ℕ) : Option SimError × Sim :=
  if mapCount s.map id = false then
    let N' := s.N + 1
    let newvec := buildVec (2 ^ N') (fun i => if i < s.vec.length then ventry s.vec i else 0)
    (none, ⟨N', newvec, mapInsertKV s.map id s.N⟩)
  else (some .duplicateId, s)

/-- The interleaved check order of the `get_classical_value` double loop:
for each block base `i` (step `2δ`) and offset `j < δ`, the entry `i+j`
(bit `pos` clear, second component `false`) is inspected just before
`i+j+δ` (bit `pos` set, second component `true`). -/
def checkList (n δ : ℕ) : List (ℕ × Bool) :=
  (stepRange 0 n (2 * δ)).flatMap (fun i =>
    (List.range δ).flatMap (fun j => [(i + j, false), (i + j + δ, true)]))

/-- `Simulator::get_classical_value`: returns at the first entry whose
squared norm exceeds `tol` (`false` from the bit-0 half, `true` from the
bit-1 half); if no entry exceeds `tol` the C++ `assert(false)` path returns
`false`.  Also returns the map, since `map_[id]` may insert. -/
def get_classical_value (s : Sim) (id : ℕ) (tol : ℚ) : Bool × Smap :=
  let mp := mapGetRef s.map id
  let δ := 2 ^ mp.2
  let r := (checkList s.vec.length δ).find?
    (fun p => decide (tol < Cplx.normSq (ventry s.vec p.1)))
  ((r.map Prod.snd).getD false, mp.1)

/-- `Simulator::is_classical`: `up`/`down` record whether some entry of the
bit-0 half (resp. bit-1 half) for slot `map_[id]` has squared norm above
`tol`; the result is `1 == (up^down)`. -/
def is_classical (s : Sim) (id : ℕ) (tol : ℚ) : Bool × Smap :=
  let mp := mapGetRef s.map id
  let δ := 2 ^ mp.2
  let up := (stepRange 0 s.vec.length (2 * δ)).any (fun i =>
    (List.range δ).any (fun j => decide (tol < Cplx.normSq (ventry s.vec (i + j)))))
  let down := (stepRange 0 s.vec.length (2 * δ)).any (fun i =>
    (List.range δ).any (fun j => decide (tol < Cplx.normSq (ventry s.vec (i + j + δ)))))
  (up != down, mp.1)

/-- Insert bit `b` at bit position `pos` of `k`: the index of the length-`2^N`
vector that the shrink loop of `collapse_vector` copies entry `k` of the
halved vector from. -/
def insertBit (k pos : ℕ) (b : Bool) : ℕ :=
  k / 2 ^ pos * 2 ^ (pos + 1) + (if b then 2 ^ pos else 0) + k % 2 ^ pos

/-- `Simulator::collapse_vector`.  Without `shrink`, zero every entry whose
bit `map_[id]` differs from `value` (the loop writes `vec_[i+j+(!value)*δ] = 0`).
With `shrink`, halve the vector keeping the `value` half (`newvec[i/2+j] =
vec_[i+value*δ+j]`), decrement every slot above the removed one, erase the
id, and decrement `N_`. -/
def collapse_vector (s : Sim) (id : ℕ) (value : Bool) (shrink : Bool) : Sim :=
  let mp := mapGetRef s.map id
  let pos := mp.2
  if shrink = false then
    { s with map := mp.1,
             vec := buildVec s.vec.length
               (fun i => if i.testBit pos = value then ventry s.vec i else 0) }
  else
    let newvec := buildVec (2 ^ (s.N - 1)) (fun k => ventry s.vec (insertBit k pos value))
    { N := s.N - 1,
      vec := newvec,
      map := mapErase (mp.1.map (fun p => (p.1, if pos < p.2 then p.2 - 1 else p.2))) id }

/-- The sampling scan of `measure_qubits`:
`while (P < rnd && pick < vec_.size()) P += norm(vec_[pick++]);`.
The first list argument is the not-yet-consumed suffix of `vec_`, so that
`pick < vec_.size()` is exactly "the suffix is nonempty". -/
def scanPickAux (rnd : ℚ) : List Cplx → ℚ → ℕ → ℕ
  | [], _, pick => pick
  | z :: t, P, pick =>
      if P < rnd then scanPickAux rnd t (P + Cplx.normSq z) (pick + 1) else pick

/-- Modulus of `std::size_t` arithmetic. -/
def SIZE_T_MOD : ℕ := 2 ^ 64

/-- The `positions[i] = map_[ids[i]]` loop; `operator[]` inserts missing ids
with slot `0`. -/
def getPositions : Smap → List ℕ → Smap × List ℕ
  | m, [] => (m, [])
  | m, id :: t =>
      let mp := mapGetRef m id
      let r := getPositions mp.1 t
      (r.1, mp.2 :: r.2)

/-- `Simulator::measure_qubits`.  `rnd` is the drawn sample `rng_()`, and
`sqrt` the scalar square-root routine used by the renormalization.  `pick--`
on the `std::size_t` counter is modelled with an explicit wraparound mod
`2^64`. -/
def measure_qubits (sqrt : ℚ → ℚ) (s : Sim) (ids : List ℕ) (rnd : ℚ) :
    List Bool × Sim :=
  let mps := getPositions s.map ids
  let positions := mps.2
  let pick := (scanPickAux rnd s.vec 0 0 + (SIZE_T_MOD - 1)) % SIZE_T_MOD
  let res := positions.map (fun p => pick.testBit p)
  let mask := positions.foldl (fun a p => a ||| 2 ^ p) 0
  let val := positions.foldl (fun a p => a ||| (if pick.testBit p then 2 ^ p else 0)) 0
  let Nq := qsum s.vec.length
    (fun i => if i &&& mask = val then Cplx.normSq (ventry s.vec i) else 0)
  let vec1 := buildVec s.vec.length
    (fun i => if i &&& mask = val then ventry s.vec i else 0)
  let c := 1 / sqrt Nq
  (res, { s with map := mps.1,
                 vec := buildVec vec1.length (fun i => Cplx.smul c (ventry vec1 i)) })

/-- `Simulator::deallocate_qubit`: the presence check is a C++
`assert(map_.count(id) == 1)`, not a thrown exception; a non-classical qubit
raises the "has not been measured / uncomputed" error; otherwise the qubit
is collapsed to its classical value and the vector shrunk. -/
def deallocate_qubit (s : Sim) (id : ℕ) : Option SimError × Sim :=
  if mapCount s.map id = false then (some .assertViolation, s)
  else
    let cl := is_classical s id (1 / 10 ^ 12)
    if cl.1 = false then (some .notClassical, { s with map := cl.2 })
    else
      let gv := get_classical_value { s with map := cl.2 } id (1 / 10 ^ 12)
      (none, collapse_vector { s with map := gv.2 } id gv.1 true)

/-- `Simulator::get_probability`: throws on an unknown id, otherwise the
squared-norm mass of the entries matching the bit string at the ids'
slots. -/
def get_probability (s : Sim) (bit_string : List Bool) (ids : List ℕ) :
    Except SimError ℚ :=
  if check_ids s ids = false then .error .unknownId
  else
    let mask := ids.foldl (fun a id => a ||| 2 ^ mapFindD s.map id) 0
    let bit_str := (ids.zip bit_string).foldl
      (fun a p => a ||| (if p.2 then 2 ^ mapFindD s.map p.1 else 0)) 0
    .ok (qsum s.vec.length
      (fun i => if i &&& mask = bit_str then Cplx.normSq (ventry s.vec i) else 0))

/-- The `chk`/`index` accumulation loop of `get_amplitude`; it breaks at the
first id that is not mapped. -/
def gaLoop (m : Smap) : List (ℕ × Bool) → ℕ → ℕ → ℕ × ℕ
  | [], chk, index => (chk, index)
  | p :: t, chk, index =>
      if mapCount m p.1 = false then (chk, index)
      else gaLoop m t (chk ||| 2 ^ mapFindD m p.1)
             (index ||| (if p.2 then 2 ^ mapFindD m p.1 else 0))

/-- `Simulator::get_amplitude`: throws unless the accumulated slot mask
covers the whole register (`chk + 1 == vec_.size()`), else returns
`vec_[index]`. -/
def get_amplitude (s : Sim) (bit_string : List Bool) (ids : List ℕ) :
    Except SimError Cplx :=
  let ci := gaLoop s.map (ids.zip bit_string) 0 0
  if ci.1 + 1 ≠ s.vec.length then .error .invalidPermutation
  else .ok (ventry s.vec ci.2)

/-- `Simulator::set_wavefunction`: the amplitude-count check is a C++
`assert`; then the id set is checked, the map reassigned slot `i` for
`ordering[i]`, and the amplitudes copied. -/
def set_wavefunction (s : Sim) (wavefunction : Vec) (ordering : List ℕ) :
    Option SimError × Sim :=
  if wavefunction.length ≠ 2 ^ ordering.length then (some .assertViolation, s)
  else if s.map.length ≠ ordering.length ∨ check_ids s ordering = false then
    (some .invalidPermutation, s)
  else
    let m' := ordering.enum.foldl (fun m p => mapInsertKV m p.2 p.1) s.map
    (none, { s with map := m',
                    vec := buildVec wavefunction.length (fun i => ventry wavefunction i) })

/-- `Simulator::collapse_wavefunction`: asserts the two lists have equal
length, throws on an unknown id, computes the outcome mass in a read-only
pass, throws `zeroProbability` below `1.e-12` (leaving the vector
untouched), and otherwise zeroes the complement and renormalizes. -/
def collapse_wavefunction (sqrt : ℚ → ℚ) (s : Sim) (ids : List ℕ)
    (values : List Bool) : Option SimError × Sim :=
  if ids.length ≠ values.length then (some .assertViolation, s)
  else if check_ids s ids = false then (some .unknownId, s)
  else
    let mask := ids.foldl (fun a id => a ||| 2 ^ mapFindD s.map id) 0
    let val := (ids.zip values).foldl
      (fun a p => a ||| (if p.2 then 2 ^ mapFindD s.map p.1 else 0)) 0
    let Nq := qsum s.vec.length
      (fun i => if i &&& mask = val then Cplx.normSq (ventry s.vec i) else 0)
    if Nq < 1 / 10 ^ 12 then (some .zeroProbability, s)
    else
      let c := 1 / sqrt Nq
      let vnew := buildVec s.vec.length (fun i =>
        if i &&& mask ≠ val then 0 else Cplx.smul c (ventry s.vec i))
      (none, { s with vec := vnew })

/-! ## The fusion buffer (`fusion.hpp`)

`std::set<unsigned>` iterates its elements in ascending order; it is
embedded as a strictly ascending list. -/

/-- Ascending-order set insert (`std::set::emplace`/`insert`). -/
def setInsert : List ℕ → ℕ → List ℕ
  | [], x => [x]
  | a :: t, x =>
      if x < a then x :: a :: t
      else if x = a then a :: t
      else a :: setInsert t x

/-- `std::set::count` (as a Bool). -/
def setMem (l : List ℕ) (x : ℕ) : Bool := l.any (fun a => a = x)

/-- `std::set::erase`. -/
def setErase (l : List ℕ) (x : ℕ) : List ℕ := l.filter (fun a => a ≠ x)

/-- `Item`: one queued gate command, its matrix and its (possibly
control-enlarged) target index list. -/
structure Item where
  mat : Mat
  idx : List ℕ
deriving DecidableEq, Repr

/-- `Fusion`: the gate queue: touched-qubit set `set_`, queued items
`items_`, and the still-global control set `ctrl_set_`. -/
structure Fusion where
  set : List ℕ
  items : List Item
  ctrl_set : List ℕ
deriving DecidableEq, Repr

/-- A freshly constructed `Fusion()`. -/
def emptyFusion : Fusion := ⟨[], [], []⟩

/-- `Fusion::num_qubits`. -/
def Fusion.num_qubits (f : Fusion) : ℕ := f.set.length

/-- `Fusion::size`. -/
def Fusion.fsize (f : Fusion) : ℕ := f.items.length

/-- `Fusion::add_controls`: append the new controls to the index list and
enlarge the matrix by factor `2^new_ctrls.size()`: identity on the first
`Offset` diagonal entries, the old matrix as the bottom-right block, zero
elsewhere. -/
def add_controls (matrix : Mat) (indexList : List ℕ) (new_ctrls : List ℕ) :
    Mat × List ℕ :=
  let F := 2 ^ new_ctrls.length
  let sz := matrix.length
  let Offset := F * sz - sz
  let newmatrix := (List.range (F * sz)).map (fun i => (List.range (F * sz)).map (fun j =>
    if i < Offset then (if j = i then (1 : Cplx) else 0)
    else if j < Offset then 0
    else mentry matrix (i - Offset) (j - Offset)))
  (newmatrix, indexList ++ new_ctrls)

/-- The mutable locals of `Fusion::handle_controls`. -/
structure HCtx where
  matrix : Mat
  indexList : List ℕ
  set : List ℕ
  ctrl_set : List ℕ
  unhandled : List ℕ
deriving DecidableEq, Repr

/-- One iteration of the `for (auto ctrlIdx : ctrlList)` loop of
`handle_controls`: a control not yet global is absorbed into the new
command's matrix when the queue is nonempty, or made global when it is
empty; a control that is already global is removed from `unhandled`. -/
def hcStep (hasItems : Bool) (c : HCtx) (ctrlIdx : ℕ) : HCtx :=
  if setMem c.ctrl_set ctrlIdx = false then
    if hasItems then
      let ac := add_controls c.matrix c.indexList [ctrlIdx]
      { c with matrix := ac.1, indexList := ac.2, set := setInsert c.set ctrlIdx }
    else { c with ctrl_set := setInsert c.ctrl_set ctrlIdx }
  else { c with unhandled := setErase c.unhandled ctrlIdx }

/-- The demotion phase of `handle_controls`: every formerly-global control
absent from the new command is removed from the global set, added to the
touched set, and absorbed into every already-queued item's matrix. -/
def demote (c : HCtx) (items : List Item) : HCtx × List Item :=
  if 0 < c.unhandled.length then
    let new_ctrls := c.unhandled
    ({ c with ctrl_set := new_ctrls.foldl setErase c.ctrl_set,
              set := new_ctrls.foldl setInsert c.set },
     items.map (fun it =>
       let ac := add_controls it.mat it.idx new_ctrls
       ⟨ac.1, ac.2⟩))
  else (c, items)

/-- `Fusion::insert`: add the targets to the touched set, run
`handle_controls`, and append the (possibly enlarged) command. -/
def Fusion.insert (f : Fusion) (matrix : Mat) (index_list : List ℕ)
    (ctrl_list : List ℕ) : Fusion :=
  let set1 := index_list.foldl setInsert f.set
  let c0 : HCtx := ⟨matrix, index_list, set1, f.ctrl_set, f.ctrl_set⟩
  let c1 := ctrl_list.foldl (hcStep (decide (0 < f.items.length))) c0
  let r := demote c1 f.items
  { set := r.1.set, ctrl_set := r.1.ctrl_set,
    items := r.2 ++ [⟨r.1.matrix, r.1.indexList⟩] }

/-- `std::equal_range(...).first - begin()` on a sorted list: the number of
elements strictly below `x` (the lower-bound index). -/
def lowerBound (l : List ℕ) (x : ℕ) : ℕ :=
  (l.takeWhile (fun a => decide (a < x))).length

/-- `local_i` of `perform_fusion`: gather the bits of the big row index `i`
at the positions `idx2mat` into a local row index of the item's matrix. -/
def localIdx (idx2mat : List ℕ) (i : ℕ) : ℕ :=
  (List.range idx2mat.length).foldl
    (fun a l => a ||| ((i >>> idx2mat.getD l 0) &&& 1) <<< l) 0

/-- `locidx` of `perform_fusion`: the big index `i` with the bits at the
positions `idx2mat` replaced by the bits of the local column index `j`. -/
def flipIdx (idx2mat : List ℕ) (i j : ℕ) : ℕ :=
  (List.range idx2mat.length).foldl
    (fun a l => if (j >>> l) &&& 1 ≠ (i >>> idx2mat.getD l 0) &&& 1
                then a ^^^ 2 ^ idx2mat.getD l 0 else a) i

/-- One item's pass of the `perform_fusion` composition loop: column by
column, `M[i][k] = Σ_j oldcol[locidx(i,j)] · item.mat[local_i(i)][j]`. -/
def fuseItem (Nn : ℕ) (index_list : List ℕ) (M : Mat) (item : Item) : Mat :=
  let idx2mat := item.idx.map (lowerBound index_list)
  (List.range (2 ^ Nn)).map (fun i =>
    (List.range (2 ^ Nn)).map (fun k =>
      csum (2 ^ item.idx.length) (fun j =>
        Cplx.mul (mentry M (flipIdx idx2mat i j) k)
                 (mentry item.mat (localIdx idx2mat i) j))))

/-- `Fusion::perform_fusion`: the combined matrix over the sorted touched
set, built by composing every queued item into an identity-initialized
matrix, together with the target list and the still-global control list. -/
def Fusion.perform_fusion (f : Fusion) : Mat × List ℕ × List ℕ :=
  let index_list := f.set
  let Nn := f.num_qubits
  let M0 := (List.range (2 ^ Nn)).map (fun i => (List.range (2 ^ Nn)).map (fun j =>
    if i = j then (1 : Cplx) else 0))
  (f.items.foldl (fuseItem Nn index_list) M0, index_list, f.ctrl_set)

/-! ## The kernels (`nointrin/kernel1.hpp` .. `kernel5.hpp`) -/

/-- `kernel_core` of `kernel1.hpp`. -/
def kernel_core1 (psi : Vec) (I d0 : ℕ) (m : Mat) : Vec :=
  let v0 := ventry psi I
  let v1 := ventry psi (I + d0)
  let psi1 := psi.set I (Cplx.add (Cplx.mul v0 (mentry m 0 0)) (Cplx.mul v1 (mentry m 0 1)))
  psi1.set (I + d0) (Cplx.add (Cplx.mul v0 (mentry m 1 0)) (Cplx.mul v1 (mentry m 1 1)))

/-- `kernel` of `kernel1.hpp`: iterate over all block bases `i0 + i1`
(bit `id0` clear), with a no-test fast path for `ctrlmask == 0`. -/
def kernel1 (psi : Vec) (id0 : ℕ) (m : Mat) (ctrlmask : ℕ) : Vec :=
  let n := psi.length
  let d0 := 2 ^ id0
  if ctrlmask = 0 then
    (stepRange 0 n (2 * d0)).foldl (fun ψ i0 =>
      (List.range d0).foldl (fun ψ2 i1 => kernel_core1 ψ2 (i0 + i1) d0 m) ψ) psi
  else
    (stepRange 0 n (2 * d0)).foldl (fun ψ i0 =>
      (List.range d0).foldl (fun ψ2 i1 =>
        if (i0 + i1) &&& ctrlmask = ctrlmask then kernel_core1 ψ2 (i0 + i1) d0 m
        else ψ2) ψ) psi

/-- `kernel_core` of `kernel2.hpp`. -/
def kernel_core2 (psi : Vec) (I d0 d1 : ℕ) (m : Mat) : Vec :=
  let v0 := ventry psi I
  let v1 := ventry psi (I + d0)
  let v2 := ventry psi (I + d1)
  let v3 := ventry psi (I + d0 + d1)
  let row := fun r => Cplx.add (Cplx.mul v0 (mentry m r 0)) (Cplx.add (Cplx.mul v1 (mentry m r 1))
    (Cplx.add (Cplx.mul v2 (mentry m r 2)) (Cplx.mul v3 (mentry m r 3))))
  ((((psi.set I (row 0)).set (I + d0) (row 1)).set (I + d1) (row 2)).set (I + d0 + d1) (row 3))

/-- `kernel` of `kernel2.hpp`: `dsorted` is `{d0, d1}` sorted descending;
block bases are `i0 + i1 + i2` with both target bits clear. -/
def kernel2 (psi : Vec) (id1 id0 : ℕ) (m : Mat) (ctrlmask : ℕ) : Vec :=
  let n := psi.length
  let d0 := 2 ^ id0
  let d1 := 2 ^ id1
  let db := max d0 d1
  let ds := min d0 d1
  if ctrlmask = 0 then
    (stepRange 0 n (2 * db)).foldl (fun ψ i0 =>
      (stepRange 0 db (2 * ds)).foldl (fun ψ2 i1 =>
        (List.range ds).foldl (fun ψ3 i2 => kernel_core2 ψ3 (i0 + i1 + i2) d0 d1 m) ψ2) ψ) psi
  else
    (stepRange 0 n (2 * db)).foldl (fun ψ i0 =>
      (stepRange 0 db (2 * ds)).foldl (fun ψ2 i1 =>
        (List.range ds).foldl (fun ψ3 i2 =>
          if (i0 + i1 + i2) &&& ctrlmask = ctrlmask then kernel_core2 ψ3 (i0 + i1 + i2) d0 d1 m
          else ψ3) ψ2) ψ) psi

/-- The local offset of local index `j` within a block: `Σ_l j_l · d_l`.
The unrolled C++ cores address `psi[I + d0]`, `psi[I + d0 + d1]`, ... -/
def blockOff (ds : List ℕ) (j : ℕ) : ℕ :=
  (List.range ds.length).foldl (fun a l => a + (if j.testBit l then ds.getD l 0 else 0)) 0

/-- The generic width-`k` `kernel_core`: the unrolled bodies of
`kernel3.hpp`..`kernel5.hpp` compute exactly this: read the `2^k` block
entries into `v`, then write `psi[I + off r] = Σ_j v[j]·m[r][j]`. -/
def kernel_core_gen (psi : Vec) (I : ℕ) (ds : List ℕ) (m : Mat) : Vec :=
  let k2 := 2 ^ ds.length
  let v := (List.range k2).map (fun j => ventry psi (I + blockOff ds j))
  (List.range k2).foldl (fun ψ r =>
    ψ.set (I + blockOff ds r) (csum k2 (fun j => Cplx.mul (v.getD j 0) (mentry m r j)))) psi

/-- The nested loop structure shared by all kernels: the outer loops step by
`2·d` over the sorted strides, the innermost is a plain range; the produced
values are the visited block bases `i0 + i1 + ... + i_k`. -/
def nestLoops : ℕ → List ℕ → List ℕ
  | lim, [] => List.range lim
  | lim, d :: t => (stepRange 0 lim (2 * d)).flatMap (fun i => (nestLoops d t).map (fun b => i + b))

/-- `dsorted`: the strides sorted descending (`std::sort` with
`std::greater`). -/
def dsortedOf (ds : List ℕ) : List ℕ :=
  List.insertionSort (fun a b => b ≤ a) ds

/-- The generic width-`k` kernel (`kernel3.hpp`..`kernel5.hpp` are its
unrolled width-3/4/5 instances): `ids` is given low-to-high local bit
(`[id0, id1, ...]` with `d_l = 1 << id_l`), the loop nest runs over
`dsorted` descending, and the control test is on the block base. -/
def kernelK (psi : Vec) (ids : List ℕ) (m : Mat) (ctrlmask : ℕ) : Vec :=
  let n := psi.length
  let ds := ids.map (fun id => 2 ^ id)
  let dsorted := dsortedOf ds
  (nestLoops n dsorted).foldl (fun ψ base =>
    if ctrlmask = 0 ∨ base &&& ctrlmask = ctrlmask then kernel_core_gen ψ base ds m
    else ψ) psi

/-! ## The buffered simulator: `apply_controlled_gate` and `run` -/

/-- Default fusion width bounds (`Simulator::Simulator`). -/
def fusion_qubits_min : ℕ := 4

/-- Default maximum fusion width. -/
def fusion_qubits_max : ℕ := 5

/-- `(a - b)` on `std::size_t`. -/
def subSizeT (a b : ℕ) : ℕ := (a % SIZE_T_MOD + (SIZE_T_MOD - b % SIZE_T_MOD)) % SIZE_T_MOD

/-- `Simulator::get_control_mask`; `map_[c]` may insert. -/
def getCtrlMask : Smap → List ℕ → Smap × ℕ
  | m, [] => (m, 0)
  | m, c :: t =>
      let mp := mapGetRef m c
      let r := getCtrlMask mp.1 t
      (r.1, r.2 ||| 2 ^ mp.2)

/-- The full simulator state: flushed part plus the fusion buffer. -/
structure SimF where
  sim : Sim
  fused_gates : Fusion
deriving DecidableEq, Repr

/-- `Simulator::run`: flush the fusion buffer.  `perform_fusion` produces
the combined matrix, its target ids and the global controls; the ids are
sent through the map, and the width-`k` kernel dispatched.  The `switch` has
no default case: a fused width outside 1..5 dispatches nothing, and the
buffer is cleared regardless. -/
def Simulator.run (s : SimF) : SimF :=
  if s.fused_gates.fsize < 1 then s
  else
    let pf := s.fused_gates.perform_fusion
    let m := pf.1
    let mp := getPositions s.sim.map pf.2.1
    let slots := mp.2
    let mc := getCtrlMask mp.1 pf.2.2
    let ctrlmask := mc.2
    let vec' :=
      match slots with
      | [a] => kernel1 s.sim.vec a m ctrlmask
      | [a, b] => kernel2 s.sim.vec b a m ctrlmask
      | [a, b, c] => kernelK s.sim.vec [a, b, c] m ctrlmask
      | [a, b, c, d] => kernelK s.sim.vec [a, b, c, d] m ctrlmask
      | [a, b, c, d, e] => kernelK s.sim.vec [a, b, c, d, e] m ctrlmask
      | _ => s.sim.vec
    ⟨{ s.sim with vec := vec', map := mc.1 }, emptyFusion⟩

/-- `Simulator::apply_controlled_gate`: insert into a copy of the buffer;
if the touched count lands in `[min, max]`, commit and flush (including the
new command); else if it exceeds `max`, or `num_qubits() - ids.size()`
(a `std::size_t` subtraction) exceeds the old buffer's count, flush the old
buffer and insert the command into the fresh one; otherwise just commit the
enlarged buffer. -/
def apply_controlled_gate (s : SimF) (m : Mat) (ids ctrl : List ℕ) : SimF :=
  let fused_gates := s.fused_gates.insert m ids ctrl
  if fusion_qubits_min ≤ fused_gates.num_qubits ∧
     fused_gates.num_qubits ≤ fusion_qubits_max then
    Simulator.run { s with fused_gates := fused_gates }
  else if fusion_qubits_max < fused_gates.num_qubits ∨
          s.fused_gates.num_qubits < subSizeT fused_gates.num_qubits ids.length then
    let s1 := Simulator.run s
    { s1 with fused_gates := s1.fused_gates.insert m ids ctrl }
  else
    { s with fused_gates := fused_gates }

/-! ## Basic lemmas about the buffer and `run` -/

theorem demote_snd_length (c : HCtx) (items : List Item) :
    ((demote c items).2).length = items.length := by
  unfold demote; split <;> simp

theorem Fusion.insert_fsize (f : Fusion) (m : Mat) (ids cl : List ℕ) :
    (f.insert m ids cl).fsize = f.fsize + 1 := by
  unfold Fusion.insert Fusion.fsize
  simp [demote_snd_length, Fusion.fsize]

theorem run_of_empty {s : SimF} (h : s.fused_gates.fsize = 0) :
    Simulator.run s = s := by
  unfold Simulator.run
  rw [if_pos (by omega)]

theorem run_fused_gates_of_pos {s : SimF} (h : 0 < s.fused_gates.fsize) :
    (Simulator.run s).fused_gates = emptyFusion := by
  unfold Simulator.run
  rw [if_neg (by omega)]

/-! ## Claim C2: the fusion sizing heuristic -/

/-- The three possible sizing outcomes for a new command. -/
inductive FlushDecision where
  | flushOldThenFresh
  | flushIncludingNew
  | queueOnly
deriving DecidableEq, Repr

/-- Modelled from the claim wording of C2 (for comparison with the code):
"a new command that would push the touched-qubit count strictly above the
maximum, or whose own target count exceeds the qubits already buffered,
forces an immediate flush of the old buffer before the new command starts a
fresh buffer; a command that brings the touched count into [min, max]
triggers an immediate flush including the new command; otherwise the
command is only queued." -/
def claimedSizingDecision (old : Fusion) (f' : Fusion) (ids : List ℕ) : FlushDecision :=
  if fusion_qubits_max < f'.num_qubits ∨ old.num_qubits < ids.length then
    .flushOldThenFresh
  else if fusion_qubits_min ≤ f'.num_qubits ∧ f'.num_qubits ≤ fusion_qubits_max then
    .flushIncludingNew
  else .queueOnly

/-- The effect of `apply_controlled_gate` that C2's wording describes,
driven by `claimedSizingDecision`. -/
def applyClaimedSizing (s : SimF) (m : Mat) (ids ctrl : List ℕ) : SimF :=
  let f' := s.fused_gates.insert m ids ctrl
  match claimedSizingDecision s.fused_gates f' ids with
  | .flushOldThenFresh =>
      let s1 := Simulator.run s
      { s1 with fused_gates := s1.fused_gates.insert m ids ctrl }
  | .flushIncludingNew => Simulator.run { s with fused_gates := f' }
  | .queueOnly => { s with fused_gates := f' }

/-- Three qubits in state `|000⟩` with an X gate on qubit 0 already queued
(one buffered item touching one qubit). -/
def c2State : SimF :=
  ⟨⟨3, buildVec 8 (fun i => if i = 0 then 1 else 0), [(0, 0), (1, 1), (2, 2)]⟩,
   emptyFusion.insert [[0, 1], [1, 0]] [0] []⟩

/-- A 4×4 identity matrix for a two-target command. -/
def c2Mat4 : Mat :=
  (List.range 4).map (fun i => (List.range 4).map (fun j => if i = j then 1 else 0))

/-- **C2 counterexample.**  A two-target command arriving at a buffer that
already holds a one-qubit item (touched count after insert = 3): the claim's
rule ("own target count exceeds the qubits already buffered": 2 > 1) demands
an immediate flush of the old buffer, but the code only queues the command —
the condition the code tests is `num_qubits() - ids.size() > old count`
(1 > 1, false), not `ids.size() > old count`.  The simulator state is left
untouched (second conjunct), whereas the claimed behavior dispatches the
queued X gate. -/
theorem C2_counterexample :
    apply_controlled_gate c2State c2Mat4 [1, 2] []
        ≠ applyClaimedSizing c2State c2Mat4 [1, 2] [] ∧
      (apply_controlled_gate c2State c2Mat4 [1, 2] []).sim = c2State.sim := by
  constructor
  · exact of_decide_eq_true (by with_unfolding_all rfl)
  · with_unfolding_all rfl

/-- **C2** (amended): for every call to `apply_controlled_gate` with the
default widths (min 4, max 5), with `nq` the touched-qubit count after
inserting the new command: if `nq` lands in `[min, max]` the whole buffer
including the new command is flushed at once (checked first); otherwise, if
`nq` exceeds the maximum or `nq - ids.size()` exceeds the old buffer's
touched count, the old buffer alone is flushed and the new command starts a
fresh buffer; otherwise the command is only queued and the simulator state
is untouched. -/
theorem C2_fusion_sizing (s : SimF) (m : Mat) (ids ctrl : List ℕ) :
    ((fusion_qubits_min ≤ (s.fused_gates.insert m ids ctrl).num_qubits ∧
        (s.fused_gates.insert m ids ctrl).num_qubits ≤ fusion_qubits_max) →
      apply_controlled_gate s m ids ctrl
          = Simulator.run { s with fused_gates := s.fused_gates.insert m ids ctrl } ∧
        (apply_controlled_gate s m ids ctrl).fused_gates = emptyFusion) ∧
    (¬(fusion_qubits_min ≤ (s.fused_gates.insert m ids ctrl).num_qubits ∧
        (s.fused_gates.insert m ids ctrl).num_qubits ≤ fusion_qubits_max) →
      (fusion_qubits_max < (s.fused_gates.insert m ids ctrl).num_qubits ∨
        s.fused_gates.num_qubits
          < subSizeT (s.fused_gates.insert m ids ctrl).num_qubits ids.length) →
      apply_controlled_gate s m ids ctrl
          = { Simulator.run s with
              fused_gates := (Simulator.run s).fused_gates.insert m ids ctrl } ∧
        (0 < s.fused_gates.fsize →
          (apply_controlled_gate s m ids ctrl).fused_gates
            = emptyFusion.insert m ids ctrl)) ∧
    (¬(fusion_qubits_min ≤ (s.fused_gates.insert m ids ctrl).num_qubits ∧
        (s.fused_gates.insert m ids ctrl).num_qubits ≤ fusion_qubits_max) →
      ¬(fusion_qubits_max < (s.fused_gates.insert m ids ctrl).num_qubits ∨
        s.fused_gates.num_qubits
          < subSizeT (s.fused_gates.insert m ids ctrl).num_qubits ids.length) →
      (apply_controlled_gate s m ids ctrl).sim = s.sim ∧
        (apply_controlled_gate s m ids ctrl).fused_gates
          = s.fused_gates.insert m ids ctrl) := by
  refine ⟨fun h1 => ?_, fun h1 h2 => ?_, fun h1 h2 => ?_⟩
  · unfold apply_controlled_gate
    rw [if_pos h1]
    refine ⟨rfl, ?_⟩
    apply run_fused_gates_of_pos
    rw [Fusion.insert_fsize]
    omega
  · unfold apply_controlled_gate
    rw [if_neg h1, if_pos h2]
    refine ⟨rfl, fun hpos => ?_⟩
    show (Simulator.run s).fused_gates.insert m ids ctrl = emptyFusion.insert m ids ctrl
    rw [run_fused_gates_of_pos hpos]
  · unfold apply_controlled_gate
    rw [if_neg h1, if_neg h2]
    exact ⟨rfl, rfl⟩

/-- Witness for C2: at the counterexample input (the queue-only branch of
the corrected rule), the simulator state is untouched and the command is
queued behind the old item. -/
theorem C2_fusion_sizing_witness :
    (apply_controlled_gate c2State c2Mat4 [1, 2] []).sim = c2State.sim ∧
      (apply_controlled_gate c2State c2Mat4 [1, 2] []).fused_gates
        = c2State.fused_gates.insert c2Mat4 [1, 2] [] := by
  exact (C2_fusion_sizing c2State c2Mat4 [1, 2] []).2.2 (by decide) (by decide)

/-! ## Bit-mask accumulation lemmas

The measurement/collapse/probability operations all build a slot mask
`mask |= 1 << pos` and a value word `val |= bit << pos`; these lemmas
characterize the loops' results bit by bit. -/

/-- `maskFold ps = OR of 2^p over p in ps`. -/
def maskFold (ps : List ℕ) : ℕ := ps.foldl (fun a p => a ||| 2 ^ p) 0

/-- `valFold ps bs = OR of (b ? 2^p : 0) over the pairs of ps and bs`. -/
def valFold (ps : List ℕ) (bs : List Bool) : ℕ :=
  (ps.zip bs).foldl (fun a pb => a ||| (if pb.2 then 2 ^ pb.1 else 0)) 0

theorem foldl_or_shift {α : Type} (g : α → ℕ) (l : List α) (a : ℕ) :
    l.foldl (fun x p => x ||| g p) a = a ||| l.foldl (fun x p => x ||| g p) 0 := by
  induction l generalizing a with
  | nil => simp
  | cons h t ih =>
      simp only [List.foldl_cons]
      rw [ih (a ||| g h), ih (0 ||| g h)]
      simp [Nat.or_assoc]

theorem maskFold_cons (p : ℕ) (ps : List ℕ) :
    maskFold (p :: ps) = 2 ^ p ||| maskFold ps := by
  unfold maskFold
  simp only [List.foldl_cons]
  rw [foldl_or_shift]
  simp


theorem testBit_maskFold (ps : List ℕ) (b : ℕ) :
    (maskFold ps).testBit b = true ↔ b ∈ ps := by
  induction ps with
  | nil => simp [maskFold]
  | cons p t ih =>
      rw [maskFold_cons, Nat.testBit_or, Nat.testBit_two_pow]
      simp only [Bool.or_eq_true, decide_eq_true_eq, List.mem_cons, ih]
      constructor
      · rintro (rfl | h)
        · exact Or.inl rfl
        · exact Or.inr h
      · rintro (rfl | h)
        · exact Or.inl rfl
        · exact Or.inr h

theorem valFold_cons (p : ℕ) (b : Bool) (ps : List ℕ) (bs : List Bool) :
    valFold (p :: ps) (b :: bs) = (if b then 2 ^ p else 0) ||| valFold ps bs := by
  unfold valFold
  simp only [List.zip_cons_cons, List.foldl_cons]
  rw [foldl_or_shift]
  simp

theorem testBit_valFold (ps : List ℕ) (bs : List Bool) (b : ℕ) :
    (valFold ps bs).testBit b = true ↔
      ∃ pb ∈ ps.zip bs, pb.1 = b ∧ pb.2 = true := by
  induction ps generalizing bs with
  | nil => simp [valFold]
  | cons p t ih =>
      cases bs with
      | nil => simp [valFold]
      | cons v vs =>
          rw [valFold_cons, Nat.testBit_or]
          cases v with
          | false =>
              simp only [if_neg (by simp : ¬(false = true)), Nat.zero_testBit,
                Bool.false_or, ih, List.zip_cons_cons, List.mem_cons]
              constructor
              · rintro ⟨pb, hmem, hb, ht⟩
                exact ⟨pb, Or.inr hmem, hb, ht⟩
              · rintro ⟨pb, (rfl | hmem), hb, ht⟩
                · simp at ht
                · exact ⟨pb, hmem, hb, ht⟩
          | true =>
              rw [show (if (true : Bool) = true then 2 ^ p else 0) = 2 ^ p from rfl,
                  Nat.testBit_two_pow]
              simp only [List.zip_cons_cons, List.mem_cons, Bool.or_eq_true,
                decide_eq_true_eq, ih]
              constructor
              · rintro (rfl | ⟨pb, hmem, hb, ht⟩)
                · exact ⟨(p, true), Or.inl rfl, rfl, rfl⟩
                · exact ⟨pb, Or.inr hmem, hb, ht⟩
              · rintro ⟨pb, (rfl | hmem), hb, ht⟩
                · exact Or.inl hb
                · exact Or.inr ⟨pb, hmem, hb, ht⟩

theorem testBit_valFold_of_not_mem {ps : List ℕ} {bs : List Bool} {b : ℕ}
    (h : b ∉ ps) : (valFold ps bs).testBit b = false := by
  rw [← Bool.not_eq_true]
  intro hc
  obtain ⟨pb, hmem, hfst, _⟩ := (testBit_valFold ps bs b).mp hc
  exact h (hfst ▸ (List.of_mem_zip hmem).1)

theorem testBit_maskFold_of_not_mem {ps : List ℕ} {b : ℕ}
    (h : b ∉ ps) : (maskFold ps).testBit b = false := by
  rw [← Bool.not_eq_true]
  intro hc
  exact h ((testBit_maskFold ps b).mp hc)

theorem valFold_testBit_nodup {ps : List ℕ} {bs : List Bool}
    (hnd : ps.Nodup) (hlen : ps.length = bs.length) :
    ∀ j, j < ps.length → (valFold ps bs).testBit (ps.getD j 0) = bs.getD j false := by
  induction ps generalizing bs with
  | nil => intro j hj; simp at hj
  | cons p t ih =>
      cases bs with
      | nil => simp at hlen
      | cons v vs =>
          intro j hj
          rw [valFold_cons, Nat.testBit_or]
          cases j with
          | zero =>
              simp only [List.getD_cons_zero]
              rw [testBit_valFold_of_not_mem (List.nodup_cons.mp hnd).1]
              cases v <;> simp [Nat.testBit_two_pow]
          | succ k =>
              have hk : k < t.length := by simpa using hj
              have hmem : t.getD k 0 ∈ t := by
                rw [List.getD_eq_getElem?_getD, List.getElem?_eq_getElem hk]
                exact List.getElem_mem hk
              have hne : p ≠ t.getD k 0 :=
                fun he => (List.nodup_cons.mp hnd).1 (he ▸ hmem)
              simp only [List.getD_cons_succ]
              rw [ih (List.nodup_cons.mp hnd).2 (by simpa using hlen) k hk]
              cases v with
              | false => simp
              | true =>
                  rw [show (if (true : Bool) = true then 2 ^ p else 0) = 2 ^ p from rfl,
                      Nat.testBit_two_pow_of_ne hne]
                  simp

theorem land_maskFold_eq_valFold_iff {ps : List ℕ} {bs : List Bool} (i : ℕ)
    (hnd : ps.Nodup) (hlen : ps.length = bs.length) :
    (i &&& maskFold ps = valFold ps bs) ↔
      ∀ j, j < ps.length → i.testBit (ps.getD j 0) = bs.getD j false := by
  constructor
  · intro h j hj
    have hmem : ps.getD j 0 ∈ ps := by
      rw [List.getD_eq_getElem?_getD, List.getElem?_eq_getElem hj]
      exact List.getElem_mem hj
    have ht := congrArg (fun x => x.testBit (ps.getD j 0)) h
    simp only [Nat.testBit_land] at ht
    rw [(testBit_maskFold ps _).mpr hmem, Bool.and_true] at ht
    rw [ht, valFold_testBit_nodup hnd hlen j hj]
  · intro h
    apply Nat.eq_of_testBit_eq
    intro b
    rw [Nat.testBit_land]
    by_cases hb : b ∈ ps
    · obtain ⟨k, hk, hget⟩ := List.mem_iff_getElem.mp hb
      have hgd : ps.getD k 0 = b := by
        rw [List.getD_eq_getElem?_getD, List.getElem?_eq_getElem hk]
        simpa using hget
      rw [(testBit_maskFold ps b).mpr hb, Bool.and_true, ← hgd,
          h k hk, valFold_testBit_nodup hnd hlen k hk]
    · rw [testBit_maskFold_of_not_mem hb, Bool.and_false,
          testBit_valFold_of_not_mem hb]

/-! ## Index-map lemmas -/

theorem SmapWF.keys_nodup {m : Smap} (h : SmapWF m) : (m.map Prod.fst).Nodup := by
  have hc := (smapSortedB_iff m).mp h
  exact (List.chain'_iff_pairwise.mp hc).imp Nat.ne_of_lt

theorem mapCount_iff {m : Smap} {k : ℕ} : mapCount m k = true ↔ k ∈ m.map Prod.fst := by
  unfold mapCount
  simp only [List.any_eq_true, decide_eq_true_eq, List.mem_map]

theorem mapFindD_of_mem {m : Smap} (hwf : SmapWF m) {k v : ℕ} (h : (k, v) ∈ m) :
    mapFindD m k = v := by
  induction m with
  | nil => simp at h
  | cons p t ih =>
      have hnd := hwf.keys_nodup
      rcases List.mem_cons.mp h with rfl | hmem
      · unfold mapFindD
        simp [List.find?_cons_of_pos]
      · have hne : p.1 ≠ k := by
          intro he
          rw [List.map_cons, List.nodup_cons] at hnd
          exact hnd.1 (he ▸ List.mem_map_of_mem Prod.fst hmem)
        unfold mapFindD
        rw [List.find?_cons_of_neg _ (by simpa using hne)]
        have hwft : SmapWF t := smapSortedB_tail hwf
        exact ih hwft hmem

theorem mapGetRef_of_mapped {m : Smap} {k : ℕ} (h : mapCount m k = true) :
    mapGetRef m k = (m, mapFindD m k) := by
  unfold mapGetRef
  rw [if_pos h]

/-- Mapping each key through `mapFindD` recovers the value column. -/
theorem map_mapFindD_keys {m : Smap} (hwf : SmapWF m) :
    (m.map Prod.fst).map (mapFindD m) = m.map Prod.snd := by
  rw [List.map_map]
  apply List.map_congr_left
  intro p hp
  exact mapFindD_of_mem hwf (by simpa using hp)

/-- A mask accumulated over a list covering exactly `[0, N)` is `2^N - 1`. -/
theorem maskFold_eq_pow_sub_one {l : List ℕ} {N : ℕ}
    (h : ∀ b, b ∈ l ↔ b < N) : maskFold l = 2 ^ N - 1 := by
  apply Nat.eq_of_testBit_eq
  intro b
  rw [Nat.testBit_two_pow_sub_one]
  by_cases hb : b < N
  · rw [(testBit_maskFold l b).mpr ((h b).mpr hb)]
    simp [hb]
  · rw [testBit_maskFold_of_not_mem (fun hc => hb ((h b).mp hc))]
    simp [hb]

theorem takeWhile_eq_self_of_forall {α : Type} {p : α → Bool} {l : List α}
    (h : ∀ x ∈ l, p x = true) : l.takeWhile p = l :=
  List.takeWhile_eq_self_iff.mpr h

/-! ## Claim C8: `get_amplitude` -/

/-- The loop of `get_amplitude` accumulates the slot mask and index over the
longest prefix of already-mapped ids and stops at the first unknown id. -/
theorem gaLoop_eq (m : Smap) (l : List (ℕ × Bool)) (chk idx : ℕ) :
    gaLoop m l chk idx
      = (chk ||| maskFold ((l.takeWhile (fun p => mapCount m p.1)).map
            (fun p => mapFindD m p.1)),
         idx ||| valFold ((l.takeWhile (fun p => mapCount m p.1)).map
            (fun p => mapFindD m p.1))
          ((l.takeWhile (fun p => mapCount m p.1)).map Prod.snd)) := by
  induction l generalizing chk idx with
  | nil => simp [gaLoop, maskFold, valFold]
  | cons p t ih =>
      by_cases hc : mapCount m p.1 = false
      · unfold gaLoop
        rw [if_pos hc, List.takeWhile_cons_of_neg (by simp [hc])]
        simp [maskFold, valFold]
      · have hc2 : mapCount m p.1 = true := by
          revert hc; cases mapCount m p.1 <;> simp
        unfold gaLoop
        rw [if_neg hc, List.takeWhile_cons_of_pos (by simp [hc2]), ih]
        simp only [List.map_cons, maskFold_cons, valFold_cons]
        simp [Nat.or_assoc]

/-- `c8Sim`: two qubits with slots 0 and 1 and amplitude vector
`[1, 2, 3, 4]`. -/
def c8Sim : Sim := ⟨2, [⟨1, 0⟩, ⟨2, 0⟩, ⟨3, 0⟩, ⟨4, 0⟩], [(0, 0), (1, 1)]⟩

/-- **C8 counterexample.**  `get_amplitude` does not fail on the list
`[0, 0, 1]`, which is not a permutation of the allocated qubits `{0, 1}`
(qubit 0 appears twice): the accumulated slot mask still covers the whole
register, so the check `chk + 1 == vec_.size()` passes and the amplitude at
index 2 is returned. -/
theorem C8_counterexample :
    ¬ List.Perm [0, 0, 1] (c8Sim.map.map Prod.fst) ∧
      get_amplitude c8Sim [false, false, true] [0, 0, 1] = Except.ok ⟨3, 0⟩ := by
  constructor
  · exact of_decide_eq_true (by with_unfolding_all rfl)
  · with_unfolding_all rfl

/-- **C8** (amended).  `get_amplitude` fails iff the slot mask accumulated
over the longest prefix of already-mapped ids (the loop breaks at the first
unknown id) does not cover the whole register — so every permutation of all
allocated qubits succeeds, but certain duplicate-containing or
unknown-id-containing lists succeed too, which refutes the claimed "fails
iff not a permutation".  On a permutation the returned amplitude sits at
the index whose bit at each id's slot equals the corresponding bit-string
entry. -/
theorem C8_get_amplitude (s : Sim) (bit_string : List Bool) (ids : List ℕ)
    (hwf : SmapWF s.map)
    (hslots : (s.map.map Prod.snd).Perm (List.range s.N))
    (hvec : s.vec.length = 2 ^ s.N)
    (hlen : bit_string.length = ids.length) :
    ((∃ e, get_amplitude s bit_string ids = Except.error e) ↔
      maskFold (((ids.zip bit_string).takeWhile (fun p => mapCount s.map p.1)).map
          (fun p => mapFindD s.map p.1)) + 1 ≠ s.vec.length) ∧
    (ids.Perm (s.map.map Prod.fst) →
      get_amplitude s bit_string ids
          = Except.ok (ventry s.vec (valFold (ids.map (mapFindD s.map)) bit_string)) ∧
      ∀ j, j < ids.length →
        (valFold (ids.map (mapFindD s.map)) bit_string).testBit
            (mapFindD s.map (ids.getD j 0)) = bit_string.getD j false) := by
  have hga : get_amplitude s bit_string ids
      = (if maskFold (((ids.zip bit_string).takeWhile (fun p => mapCount s.map p.1)).map
            (fun p => mapFindD s.map p.1)) + 1 ≠ s.vec.length
         then Except.error SimError.invalidPermutation
         else Except.ok (ventry s.vec
           (valFold (((ids.zip bit_string).takeWhile (fun p => mapCount s.map p.1)).map
              (fun p => mapFindD s.map p.1))
             (((ids.zip bit_string).takeWhile (fun p => mapCount s.map p.1)).map
               Prod.snd)))) := by
    unfold get_amplitude
    rw [gaLoop_eq]
    simp [Nat.zero_or]
  constructor
  · rw [hga]
    by_cases hcond : maskFold (((ids.zip bit_string).takeWhile
        (fun p => mapCount s.map p.1)).map (fun p => mapFindD s.map p.1)) + 1
        ≠ s.vec.length
    · rw [if_pos hcond]
      exact ⟨fun _ => hcond, fun _ => ⟨SimError.invalidPermutation, rfl⟩⟩
    · rw [if_neg hcond]
      constructor
      · rintro ⟨e, he⟩
        exact absurd he (by simp)
      · intro hc
        exact absurd hc hcond
  · intro hperm
    have hlen2 : ids.length ≤ bit_string.length := le_of_eq hlen.symm
    have hmapped : ∀ p ∈ ids.zip bit_string, (fun p => mapCount s.map p.1) p = true := by
      intro p hp
      exact mapCount_iff.mpr (hperm.mem_iff.mp (List.of_mem_zip hp).1)
    have htw : (ids.zip bit_string).takeWhile (fun p => mapCount s.map p.1)
        = ids.zip bit_string := takeWhile_eq_self_of_forall hmapped
    have hfst : (ids.zip bit_string).map (fun p => mapFindD s.map p.1)
        = ids.map (mapFindD s.map) := by
      have h1 : (ids.zip bit_string).map (fun p => mapFindD s.map p.1)
          = ((ids.zip bit_string).map Prod.fst).map (mapFindD s.map) := by
        rw [List.map_map]
        rfl
      rw [h1, List.map_fst_zip _ _ hlen2]
    have hsnd : (ids.zip bit_string).map Prod.snd = bit_string :=
      List.map_snd_zip _ _ (le_of_eq hlen)
    have hpermslots : (ids.map (mapFindD s.map)).Perm (List.range s.N) := by
      have h1 : (ids.map (mapFindD s.map)).Perm
          ((s.map.map Prod.fst).map (mapFindD s.map)) := hperm.map _
      rw [map_mapFindD_keys hwf] at h1
      exact h1.trans hslots
    have hcov : maskFold (ids.map (mapFindD s.map)) = 2 ^ s.N - 1 := by
      apply maskFold_eq_pow_sub_one
      intro b
      rw [hpermslots.mem_iff, List.mem_range]
    have hchk : maskFold (ids.map (mapFindD s.map)) + 1 = s.vec.length := by
      rw [hcov, hvec]
      have := Nat.one_le_two_pow (n := s.N)
      omega
    have hok : get_amplitude s bit_string ids
        = Except.ok (ventry s.vec (valFold (ids.map (mapFindD s.map)) bit_string)) := by
      rw [hga, htw, hfst, hsnd, if_neg (by rw [hchk]; simp)]
    refine ⟨hok, fun j hj => ?_⟩
    have hnd : (ids.map (mapFindD s.map)).Nodup :=
      hpermslots.symm.nodup (List.nodup_range s.N)
    have hlens : (ids.map (mapFindD s.map)).length = bit_string.length := by
      rw [List.length_map, hlen]
    have hgd : (ids.map (mapFindD s.map)).getD j 0 = mapFindD s.map (ids.getD j 0) := by
      rw [List.getD_eq_getElem?_getD, List.getD_eq_getElem?_getD, List.getElem?_map,
          List.getElem?_eq_getElem hj]
      simp
    rw [← hgd]
    exact valFold_testBit_nodup hnd hlens j (by simpa using hj)

/-- Witness for C8: two allocated qubits, the permutation `[1, 0]` with bit
string `[true, false]` selects index 2 and returns amplitude `3`. -/
theorem C8_get_amplitude_witness :
    get_amplitude c8Sim [true, false] [1, 0] = Except.ok ⟨3, 0⟩ := by
  have h := (C8_get_amplitude c8Sim [true, false] [1, 0]
    (of_decide_eq_true (by with_unfolding_all rfl))
    (of_decide_eq_true (by with_unfolding_all rfl)) rfl rfl).2
    (of_decide_eq_true (by with_unfolding_all rfl))
  rw [h.1]
  with_unfolding_all rfl

/-! ## Claim C6: `collapse_wavefunction` -/

theorem qsum_mul_left (n : ℕ) (a : ℚ) (f : ℕ → ℚ) :
    qsum n (fun i => a * f i) = a * qsum n f := by
  induction n with
  | zero => simp
  | succ k ih => rw [qsum_succ, qsum_succ, ih]; ring

theorem getD_map_of_lt {f : ℕ → ℕ} {l : List ℕ} {j : ℕ} (hj : j < l.length) :
    (l.map f).getD j 0 = f (l.getD j 0) := by
  rw [List.getD_eq_getElem?_getD, List.getD_eq_getElem?_getD, List.getElem?_map,
      List.getElem?_eq_getElem hj]
  simp

/-- The `mask |= 1UL << map_[ids[i]]` loop is `maskFold` over the slots. -/
theorem maskFold_map (f : ℕ → ℕ) (ids : List ℕ) :
    ids.foldl (fun a id => a ||| 2 ^ f id) 0 = maskFold (ids.map f) := by
  rw [maskFold, List.foldl_map]

/-- The `val |= value << map_[ids[i]]` loop is `valFold` over the slots. -/
theorem valFold_map (f : ℕ → ℕ) (ids : List ℕ) (values : List Bool) :
    (ids.zip values).foldl (fun a p => a ||| if p.2 then 2 ^ f p.1 else 0) 0
      = valFold (ids.map f) values := by
  rw [valFold, List.zip_map_left, List.foldl_map]
  rfl

/-- The squared-norm mass of the entries consistent with assigning
`values` to the slots of `ids` — the quantity `get_probability` returns and
`collapse_wavefunction`/`measure_qubits` renormalize by. -/
def outcomeMass (s : Sim) (ids : List ℕ) (values : List Bool) : ℚ :=
  qsum s.vec.length (fun i =>
    if i &&& maskFold (ids.map (mapFindD s.map)) = valFold (ids.map (mapFindD s.map)) values
    then Cplx.normSq (ventry s.vec i) else 0)

theorem get_probability_ok (s : Sim) (values : List Bool) (ids : List ℕ)
    (hcheck : check_ids s ids = true) :
    get_probability s values ids = Except.ok (outcomeMass s ids values) := by
  unfold get_probability
  rw [if_neg (by simp [hcheck])]
  rw [maskFold_map (mapFindD s.map) ids, valFold_map (mapFindD s.map) ids values]
  rfl

/-- **C6** (confirmed).  For allocated ids (with distinct slots) and a
value list of matching length: `collapse_wavefunction` raises
`ZeroProbability` iff the requested outcome's probability mass — the value
`get_probability` reports — is below `1e-12`; when it raises, the state is
unchanged (the mass is computed in a read-only pass); otherwise every
amplitude whose bits at the ids' slots disagree with `values` is zeroed,
the consistent ones are scaled by `1/sqrt(mass)`, and (whenever `sqrt`
behaves as a square root on the mass) the total squared-norm mass after the
call is exactly 1. -/
theorem C6_collapse_wavefunction (sqrt : ℚ → ℚ) (s : Sim) (ids : List ℕ)
    (values : List Bool)
    (hlen : ids.length = values.length)
    (hcheck : check_ids s ids = true)
    (hnd : (ids.map (mapFindD s.map)).Nodup) :
    get_probability s values ids = Except.ok (outcomeMass s ids values) ∧
    ((collapse_wavefunction sqrt s ids values).1 = some SimError.zeroProbability
       ↔ outcomeMass s ids values < 1 / 10 ^ 12) ∧
    ((collapse_wavefunction sqrt s ids values).1 ≠ none →
       (collapse_wavefunction sqrt s ids values).2 = s) ∧
    ((collapse_wavefunction sqrt s ids values).1 = none →
       (∀ i, i < s.vec.length →
          ventry (collapse_wavefunction sqrt s ids values).2.vec i
            = if ∀ j, j < ids.length →
                  i.testBit (mapFindD s.map (ids.getD j 0)) = values.getD j false
              then Cplx.smul (1 / sqrt (outcomeMass s ids values)) (ventry s.vec i)
              else 0) ∧
       (sqrt (outcomeMass s ids values) * sqrt (outcomeMass s ids values)
           = outcomeMass s ids values →
          qsum s.vec.length (fun i =>
            Cplx.normSq (ventry (collapse_wavefunction sqrt s ids values).2.vec i)) = 1)) := by
  have hmask : ids.foldl (fun a id => a ||| 2 ^ mapFindD s.map id) 0
      = maskFold (ids.map (mapFindD s.map)) := maskFold_map _ _
  have hval : (ids.zip values).foldl
        (fun a p => a ||| if p.2 then 2 ^ mapFindD s.map p.1 else 0) 0
      = valFold (ids.map (mapFindD s.map)) values := valFold_map _ _ _
  have hcw : collapse_wavefunction sqrt s ids values
      = (if outcomeMass s ids values < 1 / 10 ^ 12
         then (some SimError.zeroProbability, s)
         else (none, { s with vec := buildVec s.vec.length (fun i =>
            if i &&& maskFold (ids.map (mapFindD s.map))
                  ≠ valFold (ids.map (mapFindD s.map)) values then 0
            else Cplx.smul (1 / sqrt (outcomeMass s ids values)) (ventry s.vec i)) })) := by
    unfold collapse_wavefunction
    rw [if_neg (by omega), if_neg (by simp [hcheck])]
    rw [hmask, hval]
    rfl
  have hlens : (ids.map (mapFindD s.map)).length = values.length := by
    rw [List.length_map, hlen]
  have hcondiff : ∀ i : ℕ,
      (i &&& maskFold (ids.map (mapFindD s.map))
          = valFold (ids.map (mapFindD s.map)) values)
        ↔ (∀ j, j < ids.length →
            i.testBit (mapFindD s.map (ids.getD j 0)) = values.getD j false) := by
    intro i
    rw [land_maskFold_eq_valFold_iff i hnd hlens]
    constructor
    · intro h j hj
      have := h j (by simpa using hj)
      rwa [getD_map_of_lt hj] at this
    · intro h j hj
      rw [List.length_map] at hj
      rw [getD_map_of_lt hj]
      exact h j hj
  refine ⟨get_probability_ok s values ids hcheck, ?_, ?_, ?_⟩
  · rw [hcw]
    by_cases hP : outcomeMass s ids values < 1 / 10 ^ 12
    · rw [if_pos hP]; simpa using hP
    · rw [if_neg hP]; simpa using hP
  · intro hne
    rw [hcw] at hne ⊢
    by_cases hP : outcomeMass s ids values < 1 / 10 ^ 12
    · rw [if_pos hP]
    · rw [if_neg hP] at hne
      simp at hne
  · intro hnone
    rw [hcw] at hnone
    by_cases hP : outcomeMass s ids values < 1 / 10 ^ 12
    · rw [if_pos hP] at hnone; simp at hnone
    · have hvec2 : (collapse_wavefunction sqrt s ids values).2.vec
          = buildVec s.vec.length (fun i =>
              if i &&& maskFold (ids.map (mapFindD s.map))
                    ≠ valFold (ids.map (mapFindD s.map)) values then 0
              else Cplx.smul (1 / sqrt (outcomeMass s ids values)) (ventry s.vec i)) := by
        rw [hcw, if_neg hP]
      constructor
      · intro i hi
        rw [hvec2, ventry_buildVec _ hi]
        rcases Classical.em (i &&& maskFold (ids.map (mapFindD s.map))
            = valFold (ids.map (mapFindD s.map)) values) with hc | hc
        · rw [if_neg (fun hn => hn hc), if_pos ((hcondiff i).mp hc)]
        · rw [if_pos hc, if_neg (fun hcontra => hc ((hcondiff i).mpr hcontra))]
      · intro hsq
        have hPpos : 0 < outcomeMass s ids values := by
          have h12 : (0 : ℚ) < 1 / 10 ^ 12 := by norm_num
          linarith [not_lt.mp hP]
        have hsnz : sqrt (outcomeMass s ids values) ≠ 0 := by
          intro h0
          rw [h0, mul_zero] at hsq
          exact absurd hsq.symm (ne_of_gt hPpos)
        have hq1 : qsum s.vec.length (fun i =>
            Cplx.normSq (ventry (collapse_wavefunction sqrt s ids values).2.vec i))
            = qsum s.vec.length (fun i =>
                (1 / sqrt (outcomeMass s ids values)) *
                  ((1 / sqrt (outcomeMass s ids values)) *
                    (if i &&& maskFold (ids.map (mapFindD s.map))
                        = valFold (ids.map (mapFindD s.map)) values
                     then Cplx.normSq (ventry s.vec i) else 0))) := by
          apply qsum_congr
          intro i hi
          rw [hvec2, ventry_buildVec _ hi]
          rcases Classical.em (i &&& maskFold (ids.map (mapFindD s.map))
              = valFold (ids.map (mapFindD s.map)) values) with hc | hc
          · rw [if_neg (fun hn => hn hc), if_pos hc, Cplx.normSq_smul]
            ring
          · rw [if_pos hc, if_neg hc]
            simp
        rw [hq1, qsum_mul_left, qsum_mul_left]
        show (1 / sqrt (outcomeMass s ids values)) *
            ((1 / sqrt (outcomeMass s ids values)) * outcomeMass s ids values) = 1
        field_simp
        exact hsq.symm

/-- One qubit in the state `(3/5)|0⟩ + (4/5)|1⟩`. -/
def c6Sim : Sim := ⟨1, [⟨3 / 5, 0⟩, ⟨4 / 5, 0⟩], [(0, 0)]⟩

/-- A square-root routine that is exact at the one mass value reached in the
C6 witness (`16/25`). -/
def c6Sqrt (x : ℚ) : ℚ := if x = 16 / 25 then 4 / 5 else 0

/-- Witness for C6: collapsing qubit 0 of `(3/5)|0⟩ + (4/5)|1⟩` onto `true`
succeeds, rescales the surviving amplitude to `1`, and the collapsed state
has total squared mass exactly 1. -/
theorem C6_collapse_wavefunction_witness :
    ventry (collapse_wavefunction c6Sqrt c6Sim [0] [true]).2.vec 1
        = Cplx.smul (1 / c6Sqrt (outcomeMass c6Sim [0] [true])) (ventry c6Sim.vec 1) ∧
      qsum c6Sim.vec.length (fun i =>
        Cplx.normSq (ventry (collapse_wavefunction c6Sqrt c6Sim [0] [true]).2.vec i)) = 1 := by
  have h := (C6_collapse_wavefunction c6Sqrt c6Sim [0] [true] rfl
      (by with_unfolding_all rfl) (by simp)).2.2.2
      (by with_unfolding_all rfl)
  have hcond : ∀ j, j < ([0] : List ℕ).length →
      Nat.testBit 1 (mapFindD c6Sim.map (([0] : List ℕ).getD j 0))
        = ([true] : List Bool).getD j false := by
    intro j hj
    have hj0 : j = 0 := by simpa using hj
    subst hj0
    with_unfolding_all rfl
  have h1 := h.1 1 (by norm_num [c6Sim])
  rw [if_pos hcond] at h1
  exact ⟨h1, h.2 (by with_unfolding_all rfl)⟩

/-! ## Claim C7: `deallocate_qubit` -/

theorem keys_map_vals (m : Smap) (f : ℕ × ℕ → ℕ) :
    ((m.map (fun p => (p.1, f p))).map Prod.fst) = m.map Prod.fst := by
  rw [List.map_map]
  rfl

theorem chain'_keys_of_sublist {l1 l2 : List ℕ}
    (hs : l1.Sublist l2) (h : l2.Chain' (· < ·)) : l1.Chain' (· < ·) := by
  rw [List.chain'_iff_pairwise] at h ⊢
  exact h.sublist hs

theorem SmapWF_map_vals {m : Smap} (hwf : SmapWF m) (f : ℕ × ℕ → ℕ) :
    SmapWF (m.map (fun p => (p.1, f p))) := by
  have h := (smapSortedB_iff m).mp hwf
  apply (smapSortedB_iff _).mpr
  rw [keys_map_vals]
  exact h

theorem SmapWF_filter {m : Smap} (hwf : SmapWF m) (pred : ℕ × ℕ → Bool) :
    SmapWF (m.filter pred) := by
  have h := (smapSortedB_iff m).mp hwf
  apply (smapSortedB_iff _).mpr
  exact chain'_keys_of_sublist ((List.filter_sublist m).map Prod.fst) h

theorem mapCount_mapErase (m : Smap) (id : ℕ) :
    mapCount (mapErase m id) id = false := by
  apply Bool.eq_false_iff.mpr
  intro hc
  unfold mapCount mapErase at hc
  simp only [List.any_eq_true, List.mem_filter, decide_eq_true_eq] at hc
  obtain ⟨p, ⟨_, hne⟩, he⟩ := hc
  simp [he] at hne

/-- After erasing `id` from the slot-shifted map, every other mapping
reports its shifted slot. -/
theorem mapFindD_erase_shift {m : Smap} (hwf : SmapWF m) (id : ℕ)
    (f : ℕ × ℕ → ℕ) {p : ℕ × ℕ} (hp : p ∈ m) (hne : p.1 ≠ id) :
    mapFindD (mapErase (m.map (fun q => (q.1, f q))) id) p.1 = f p := by
  have hwf2 : SmapWF (mapErase (m.map (fun q => (q.1, f q))) id) :=
    SmapWF_filter (SmapWF_map_vals hwf f) _
  apply mapFindD_of_mem hwf2
  unfold mapErase
  rw [List.mem_filter]
  refine ⟨List.mem_map_of_mem _ hp, by simpa using hne⟩

/-- One qubit in `|0⟩`. -/
def c7Sim : Sim := ⟨2, [⟨1, 0⟩, 0, 0, 0], [(0, 0), (1, 1)]⟩

/-- **C7 counterexample.**  Deallocating the unmapped id 5 does not fail
with an `UnknownId` error: the presence check in `deallocate_qubit` is a
debug `assert(map_.count(id) == 1)` (an abort, compiled out under
`NDEBUG`), not a thrown UnknownId exception. -/
theorem C7_counterexample :
    mapCount c7Sim.map 5 = false ∧
      (deallocate_qubit c7Sim 5).1 ≠ some SimError.unknownId ∧
      (deallocate_qubit c7Sim 5).1 = some SimError.assertViolation := by
  refine ⟨by with_unfolding_all rfl, ?_, by with_unfolding_all rfl⟩
  exact of_decide_eq_true (by with_unfolding_all rfl)

/-- **C7** (amended).  Deallocating an id that is not mapped is rejected
only by a debug assertion (not an `UnknownId` exception), leaving the state
untouched; deallocating a mapped id that is not classical raises the
"not measured / uncomputed" error and leaves the state untouched; for a
mapped id in a classical state the mapping is removed, `N_` decremented,
the vector halved keeping exactly the entries whose bit at the id's slot
equals the classical value, and every remaining qubit's slot above the
removed one decremented by one. -/
theorem C7_deallocate_qubit (s : Sim) (id : ℕ) (hwf : SmapWF s.map) :
    (mapCount s.map id = false →
      deallocate_qubit s id = (some SimError.assertViolation, s)) ∧
    (mapCount s.map id = true → (is_classical s id (1 / 10 ^ 12)).1 = false →
      deallocate_qubit s id = (some SimError.notClassical, s)) ∧
    (mapCount s.map id = true → (is_classical s id (1 / 10 ^ 12)).1 = true →
      (deallocate_qubit s id).1 = none ∧
      (deallocate_qubit s id).2.N = s.N - 1 ∧
      ((deallocate_qubit s id).2.vec).length = 2 ^ (s.N - 1) ∧
      (∀ k, k < 2 ^ (s.N - 1) →
        ventry (deallocate_qubit s id).2.vec k
          = ventry s.vec (insertBit k (mapFindD s.map id)
              (get_classical_value s id (1 / 10 ^ 12)).1)) ∧
      mapCount (deallocate_qubit s id).2.map id = false ∧
      (∀ p ∈ s.map, p.1 ≠ id →
        mapFindD (deallocate_qubit s id).2.map p.1
          = if mapFindD s.map id < p.2 then p.2 - 1 else p.2)) := by
  refine ⟨fun hno => ?_, fun hyes hncl => ?_, fun hyes hcl => ?_⟩
  · unfold deallocate_qubit
    rw [if_pos hno]
  · unfold deallocate_qubit
    rw [if_neg (by simp [hyes]), if_pos ?hc]
    case hc =>
      rw [Bool.eq_false_iff] at hncl ⊢
      simpa using hncl
    show (some SimError.notClassical, { s with map := (is_classical s id _).2 }) = _
    unfold is_classical
    rw [mapGetRef_of_mapped hyes]
  · have hdeq : deallocate_qubit s id
        = (none, collapse_vector s id (get_classical_value s id (1 / 10 ^ 12)).1 true) := by
      unfold deallocate_qubit
      rw [if_neg (by simp [hyes]), if_neg (by rw [hcl]; simp)]
      show (none, collapse_vector { s with map := (get_classical_value { s with map := (is_classical s id _).2 } id _).2 } id _ true) = _
      unfold is_classical get_classical_value
      rw [mapGetRef_of_mapped hyes]
      rw [mapGetRef_of_mapped (show mapCount ({ s with map := s.map } : Sim).map id = true from hyes)]
    have hcveq : collapse_vector s id (get_classical_value s id (1 / 10 ^ 12)).1 true
        = { N := s.N - 1,
            vec := buildVec (2 ^ (s.N - 1)) (fun k =>
              ventry s.vec (insertBit k (mapFindD s.map id)
                (get_classical_value s id (1 / 10 ^ 12)).1)),
            map := mapErase (s.map.map (fun p =>
              (p.1, if mapFindD s.map id < p.2 then p.2 - 1 else p.2))) id } := by
      unfold collapse_vector
      rw [mapGetRef_of_mapped hyes]
      rfl
    rw [hdeq, hcveq]
    refine ⟨rfl, rfl, by simp, fun k hk => ventry_buildVec _ hk, mapCount_mapErase _ _,
      fun p hp hne => ?_⟩
    exact mapFindD_erase_shift hwf id _ hp hne

/-- Witness for C7: deallocating classical qubit 0 of a two-qubit `|00⟩`
state leaves a one-qubit `|0⟩` state, removes id 0, and shifts qubit 1 from
slot 1 down to slot 0. -/
theorem C7_deallocate_qubit_witness :
    (deallocate_qubit c7Sim 0).1 = none ∧
      (deallocate_qubit c7Sim 0).2.N = 1 ∧
      ventry (deallocate_qubit c7Sim 0).2.vec 0 = ventry c7Sim.vec (insertBit 0 0 false) ∧
      mapFindD (deallocate_qubit c7Sim 0).2.map 1 = 0 := by
  have h := (C7_deallocate_qubit c7Sim 0 (by with_unfolding_all rfl)).2.2
    (by with_unfolding_all rfl) (by with_unfolding_all rfl)
  refine ⟨h.1, h.2.1, ?_, ?_⟩
  · have h4 := h.2.2.2.1 0 (by norm_num [c7Sim])
    rw [h4]
    with_unfolding_all rfl
  · have h6 := h.2.2.2.2.2 (1, 1) (of_decide_eq_true (by with_unfolding_all rfl))
      (by decide)
    rw [h6]
    with_unfolding_all rfl

/-! ## Index decomposition: block base + offset + half-selector bit

These lemmas relate the `for (i = 0; i < n; i += 2*delta) for (j = 0;
j < delta; ++j)` loop pattern of `get_classical_value`, `is_classical` and
the kernels to quantification over raw indices and their bit at `pos`. -/

theorem mem_stepRange_zero {n step x : ℕ} (hstep : step ≠ 0) :
    x ∈ stepRange 0 n step ↔ ∃ t, x = t * step ∧ x < n := by
  unfold stepRange
  rw [if_neg hstep]
  simp only [List.mem_map, List.mem_range, Nat.zero_add, Nat.sub_zero]
  constructor
  · rintro ⟨t, ht, rfl⟩
    refine ⟨t, rfl, ?_⟩
    have h2 : t + 1 ≤ (n + step - 1) / step := ht
    rw [Nat.le_div_iff_mul_le (by omega)] at h2
    have h3 : (t + 1) * step = t * step + step := by ring
    omega
  · rintro ⟨t, rfl, hx⟩
    refine ⟨t, ?_, rfl⟩
    show t + 1 ≤ (n + step - 1) / step
    rw [Nat.le_div_iff_mul_le (by omega)]
    have h3 : (t + 1) * step = t * step + step := by ring
    omega

theorem splitIndex (δ k : ℕ) (hδ : 0 < δ) :
    k = k / (2 * δ) * (2 * δ) + k / δ % 2 * δ + k % δ := by
  have hB : k / δ = 2 * (k / (2 * δ)) + k / δ % 2 := by
    conv_lhs => rw [← Nat.div_add_mod (k / δ) 2]
    rw [Nat.div_div_eq_div_mul, Nat.mul_comm δ 2]
  conv_lhs => rw [← Nat.div_add_mod k δ]
  generalize hr : k / δ % 2 = r at hB ⊢
  rw [hB]
  ring

theorem base_offset_lt_and_testBit {N pos : ℕ} (hpos : pos < N) {i j : ℕ}
    (hi : i ∈ stepRange 0 (2 ^ N) (2 * 2 ^ pos)) (hj : j < 2 ^ pos) (b : Bool) :
    i + j + (if b then 2 ^ pos else 0) < 2 ^ N ∧
      (i + j + (if b then 2 ^ pos else 0)).testBit pos = b := by
  obtain ⟨t, rfl, hlt⟩ := (mem_stepRange_zero (by positivity)).mp hi
  have hδ : 0 < 2 ^ pos := Nat.pos_pow_of_pos pos (by omega)
  have hbv : (if b then 2 ^ pos else 0) = 2 ^ pos * (if b then 1 else 0) := by
    cases b <;> simp
  have hM : 2 ^ N = 2 * 2 ^ pos * 2 ^ (N - pos - 1) := by
    have hsum : (pos + 1) + (N - pos - 1) = N := by omega
    calc 2 ^ N = 2 ^ ((pos + 1) + (N - pos - 1)) := by rw [hsum]
      _ = 2 ^ (pos + 1) * 2 ^ (N - pos - 1) := by rw [pow_add]
      _ = 2 * 2 ^ pos * 2 ^ (N - pos - 1) := by ring
  have hkdiv : (t * (2 * 2 ^ pos) + j + (if b then 2 ^ pos else 0)) / 2 ^ pos
      = 2 * t + (if b then 1 else 0) := by
    have heq : t * (2 * 2 ^ pos) + j + (if b then 2 ^ pos else 0)
        = 2 ^ pos * (2 * t + (if b then 1 else 0)) + j := by
      rw [hbv]; ring
    rw [heq, Nat.mul_add_div hδ, Nat.div_eq_of_lt hj]
    omega
  constructor
  · have ht1 : t < 2 ^ (N - pos - 1) := by
      by_contra hc
      push_neg at hc
      have : 2 * 2 ^ pos * 2 ^ (N - pos - 1) ≤ t * (2 * 2 ^ pos) := by
        calc 2 * 2 ^ pos * 2 ^ (N - pos - 1) ≤ 2 * 2 ^ pos * t := by
              exact Nat.mul_le_mul_left _ hc
          _ = t * (2 * 2 ^ pos) := by ring
      omega
    have ht2 : (t + 1) * (2 * 2 ^ pos) ≤ 2 ^ N := by
      rw [hM]
      calc (t + 1) * (2 * 2 ^ pos) = 2 * 2 ^ pos * (t + 1) := by ring
        _ ≤ 2 * 2 ^ pos * 2 ^ (N - pos - 1) := Nat.mul_le_mul_left _ (by omega)
    have hexp : (t + 1) * (2 * 2 ^ pos) = t * (2 * 2 ^ pos) + 2 * 2 ^ pos := by ring
    have hbvle : (if b then 2 ^ pos else 0) ≤ 2 ^ pos := by cases b <;> simp
    omega
  · rw [Nat.testBit_to_div_mod, hkdiv]
    cases b <;> simp [Nat.mul_add_mod]

theorem exists_base_offset {N pos : ℕ} (hpos : pos < N) {k : ℕ} (hk : k < 2 ^ N) :
    ∃ i, i ∈ stepRange 0 (2 ^ N) (2 * 2 ^ pos) ∧ ∃ j, j < 2 ^ pos ∧
      k = i + j + (if k.testBit pos then 2 ^ pos else 0) := by
  have hδ : 0 < 2 ^ pos := Nat.pos_pow_of_pos pos (by omega)
  refine ⟨k / (2 * 2 ^ pos) * (2 * 2 ^ pos), ?_, k % 2 ^ pos, Nat.mod_lt _ hδ, ?_⟩
  · exact (mem_stepRange_zero (by positivity)).mpr
      ⟨k / (2 * 2 ^ pos), rfl, lt_of_le_of_lt (Nat.div_mul_le_self k _) hk⟩
  · have hs := splitIndex (2 ^ pos) k hδ
    have htb : (if k.testBit pos then 2 ^ pos else 0) = k / 2 ^ pos % 2 * 2 ^ pos := by
      rw [Nat.testBit_to_div_mod]
      rcases Nat.mod_two_eq_zero_or_one (k / 2 ^ pos) with h | h <;> simp [h]
    rw [htb]
    omega

theorem halfBlock_iff {N pos : ℕ} (hpos : pos < N) (b : Bool) (Q : ℕ → Prop) :
    (∃ i, i ∈ stepRange 0 (2 ^ N) (2 * 2 ^ pos) ∧ ∃ j, j < 2 ^ pos ∧
        Q (i + j + (if b then 2 ^ pos else 0)))
    ↔ ∃ k, k < 2 ^ N ∧ k.testBit pos = b ∧ Q k := by
  constructor
  · rintro ⟨i, hi, j, hj, hQ⟩
    obtain ⟨hlt, htb⟩ := base_offset_lt_and_testBit hpos hi hj b
    exact ⟨_, hlt, htb, hQ⟩
  · rintro ⟨k, hk, htb, hQ⟩
    obtain ⟨i, hi, j, hj, hkeq⟩ := exists_base_offset hpos hk
    refine ⟨i, hi, j, hj, ?_⟩
    rw [htb] at hkeq
    rw [← hkeq]
    exact hQ

/-! ## Claim C9: `is_classical` and `get_classical_value` -/

theorem halfBlock_iff_false {N pos : ℕ} (hpos : pos < N) (Q : ℕ → Prop) :
    (∃ i, i ∈ stepRange 0 (2 ^ N) (2 * 2 ^ pos) ∧ ∃ j, j < 2 ^ pos ∧ Q (i + j))
    ↔ ∃ k, k < 2 ^ N ∧ k.testBit pos = false ∧ Q k := by
  have h := halfBlock_iff hpos false Q
  simpa using h

theorem halfBlock_iff_true {N pos : ℕ} (hpos : pos < N) (Q : ℕ → Prop) :
    (∃ i, i ∈ stepRange 0 (2 ^ N) (2 * 2 ^ pos) ∧ ∃ j, j < 2 ^ pos ∧ Q (i + j + 2 ^ pos))
    ↔ ∃ k, k < 2 ^ N ∧ k.testBit pos = true ∧ Q k := by
  have h := halfBlock_iff hpos true Q
  simpa using h

theorem mem_checkList {n δ : ℕ} {pr : ℕ × Bool} :
    pr ∈ checkList n δ ↔
      ∃ i, i ∈ stepRange 0 n (2 * δ) ∧ ∃ j, j < δ ∧
        (pr = (i + j, false) ∨ pr = (i + j + δ, true)) := by
  unfold checkList
  simp only [List.mem_flatMap, List.mem_range, List.mem_cons,
    List.not_mem_nil, or_false]

/-- **C9** (confirmed).  For an allocated id, `is_classical` returns true
iff exactly one of the two half-blocks selected by bit `Slot(id)` contains
an entry of squared norm above `tol`; and under that precondition
`get_classical_value` returns true iff the above-`tol` entries lie in the
bit-value-1 half. -/
theorem C9_classical (s : Sim) (id : ℕ) (tol : ℚ)
    (hmem : mapCount s.map id = true)
    (hvec : s.vec.length = 2 ^ s.N)
    (hpos : mapFindD s.map id < s.N) :
    ((is_classical s id tol).1 = true ↔
      Xor' (∃ k, k < s.vec.length ∧ k.testBit (mapFindD s.map id) = false ∧
              tol < Cplx.normSq (ventry s.vec k))
           (∃ k, k < s.vec.length ∧ k.testBit (mapFindD s.map id) = true ∧
              tol < Cplx.normSq (ventry s.vec k))) ∧
    ((is_classical s id tol).1 = true →
      ((get_classical_value s id tol).1 = true ↔
        ∃ k, k < s.vec.length ∧ k.testBit (mapFindD s.map id) = true ∧
          tol < Cplx.normSq (ventry s.vec k))) := by
  have hδ : (0:ℕ) < 2 ^ mapFindD s.map id := Nat.pos_pow_of_pos _ (by omega)
  have hup : ((stepRange 0 s.vec.length (2 * 2 ^ mapFindD s.map id)).any (fun i =>
      (List.range (2 ^ mapFindD s.map id)).any (fun j =>
        decide (tol < Cplx.normSq (ventry s.vec (i + j)))))) = true
      ↔ ∃ k, k < s.vec.length ∧ k.testBit (mapFindD s.map id) = false ∧
          tol < Cplx.normSq (ventry s.vec k) := by
    rw [hvec]
    simp only [List.any_eq_true, List.mem_range, decide_eq_true_eq]
    exact halfBlock_iff_false hpos (fun k => tol < Cplx.normSq (ventry s.vec k))
  have hdown : ((stepRange 0 s.vec.length (2 * 2 ^ mapFindD s.map id)).any (fun i =>
      (List.range (2 ^ mapFindD s.map id)).any (fun j =>
        decide (tol < Cplx.normSq (ventry s.vec (i + j + 2 ^ mapFindD s.map id)))))) = true
      ↔ ∃ k, k < s.vec.length ∧ k.testBit (mapFindD s.map id) = true ∧
          tol < Cplx.normSq (ventry s.vec k) := by
    rw [hvec]
    simp only [List.any_eq_true, List.mem_range, decide_eq_true_eq]
    exact halfBlock_iff_true hpos (fun k => tol < Cplx.normSq (ventry s.vec k))
  have hic : (is_classical s id tol).1
      = (((stepRange 0 s.vec.length (2 * 2 ^ mapFindD s.map id)).any (fun i =>
          (List.range (2 ^ mapFindD s.map id)).any (fun j =>
            decide (tol < Cplx.normSq (ventry s.vec (i + j)))))) !=
         ((stepRange 0 s.vec.length (2 * 2 ^ mapFindD s.map id)).any (fun i =>
          (List.range (2 ^ mapFindD s.map id)).any (fun j =>
            decide (tol < Cplx.normSq (ventry s.vec (i + j + 2 ^ mapFindD s.map id))))))) := by
    unfold is_classical
    rw [mapGetRef_of_mapped hmem]
  have h1 : (is_classical s id tol).1 = true ↔
      Xor' (∃ k, k < s.vec.length ∧ k.testBit (mapFindD s.map id) = false ∧
              tol < Cplx.normSq (ventry s.vec k))
           (∃ k, k < s.vec.length ∧ k.testBit (mapFindD s.map id) = true ∧
              tol < Cplx.normSq (ventry s.vec k)) := by
    rw [hic]
    unfold Xor'
    rw [← hup, ← hdown]
    rcases Bool.eq_false_or_eq_true ((stepRange 0 s.vec.length
        (2 * 2 ^ mapFindD s.map id)).any (fun i =>
        (List.range (2 ^ mapFindD s.map id)).any (fun j =>
          decide (tol < Cplx.normSq (ventry s.vec (i + j)))))) with hu | hu <;>
      rcases Bool.eq_false_or_eq_true ((stepRange 0 s.vec.length
        (2 * 2 ^ mapFindD s.map id)).any (fun i =>
        (List.range (2 ^ mapFindD s.map id)).any (fun j =>
          decide (tol < Cplx.normSq (ventry s.vec (i + j + 2 ^ mapFindD s.map id)))))) with hd | hd <;>
      rw [hu, hd] <;> simp
  refine ⟨h1, fun hclass => ?_⟩
  have hXor := h1.mp hclass
  have hgcv : (get_classical_value s id tol).1
      = ((((checkList s.vec.length (2 ^ mapFindD s.map id)).find?
            (fun p => decide (tol < Cplx.normSq (ventry s.vec p.1)))).map
          Prod.snd).getD false) := by
    unfold get_classical_value
    rw [mapGetRef_of_mapped hmem]
  rw [hgcv]
  cases hf : (checkList s.vec.length (2 ^ mapFindD s.map id)).find?
      (fun p => decide (tol < Cplx.normSq (ventry s.vec p.1))) with
  | none =>
      exfalso
      have hall := List.find?_eq_none.mp hf
      have hbig : ∃ k, k < s.vec.length ∧ tol < Cplx.normSq (ventry s.vec k) := by
        rcases hXor with ⟨⟨k, hk, _, hb⟩, _⟩ | ⟨⟨k, hk, _, hb⟩, _⟩ <;> exact ⟨k, hk, hb⟩
      obtain ⟨k, hk, hb⟩ := hbig
      have hmemCL : (k, k.testBit (mapFindD s.map id))
          ∈ checkList s.vec.length (2 ^ mapFindD s.map id) := by
        apply mem_checkList.mpr
        rw [hvec]
        obtain ⟨i, hi, j, hj, hkeq⟩ := exists_base_offset hpos (lt_of_lt_of_eq hk hvec)
        refine ⟨i, hi, j, hj, ?_⟩
        cases htb : k.testBit (mapFindD s.map id) with
        | false =>
            left
            rw [htb] at hkeq
            simp at hkeq
            rw [hkeq]
        | true =>
            right
            rw [htb] at hkeq
            simp at hkeq
            rw [hkeq]
      exact hall _ hmemCL (by simp [hb])
  | some pr =>
      have hpred := List.find?_some hf
      have hprmem := List.mem_of_find?_eq_some hf
      obtain ⟨i, hi, j, hj, hpr⟩ := mem_checkList.mp hprmem
      rw [hvec] at hi
      simp only [decide_eq_true_eq] at hpred
      simp only [Option.map_some', Option.getD_some]
      rcases hpr with rfl | rfl
      · have hUp : ∃ k, k < s.vec.length ∧ k.testBit (mapFindD s.map id) = false ∧
            tol < Cplx.normSq (ventry s.vec k) := by
          rw [hvec]
          exact (halfBlock_iff_false hpos _).mp ⟨i, hi, j, hj, hpred⟩
        have hnd : ¬ ∃ k, k < s.vec.length ∧ k.testBit (mapFindD s.map id) = true ∧
            tol < Cplx.normSq (ventry s.vec k) := by
          rcases hXor with ⟨_, hnd⟩ | ⟨_, hnu⟩
          · exact hnd
          · exact absurd hUp hnu
        constructor
        · intro h
          simp at h
        · intro hD
          exact absurd hD hnd
      · have hDown : ∃ k, k < s.vec.length ∧ k.testBit (mapFindD s.map id) = true ∧
            tol < Cplx.normSq (ventry s.vec k) := by
          rw [hvec]
          exact (halfBlock_iff_true hpos _).mp ⟨i, hi, j, hj, hpred⟩
        exact ⟨fun _ => hDown, fun _ => rfl⟩

/-- Witness for C9: the `|00⟩` state has all its mass in the bit-0 half of
qubit 0, so `is_classical` holds, `get_classical_value` reads `false`, and
by the theorem no above-tolerance entry lies in the bit-1 half. -/
theorem C9_classical_witness :
    ¬ ∃ k, k < c7Sim.vec.length ∧ k.testBit (mapFindD c7Sim.map 0) = true ∧
        (1 / 10 ^ 12 : ℚ) < Cplx.normSq (ventry c7Sim.vec k) := by
  have h := (C9_classical c7Sim 0 (1 / 10 ^ 12) (by decide) rfl (by decide)).2
    (by with_unfolding_all rfl)
  intro hex
  have hgcv := h.mpr hex
  rw [show (get_classical_value c7Sim 0 (1 / 10 ^ 12)).1 = false from
    by with_unfolding_all rfl] at hgcv
  exact Bool.false_ne_true hgcv

/-! ## Claim C10: `measure_qubits` on an unknown id -/

theorem mapFindD_insert_self (m : Smap) (k v : ℕ) :
    mapFindD (mapInsertKV m k v) k = v := by
  induction m with
  | nil => simp [mapInsertKV, mapFindD]
  | cons p t ih =>
      unfold mapInsertKV
      by_cases h1 : k < p.1
      · rw [if_pos h1]
        simp [mapFindD, List.find?_cons_of_pos]
      · rw [if_neg h1]
        by_cases h2 : k = p.1
        · rw [if_pos h2]
          simp [mapFindD, List.find?_cons_of_pos]
        · rw [if_neg h2]
          unfold mapFindD
          rw [List.find?_cons_of_neg _ (by simp; omega)]
          exact ih

theorem mapFindD_insert_ne (m : Smap) (k v x : ℕ) (h : x ≠ k) :
    mapFindD (mapInsertKV m k v) x = mapFindD m x := by
  induction m with
  | nil =>
      unfold mapInsertKV mapFindD
      rw [List.find?_cons_of_neg _ (by simpa using Ne.symm h)]
  | cons p t ih =>
      unfold mapInsertKV
      by_cases h1 : k < p.1
      · rw [if_pos h1]
        unfold mapFindD
        rw [List.find?_cons_of_neg _ (by simpa using Ne.symm h)]
      · rw [if_neg h1]
        by_cases h2 : k = p.1
        · rw [if_pos h2]
          unfold mapFindD
          by_cases h3 : p.1 = x
          · rw [List.find?_cons_of_neg _ (by simp; omega),
                List.find?_cons_of_neg _ (by simp; omega)]
          · rw [List.find?_cons_of_neg _ (by simp; omega),
                List.find?_cons_of_neg _ (by simp; omega)]
        · rw [if_neg h2]
          by_cases h3 : p.1 = x
          · unfold mapFindD
            rw [List.find?_cons_of_pos _ (by simpa using h3),
                List.find?_cons_of_pos _ (by simpa using h3)]
          · unfold mapFindD
            rw [List.find?_cons_of_neg _ (by simpa using h3),
                List.find?_cons_of_neg _ (by simpa using h3)]
            exact ih

theorem mapCount_insert (m : Smap) (k v x : ℕ) :
    mapCount (mapInsertKV m k v) x = (decide (x = k) || mapCount m x) := by
  induction m with
  | nil =>
      unfold mapInsertKV mapCount
      simp [eq_comm]
  | cons p t ih =>
      unfold mapInsertKV
      by_cases h1 : k < p.1
      · rw [if_pos h1]
        unfold mapCount
        simp [eq_comm]
      · rw [if_neg h1]
        by_cases h2 : k = p.1
        · rw [if_pos h2]
          unfold mapCount
          simp only [List.any_cons]
          rw [← h2]
          rcases Classical.em (k = x) with rfl | hne
          · simp
          · have hxk : ¬ (x = k) := fun hc => hne hc.symm
            simp [hne, hxk]
        · rw [if_neg h2]
          unfold mapCount at ih ⊢
          simp only [List.any_cons, ih]
          rcases Classical.em (p.1 = x) with h3 | h3 <;> simp [h3]

/-- `mapGetRef` never disturbs an already-present key. -/
theorem mapGetRef_preserves {m : Smap} {x : ℕ} (hx : mapCount m x = true) (k : ℕ) :
    mapCount (mapGetRef m k).1 x = true ∧ mapFindD (mapGetRef m k).1 x = mapFindD m x := by
  unfold mapGetRef
  by_cases hk : mapCount m k = true
  · rw [if_pos hk]
    exact ⟨hx, rfl⟩
  · rw [if_neg hk]
    have hne : x ≠ k := fun he => hk (he ▸ hx)
    constructor
    · rw [mapCount_insert]
      simp [hx]
    · exact mapFindD_insert_ne m k 0 x hne

/-- The map after `positions[i] = map_[ids[i]]` keeps every pre-existing
mapping unchanged. -/
theorem getPositions_preserves :
    ∀ (ids : List ℕ) (m : Smap) (x : ℕ), mapCount m x = true →
      mapCount (getPositions m ids).1 x = true ∧
        mapFindD (getPositions m ids).1 x = mapFindD m x := by
  intro ids
  induction ids with
  | nil => intro m x hx; exact ⟨hx, rfl⟩
  | cons id t ih =>
      intro m x hx
      unfold getPositions
      obtain ⟨h1, h2⟩ := mapGetRef_preserves hx id
      obtain ⟨h3, h4⟩ := ih (mapGetRef m id).1 x h1
      exact ⟨h3, h4.trans h2⟩

/-- An id that is unmapped on entry ends up mapped to slot 0. -/
theorem getPositions_unknown_zero :
    ∀ (ids : List ℕ) (m : Smap) (x : ℕ), x ∈ ids → mapCount m x = false →
      mapCount (getPositions m ids).1 x = true ∧
        mapFindD (getPositions m ids).1 x = 0 := by
  intro ids
  induction ids with
  | nil => intro m x hx; simp at hx
  | cons id t ih =>
      intro m x hx hunk
      unfold getPositions
      rcases Classical.em (id = x) with rfl | hne
      · have hins : mapCount (mapGetRef m id).1 id = true ∧
            mapFindD (mapGetRef m id).1 id = 0 := by
          unfold mapGetRef
          rw [if_neg (by simp [hunk])]
          refine ⟨?_, mapFindD_insert_self m id 0⟩
          rw [mapCount_insert]
          simp
        obtain ⟨h3, h4⟩ := getPositions_preserves t (mapGetRef m id).1 id hins.1
        exact ⟨h3, h4.trans hins.2⟩
      · have hxt : x ∈ t := by
          rcases List.mem_cons.mp hx with h | h
          · exact absurd h.symm hne
          · exact h
        have hstill : mapCount (mapGetRef m id).1 x = false := by
          unfold mapGetRef
          by_cases hk : mapCount m id = true
          · rw [if_pos hk]; exact hunk
          · rw [if_neg hk]
            rw [mapCount_insert]
            have hxne : ¬ (x = id) := fun he => hne he.symm
            simp [hunk, hxne]
        exact ih (mapGetRef m id).1 x hxt hstill

/-- The position recorded for an id that is unmapped on entry is 0
(whether it is inserted at this occurrence or was inserted by an earlier
occurrence). -/
theorem getPositions_pos_zero :
    ∀ (ids : List ℕ) (m : Smap) (j : ℕ), j < ids.length →
      (mapCount m (ids.getD j 0) = false ∨
        (mapCount m (ids.getD j 0) = true ∧ mapFindD m (ids.getD j 0) = 0)) →
      (getPositions m ids).2.getD j 0 = 0 := by
  intro ids
  induction ids with
  | nil => intro m j hj; simp at hj
  | cons id t ih =>
      intro m j hj hpre
      unfold getPositions
      cases j with
      | zero =>
          simp only [List.getD_cons_zero] at hpre ⊢
          show (mapGetRef m id).2 = 0
          unfold mapGetRef
          rcases hpre with h | ⟨h1, h2⟩
          · rw [if_neg (by simp [h])]
          · rw [if_pos h1]
            exact h2
      | succ k =>
          simp only [List.getD_cons_succ] at hpre ⊢
          have hk : k < t.length := by simpa using hj
          apply ih (mapGetRef m id).1 k hk
          rcases hpre with h | ⟨h1, h2⟩
          · by_cases hidx : id = t.getD k 0
            · right
              unfold mapGetRef
              rw [if_neg (by rw [hidx, h]; simp)]
              constructor
              · rw [mapCount_insert, ← hidx]
                simp
              · rw [← hidx]
                exact mapFindD_insert_self m id 0
            · left
              unfold mapGetRef
              by_cases hc : mapCount m id = true
              · rw [if_pos hc]; exact h
              · rw [if_neg hc, mapCount_insert, h]
                have hxne : ¬ (t.getD k 0 = id) := fun he => hidx he.symm
                simp only [Bool.or_false]
                exact decide_eq_false hxne
          · right
            exact ⟨(mapGetRef_preserves h1 id).1,
              ((mapGetRef_preserves h1 id).2).trans h2⟩

theorem getD_mem {l : List ℕ} {j : ℕ} (hj : j < l.length) : l.getD j 0 ∈ l := by
  rw [List.getD_eq_getElem?_getD, List.getElem?_eq_getElem hj]
  exact List.getElem_mem hj

theorem getD_map_lt' {α β : Type} (f : α → β) (l : List α) (j : ℕ)
    (hj : j < l.length) (d : α) (e : β) : (l.map f).getD j e = f (l.getD j d) := by
  rw [List.getD_eq_getElem?_getD, List.getD_eq_getElem?_getD, List.getElem?_map,
      List.getElem?_eq_getElem hj]
  simp

theorem getPositions_snd_length : ∀ (ids : List ℕ) (m : Smap),
    (getPositions m ids).2.length = ids.length := by
  intro ids
  induction ids with
  | nil => intro m; rfl
  | cons id t ih =>
      intro m
      unfold getPositions
      simp [ih]

theorem zip_self_map {α β : Type} (l : List α) (g : α → β) :
    l.zip (l.map g) = l.map (fun a => (a, g a)) := by
  induction l with
  | nil => rfl
  | cons a t ih => simp [ih]

/-- The `val |= r << positions[i]` loop of `measure_qubits` builds the
`valFold` of the positions against the picked index's bits. -/
theorem measure_val_eq (ps : List ℕ) (pick : ℕ) :
    ps.foldl (fun a p => a ||| (if pick.testBit p then 2 ^ p else 0)) 0
      = valFold ps (ps.map pick.testBit) := by
  rw [valFold, zip_self_map, List.foldl_map]

theorem testBit_measure_val (ps : List ℕ) (pick : ℕ) (b : ℕ) (hb : b ∈ ps) :
    (valFold ps (ps.map pick.testBit)).testBit b = pick.testBit b := by
  rcases Bool.eq_false_or_eq_true (pick.testBit b) with h | h <;> rw [h]
  · apply (testBit_valFold _ _ _).mpr
    refine ⟨(b, pick.testBit b), ?_, rfl, h⟩
    rw [zip_self_map]
    exact List.mem_map.mpr ⟨b, hb, rfl⟩
  · rw [← Bool.not_eq_true]
    intro hc
    obtain ⟨pb, hmem, hfst, hsnd⟩ := (testBit_valFold _ _ _).mp hc
    rw [zip_self_map] at hmem
    obtain ⟨p, _, rfl⟩ := List.mem_map.mp hmem
    simp only at hfst hsnd
    rw [hfst] at hsnd
    rw [h] at hsnd
    exact Bool.false_ne_true hsnd

theorem buildVec_congr {n : ℕ} {f g : ℕ → Cplx} (h : ∀ i, i < n → f i = g i) :
    buildVec n f = buildVec n g := by
  unfold buildVec
  apply List.map_congr_left
  intro i hi
  exact h i (List.mem_range.mp hi)

theorem maskFold_def (ps : List ℕ) :
    ps.foldl (fun a p => a ||| 2 ^ p) 0 = maskFold ps := rfl

/-- `measure_qubits`, written with its intermediate quantities named:
result bits are the picked index's bits at the recorded positions, the map
is the (possibly grown) position map, and the vector is the masked,
renormalized projection. -/
theorem measure_qubits_eq (sqrt : ℚ → ℚ) (s : Sim) (ids : List ℕ) (rnd : ℚ) :
    measure_qubits sqrt s ids rnd
      = ((getPositions s.map ids).2.map
            (fun p => Nat.testBit ((scanPickAux rnd s.vec 0 0 + (SIZE_T_MOD - 1))
              % SIZE_T_MOD) p),
         { s with
           map := (getPositions s.map ids).1,
           vec := buildVec s.vec.length (fun i =>
             Cplx.smul (1 / sqrt (qsum s.vec.length (fun i2 =>
               if i2 &&& maskFold (getPositions s.map ids).2
                   = valFold (getPositions s.map ids).2
                       ((getPositions s.map ids).2.map
                         (fun p => Nat.testBit ((scanPickAux rnd s.vec 0 0
                           + (SIZE_T_MOD - 1)) % SIZE_T_MOD) p))
               then Cplx.normSq (ventry s.vec i2) else 0)))
             (if i &&& maskFold (getPositions s.map ids).2
                 = valFold (getPositions s.map ids).2
                     ((getPositions s.map ids).2.map
                       (fun p => Nat.testBit ((scanPickAux rnd s.vec 0 0
                         + (SIZE_T_MOD - 1)) % SIZE_T_MOD) p))
              then ventry s.vec i else 0)) }) := by
  simp only [measure_qubits]
  rw [measure_val_eq, maskFold_def, length_buildVec]
  refine congrArg _ ?_
  congr 1
  apply buildVec_congr
  intro i hi
  rw [ventry_buildVec _ hi]

/-- **C10** (confirmed).  `measure_qubits` performs no id validation: called
with a list containing an id that is not currently allocated it raises no
error (while `get_probability` on the same list raises `UnknownId`), the
unknown id is silently inserted into the index map at slot 0, its outcome
bit is read from bit position 0 of the sampled index, and the projection
pass zeroes every amplitude whose bit 0 disagrees with that outcome bit. -/
theorem C10_measure_unknown (sqrt : ℚ → ℚ) (s : Sim) (ids : List ℕ) (rnd : ℚ)
    (values : List Bool) (j : ℕ)
    (hj : j < ids.length)
    (hunk : mapCount s.map (ids.getD j 0) = false) :
    check_ids s ids = false ∧
    get_probability s values ids = Except.error SimError.unknownId ∧
    mapCount (measure_qubits sqrt s ids rnd).2.map (ids.getD j 0) = true ∧
    mapFindD (measure_qubits sqrt s ids rnd).2.map (ids.getD j 0) = 0 ∧
    (measure_qubits sqrt s ids rnd).1.getD j false
      = Nat.testBit ((scanPickAux rnd s.vec 0 0 + (SIZE_T_MOD - 1)) % SIZE_T_MOD) 0 ∧
    (∀ i, i < s.vec.length →
      i.testBit 0 ≠ Nat.testBit ((scanPickAux rnd s.vec 0 0 + (SIZE_T_MOD - 1))
        % SIZE_T_MOD) 0 →
      ventry (measure_qubits sqrt s ids rnd).2.vec i = 0) := by
  have hmem : ids.getD j 0 ∈ ids := getD_mem hj
  have hcheck : check_ids s ids = false := by
    apply Bool.eq_false_iff.mpr
    intro hc
    have := List.all_eq_true.mp hc _ hmem
    rw [hunk] at this
    exact Bool.false_ne_true (by simpa using this)
  have hins := getPositions_unknown_zero ids s.map _ hmem hunk
  have hposlen := getPositions_snd_length ids s.map
  have hp0 : (getPositions s.map ids).2.getD j 0 = 0 :=
    getPositions_pos_zero ids s.map j hj (Or.inl hunk)
  have h0mem : (0 : ℕ) ∈ (getPositions s.map ids).2 := hp0 ▸ getD_mem (by omega)
  rw [measure_qubits_eq]
  refine ⟨hcheck, ?_, hins.1, hins.2, ?_, ?_⟩
  · unfold get_probability
    rw [if_pos hcheck]
  · rw [getD_map_lt' _ _ j (by omega) 0 false, hp0]
  · intro i hi hbit
    rw [ventry_buildVec _ hi]
    rw [if_neg ?hcnd]
    · exact Cplx.smul_zero_right _
    case hcnd =>
      intro hc
      apply hbit
      have ht := congrArg (fun x => x.testBit 0) hc
      simp only [Nat.testBit_land] at ht
      rw [(testBit_maskFold _ 0).mpr h0mem, Bool.and_true,
          testBit_measure_val _ _ 0 h0mem] at ht
      exact ht

/-- Witness for C10: measuring the unallocated id 7 on the two-qubit `|00⟩`
state completes, inserts 7 at slot 0, reads its outcome from bit 0 of the
sampled index, while `get_probability` on the same list fails. -/
theorem C10_measure_unknown_witness :
    check_ids c7Sim [7] = false ∧
      get_probability c7Sim [true] [7] = Except.error SimError.unknownId ∧
      mapCount (measure_qubits (fun x => x) c7Sim [7] (1 / 2)).2.map 7 = true ∧
      mapFindD (measure_qubits (fun x => x) c7Sim [7] (1 / 2)).2.map 7 = 0 ∧
      (measure_qubits (fun x => x) c7Sim [7] (1 / 2)).1.getD 0 false
        = Nat.testBit ((scanPickAux (1 / 2) c7Sim.vec 0 0 + (SIZE_T_MOD - 1))
            % SIZE_T_MOD) 0 := by
  have h := C10_measure_unknown (fun x => x) c7Sim [7] (1 / 2) [true] 0
    (by norm_num) (by with_unfolding_all rfl)
  exact ⟨h.1, h.2.1, h.2.2.1, h.2.2.2.1, h.2.2.2.2.1⟩

/-! ## Claim C4: the index-map bijection invariant -/

theorem smapSortedB_iff_pairwise (m : Smap) :
    smapSortedB m = true ↔ (m.map Prod.fst).Pairwise (· < ·) := by
  rw [smapSortedB_iff, List.chain'_iff_pairwise]

theorem keys_gt_of_sorted {a : ℕ × ℕ} {t : Smap}
    (h : smapSortedB (a :: t) = true) : ∀ q ∈ t, a.1 < q.1 := by
  intro q hq
  have hp := (smapSortedB_iff_pairwise _).mp h
  rw [List.map_cons, List.pairwise_cons] at hp
  exact hp.1 q.1 (List.mem_map_of_mem Prod.fst hq)

theorem mem_keys_mapInsertKV (m : Smap) (k v x : ℕ)
    (h : x ∈ (mapInsertKV m k v).map Prod.fst) : x = k ∨ x ∈ m.map Prod.fst := by
  have h2 := mapCount_iff.mpr h
  rw [mapCount_insert] at h2
  simp only [Bool.or_eq_true, decide_eq_true_eq] at h2
  exact h2.imp id mapCount_iff.mp

theorem pairwise_keys_mapInsertKV : ∀ (m : Smap) (k v : ℕ),
    (m.map Prod.fst).Pairwise (· < ·) →
    ((mapInsertKV m k v).map Prod.fst).Pairwise (· < ·)
  | [], k, v, _ => by simp [mapInsertKV]
  | (a, b) :: t, k, v, hwf => by
      rw [List.map_cons, List.pairwise_cons] at hwf
      obtain ⟨hhead, htail⟩ := hwf
      rw [mapInsertKV]
      by_cases h1 : k < a
      · rw [if_pos h1, List.map_cons, List.pairwise_cons]
        refine ⟨?_, List.pairwise_cons.mpr ⟨hhead, htail⟩⟩
        intro x hx
        rw [List.map_cons] at hx
        rcases List.mem_cons.mp hx with rfl | hx2
        · exact h1
        · exact h1.trans (hhead x hx2)
      · rw [if_neg h1]
        by_cases h2 : k = a
        · rw [if_pos h2, List.map_cons, List.pairwise_cons]
          exact ⟨fun x hx => h2 ▸ hhead x hx, htail⟩
        · rw [if_neg h2, List.map_cons, List.pairwise_cons]
          refine ⟨?_, pairwise_keys_mapInsertKV t k v htail⟩
          intro x hx
          rcases mem_keys_mapInsertKV t k v x hx with rfl | hx2
          · omega
          · exact hhead x hx2

/-- Ordered insert-or-assign preserves the sorted-keys invariant. -/
theorem SmapWF_insertKV {m : Smap} (hwf : SmapWF m) (k v : ℕ) :
    SmapWF (mapInsertKV m k v) := by
  unfold SmapWF at *
  rw [smapSortedB_iff_pairwise] at hwf ⊢
  exact pairwise_keys_mapInsertKV m k v hwf

theorem mapCount_eq_false_iff {m : Smap} {k : ℕ} :
    mapCount m k = false ↔ ∀ p ∈ m, p.1 ≠ k := by
  constructor
  · intro h p hp he
    have hc : mapCount m k = true := mapCount_iff.mpr (he ▸ List.mem_map_of_mem Prod.fst hp)
    rw [h] at hc
    exact Bool.false_ne_true hc
  · intro h
    apply Bool.eq_false_iff.mpr
    intro hc
    obtain ⟨x, hx1, hx2⟩ := List.mem_map.mp (mapCount_iff.mp hc)
    exact h x hx1 hx2

/-- A present key is in the list together with its `mapFindD` value. -/
theorem mapFindD_mem {m : Smap} {k : ℕ} (h : mapCount m k = true) :
    (k, mapFindD m k) ∈ m := by
  have hs : (m.find? (fun p => decide (p.1 = k))).isSome = true := by
    rw [List.find?_isSome]
    unfold mapCount at h
    exact List.any_eq_true.mp h
  obtain ⟨q, hq⟩ := Option.isSome_iff_exists.mp hs
  have hqm := List.mem_of_find?_eq_some hq
  have hqk : q.1 = k := by simpa using List.find?_some hq
  have hval : mapFindD m k = q.2 := by
    unfold mapFindD
    rw [hq]
  rw [hval, show (k, q.2) = q from by rw [← hqk]]
  exact hqm

/-- Extracting one present pair: a sorted map is a permutation of that pair
consed onto the map with the pair's key filtered out. -/
theorem perm_cons_filter_of_mem : ∀ (m : Smap), SmapWF m → ∀ (k v : ℕ), (k, v) ∈ m →
    m.Perm ((k, v) :: m.filter (fun p => decide (p.1 ≠ k)))
  | [], _, k, v, hmem => by simp at hmem
  | (a, b) :: t, hwf, k, v, hmem => by
      have hgt := keys_gt_of_sorted (a := (a, b)) hwf
      rcases List.mem_cons.mp hmem with heq | hmem2
      · have hk : k = a := congrArg Prod.fst heq
        have hv : v = b := congrArg Prod.snd heq
        subst hk
        subst hv
        rw [List.filter_cons_of_neg (by simp)]
        rw [List.filter_eq_self.mpr (fun q hq => by
          have := hgt q hq
          simp only [decide_eq_true_eq]
          omega)]
      · have hak : a < k := hgt (k, v) hmem2
        rw [List.filter_cons_of_pos (by simp only [decide_eq_true_eq]; omega)]
        have ih := perm_cons_filter_of_mem t (smapSortedB_tail hwf) k v hmem2
        exact List.Perm.trans (List.Perm.cons (a, b) ih) (List.Perm.swap (k, v) (a, b) _)

/-- Insert-or-assign, as a permutation: the new pair consed onto the map
with any old pair for the key filtered out. -/
theorem mapInsertKV_perm_filter : ∀ (m : Smap), SmapWF m → ∀ (k v : ℕ),
    (mapInsertKV m k v).Perm ((k, v) :: m.filter (fun p => decide (p.1 ≠ k)))
  | [], _, k, v => by simp [mapInsertKV]
  | (a, b) :: t, hwf, k, v => by
      have hgt := keys_gt_of_sorted (a := (a, b)) hwf
      rw [mapInsertKV]
      by_cases h1 : k < a
      · rw [if_pos h1]
        have hfil : List.filter (fun p => decide (p.1 ≠ k)) t = t :=
          List.filter_eq_self.mpr (fun q hq => by
            have := hgt q hq
            simp only [decide_eq_true_eq]
            omega)
        rw [List.filter_cons_of_pos (by simp only [decide_eq_true_eq]; omega), hfil]
      · rw [if_neg h1]
        by_cases h2 : k = a
        · rw [if_pos h2]
          subst h2
          have hfil : List.filter (fun p => decide (p.1 ≠ k)) t = t :=
            List.filter_eq_self.mpr (fun q hq => by
              have := hgt q hq
              simp only [decide_eq_true_eq]
              omega)
          rw [List.filter_cons_of_neg (by simp), hfil]
        · rw [if_neg h2]
          have ih := mapInsertKV_perm_filter t (smapSortedB_tail hwf) k v
          rw [List.filter_cons_of_pos (by simp only [decide_eq_true_eq]; omega)]
          exact List.Perm.trans (List.Perm.cons (a, b) ih) (List.Perm.swap (k, v) (a, b) _)

/-- The spec's invariant: the index map is a bijection from the live ids
onto the slot range `[0, N)` — sorted (hence duplicate-free) keys, and the
value column a permutation of `0, ..., N-1`. -/
def IndexMapBijection (s : Sim) : Prop :=
  SmapWF s.map ∧ (s.map.map Prod.snd).Perm (List.range s.N)

instance (s : Sim) : Decidable (IndexMapBijection s) :=
  inferInstanceAs (Decidable
    (smapSortedB s.map = true ∧ (s.map.map Prod.snd).Perm (List.range s.N)))

/-- Validity of the fusion buffer relative to the flushed state: every
touched id and every pending global control is an allocated qubit, so the
`map_[...]` lookups performed by `run()` insert nothing. -/
def BufWF (sf : SimF) : Prop :=
  (∀ x ∈ sf.fused_gates.set, mapCount sf.sim.map x = true) ∧
  (∀ x ∈ sf.fused_gates.ctrl_set, mapCount sf.sim.map x = true)

instance (sf : SimF) : Decidable (BufWF sf) :=
  inferInstanceAs (Decidable
    ((∀ x ∈ sf.fused_gates.set, mapCount sf.sim.map x = true) ∧
     (∀ x ∈ sf.fused_gates.ctrl_set, mapCount sf.sim.map x = true)))

theorem getPositions_fst_of_mapped : ∀ (ids : List ℕ) (m : Smap),
    (∀ x ∈ ids, mapCount m x = true) → (getPositions m ids).1 = m
  | [], _, _ => rfl
  | id :: t, m, h => by
      show (getPositions (mapGetRef m id).1 t).1 = m
      rw [mapGetRef_of_mapped (h id (List.mem_cons_self id t))]
      exact getPositions_fst_of_mapped t m (fun x hx => h x (List.mem_cons_of_mem id hx))

theorem getCtrlMask_fst_of_mapped : ∀ (cs : List ℕ) (m : Smap),
    (∀ x ∈ cs, mapCount m x = true) → (getCtrlMask m cs).1 = m
  | [], _, _ => rfl
  | c :: t, m, h => by
      show (getCtrlMask (mapGetRef m c).1 t).1 = m
      rw [mapGetRef_of_mapped (h c (List.mem_cons_self c t))]
      exact getCtrlMask_fst_of_mapped t m (fun x hx => h x (List.mem_cons_of_mem c hx))

/-- `run()` touches neither the index map nor the qubit count when every
buffered id is allocated. -/
theorem run_map_eq {sf : SimF} (h : BufWF sf) :
    (Simulator.run sf).sim.map = sf.sim.map ∧ (Simulator.run sf).sim.N = sf.sim.N := by
  by_cases hsz : sf.fused_gates.fsize < 1
  · rw [run_of_empty (by omega)]
    exact ⟨rfl, rfl⟩
  · have h1 : (getPositions sf.sim.map (sf.fused_gates.perform_fusion).2.1).1 = sf.sim.map := by
      rw [show (sf.fused_gates.perform_fusion).2.1 = sf.fused_gates.set from rfl]
      exact getPositions_fst_of_mapped _ _ h.1
    have h2 : (getCtrlMask sf.sim.map (sf.fused_gates.perform_fusion).2.2).1 = sf.sim.map := by
      rw [show (sf.fused_gates.perform_fusion).2.2 = sf.fused_gates.ctrl_set from rfl]
      exact getCtrlMask_fst_of_mapped _ _ h.2
    constructor
    · simp only [Simulator.run]
      rw [if_neg hsz, h1, h2]
    · simp only [Simulator.run]
      rw [if_neg hsz]

theorem bij_of_eq {s t : Sim} (hm : t.map = s.map) (hN : t.N = s.N)
    (h : IndexMapBijection s) : IndexMapBijection t := by
  unfold IndexMapBijection at *
  rw [hm, hN]
  exact h

theorem run_bij {sf : SimF} (hb : BufWF sf) (h : IndexMapBijection sf.sim) :
    IndexMapBijection (Simulator.run sf).sim :=
  bij_of_eq (run_map_eq hb).1 (run_map_eq hb).2 h

/-- `allocate_qubit` preserves the bijection: a fresh id gets the fresh
slot `N`, making the value column a permutation of `[0, N+1)`. -/
theorem allocate_bij {s : Sim} (h : IndexMapBijection s) (id : ℕ) :
    IndexMapBijection (allocate_qubit s id).2 := by
  unfold allocate_qubit
  by_cases hc : mapCount s.map id = false
  · rw [if_pos hc]
    unfold IndexMapBijection
    constructor
    · show SmapWF (mapInsertKV s.map id s.N)
      exact SmapWF_insertKV h.1 id s.N
    · show ((mapInsertKV s.map id s.N).map Prod.snd).Perm (List.range (s.N + 1))
      have hperm := mapInsertKV_perm_filter s.map h.1 id s.N
      have hfil : s.map.filter (fun p => decide (p.1 ≠ id)) = s.map :=
        List.filter_eq_self.mpr (fun q hq => by
          simp only [decide_eq_true_eq]
          exact mapCount_eq_false_iff.mp hc q hq)
      rw [hfil] at hperm
      have h2 := hperm.map Prod.snd
      rw [List.map_cons] at h2
      refine h2.trans ?_
      refine (List.Perm.cons s.N h.2).trans ?_
      rw [List.range_succ]
      exact (List.perm_append_singleton s.N (List.range s.N)).symm
  · rw [if_neg hc]
    exact h

/-- Removing `pos` from `[0, N)` and shifting every larger value down by one
yields exactly `[0, N-1)`. -/
theorem erase_range_shift {N pos : ℕ} (h : pos < N) :
    ((List.range N).erase pos).map (fun w => if pos < w then w - 1 else w)
      = List.range (N - 1) := by
  have hsplit : List.range N
      = List.range pos ++ pos :: ((List.range (N - (pos + 1))).map (fun x => (pos + 1) + x)) := by
    conv_lhs => rw [show N = (pos + 1) + (N - (pos + 1)) from by omega]
    rw [List.range_add, List.range_succ, List.append_assoc, List.singleton_append]
  rw [hsplit]
  rw [List.erase_append_right _ (by simp)]
  rw [List.erase_cons_head]
  rw [List.map_append, List.map_map]
  have e1 : (List.range pos).map (fun w => if pos < w then w - 1 else w) = List.range pos := by
    have e1a : (List.range pos).map (fun w => if pos < w then w - 1 else w)
        = (List.range pos).map id := by
      apply List.map_congr_left
      intro a ha
      rw [List.mem_range] at ha
      simp only [id]
      rw [if_neg (by omega)]
    rw [e1a, List.map_id]
  have e2 : (List.range (N - (pos + 1))).map
        ((fun w => if pos < w then w - 1 else w) ∘ (fun x => (pos + 1) + x))
      = (List.range (N - (pos + 1))).map (fun x => pos + x) := by
    apply List.map_congr_left
    intro a _
    show (if pos < (pos + 1) + a then (pos + 1) + a - 1 else (pos + 1) + a) = pos + a
    rw [if_pos (by omega)]
    omega
  rw [e1, e2, ← List.range_add]
  congr 1
  omega

/-- The shrinking collapse of a mapped qubit preserves the bijection: the
freed slot is removed from the value column and every larger slot is
decremented. -/
theorem collapse_shrink_bij {s : Sim} (h : IndexMapBijection s) {id : ℕ}
    (hid : mapCount s.map id = true) (v : Bool) :
    IndexMapBijection (collapse_vector s id v true) := by
  have hmap : (collapse_vector s id v true).map
      = mapErase (s.map.map
          (fun p => (p.1, if mapFindD s.map id < p.2 then p.2 - 1 else p.2))) id := by
    simp only [collapse_vector]
    rw [if_neg (by simp : ¬ (true = false))]
    rw [mapGetRef_of_mapped hid]
  have hN : (collapse_vector s id v true).N = s.N - 1 := by
    simp only [collapse_vector]
    rw [if_neg (by simp : ¬ (true = false))]
  unfold IndexMapBijection
  constructor
  · rw [hmap]
    exact SmapWF_filter (SmapWF_map_vals h.1 _) _
  · rw [hmap, hN]
    have hperm1 := perm_cons_filter_of_mem s.map h.1 id _ (mapFindD_mem hid)
    have hv1 : (s.map.map Prod.snd).Perm
        (mapFindD s.map id :: (s.map.filter (fun p => decide (p.1 ≠ id))).map Prod.snd) := by
      have hw := hperm1.map Prod.snd
      rwa [List.map_cons] at hw
    have hv2 := hv1.symm.trans h.2
    have hv3 := List.cons_perm_iff_perm_erase.mp hv2
    have hposlt : mapFindD s.map id < s.N := List.mem_range.mp hv3.1
    have e1 : mapErase (s.map.map
          (fun p => (p.1, if mapFindD s.map id < p.2 then p.2 - 1 else p.2))) id
        = (s.map.filter (fun p => decide (p.1 ≠ id))).map
            (fun p => (p.1, if mapFindD s.map id < p.2 then p.2 - 1 else p.2)) := by
      show List.filter _ (List.map _ s.map) = _
      rw [List.filter_map]
      rfl
    rw [e1, List.map_map]
    have e2 : ((s.map.filter (fun p => decide (p.1 ≠ id))).map
          (Prod.snd ∘ (fun p : ℕ × ℕ => (p.1, if mapFindD s.map id < p.2 then p.2 - 1 else p.2))))
        = ((s.map.filter (fun p => decide (p.1 ≠ id))).map Prod.snd).map
            (fun w => if mapFindD s.map id < w then w - 1 else w) := by
      rw [List.map_map]
      rfl
    rw [e2]
    have hv4 := hv3.2.map (fun w => if mapFindD s.map id < w then w - 1 else w)
    refine hv4.trans ?_
    rw [erase_range_shift hposlt]

/-- `deallocate_qubit` preserves the bijection in every branch. -/
theorem dealloc_bij {s : Sim} (h : IndexMapBijection s) (id : ℕ) :
    IndexMapBijection (deallocate_qubit s id).2 := by
  simp only [deallocate_qubit]
  by_cases h0 : mapCount s.map id = false
  · rw [if_pos h0]
    exact h
  · rw [if_neg h0]
    have h0t : mapCount s.map id = true := by
      revert h0
      cases mapCount s.map id <;> simp
    have hic2 : (is_classical s id (1 / 10 ^ 12)).2 = s.map := by
      show (mapGetRef s.map id).1 = s.map
      rw [mapGetRef_of_mapped h0t]
    by_cases hcl : (is_classical s id (1 / 10 ^ 12)).1 = false
    · rw [if_pos hcl]
      exact bij_of_eq (t := { s with map := (is_classical s id (1 / 10 ^ 12)).2 }) hic2 rfl h
    · rw [if_neg hcl]
      rw [hic2]
      have hgv2 : (get_classical_value { s with map := s.map } id (1 / 10 ^ 12)).2 = s.map := by
        show (mapGetRef s.map id).1 = s.map
        rw [mapGetRef_of_mapped h0t]
      rw [hgv2]
      exact collapse_shrink_bij h h0t _

/-- `measure_qubits` on allocated ids preserves the bijection: the map is
read but not changed. -/
theorem measure_bij {s : Sim} (h : IndexMapBijection s) {ids : List ℕ}
    (hids : ∀ x ∈ ids, mapCount s.map x = true) (sq : ℚ → ℚ) (rnd : ℚ) :
    IndexMapBijection (measure_qubits sq s ids rnd).2 := by
  have hm : (measure_qubits sq s ids rnd).2.map = (getPositions s.map ids).1 := rfl
  exact bij_of_eq (hm.trans (getPositions_fst_of_mapped ids s.map hids)) rfl h

/-- The reassignment loop of `set_wavefunction`: folding
`map_[ordering[i]] = i` over the enumerated ordering turns the map into the
enumerated pairs plus the untouched keys. -/
theorem setwfFoldPerm : ∀ (ord : List ℕ) (k : ℕ) (m : Smap), SmapWF m → ord.Nodup →
    (∀ id ∈ ord, mapCount m id = true) →
    SmapWF ((List.enumFrom k ord).foldl (fun mm p => mapInsertKV mm p.2 p.1) m) ∧
    ((List.enumFrom k ord).foldl (fun mm p => mapInsertKV mm p.2 p.1) m).Perm
      (((List.enumFrom k ord).map (fun p => (p.2, p.1))) ++
        m.filter (fun q => decide (q.1 ∉ ord)))
  | [], k, m, hwf, _, _ => by
      constructor
      · exact hwf
      · show m.Perm ([] ++ m.filter (fun q => decide (q.1 ∉ ([] : List ℕ))))
        rw [List.nil_append, List.filter_eq_self.mpr (fun a _ => by simp)]
  | o :: rest, k, m, hwf, hnd, hmap => by
      have hnd1 : o ∉ rest := (List.nodup_cons.mp hnd).1
      have hnd2 : rest.Nodup := (List.nodup_cons.mp hnd).2
      have hm1wf : SmapWF (mapInsertKV m o k) := SmapWF_insertKV hwf o k
      have hmap1 : ∀ x ∈ rest, mapCount (mapInsertKV m o k) x = true := by
        intro x hx
        rw [mapCount_insert, hmap x (List.mem_cons_of_mem o hx)]
        simp
      have ih := setwfFoldPerm rest (k + 1) (mapInsertKV m o k) hm1wf hnd2 hmap1
      constructor
      · exact ih.1
      · have hinsperm := mapInsertKV_perm_filter m hwf o k
        have hfilperm : ((mapInsertKV m o k).filter (fun q => decide (q.1 ∉ rest))).Perm
            ((o, k) :: m.filter (fun q => decide (q.1 ∉ o :: rest))) := by
          have hf1 := hinsperm.filter (fun q => decide (q.1 ∉ rest))
          rw [List.filter_cons_of_pos (by simpa using hnd1)] at hf1
          rw [List.filter_filter] at hf1
          refine hf1.trans (List.Perm.cons (o, k) ?_)
          have hpq : ∀ a ∈ m,
              (decide (a.1 ∉ rest) && decide (a.1 ≠ o)) = decide (a.1 ∉ o :: rest) := by
            intro a _
            by_cases h1a : a.1 = o
            · simp [h1a, hnd1]
            · by_cases h2a : a.1 ∈ rest <;> simp [h1a, h2a, List.mem_cons]
          rw [List.filter_congr hpq]
        show ((List.enumFrom (k + 1) rest).foldl
            (fun mm p => mapInsertKV mm p.2 p.1) (mapInsertKV m o k)).Perm
          (((k, o) :: List.enumFrom (k + 1) rest).map (fun p => (p.2, p.1)) ++
            m.filter (fun q => decide (q.1 ∉ o :: rest)))
        refine ih.2.trans ?_
        refine (List.Perm.append_left _ hfilperm).trans ?_
        rw [List.map_cons, List.cons_append]
        exact List.perm_middle

/-- `set_wavefunction` with a duplicate-free ordering preserves the
bijection: the keys are reassigned the slots `0, ..., n-1` bijectively. -/
theorem setwf_bij {s : Sim} (h : IndexMapBijection s) (wf : Vec) {ord : List ℕ}
    (hnd : ord.Nodup) : IndexMapBijection (set_wavefunction s wf ord).2 := by
  simp only [set_wavefunction]
  by_cases h1 : wf.length ≠ 2 ^ ord.length
  · rw [if_pos h1]
    exact h
  · rw [if_neg h1]
    by_cases h2 : s.map.length ≠ ord.length ∨ check_ids s ord = false
    · rw [if_pos h2]
      exact h
    · rw [if_neg h2]
      push_neg at h2
      obtain ⟨hlen, hchk⟩ := h2
      have hchk' : check_ids s ord = true := by
        revert hchk
        cases check_ids s ord <;> simp
      have hmapped : ∀ x ∈ ord, mapCount s.map x = true := by
        intro x hx
        unfold check_ids at hchk'
        rw [List.all_eq_true] at hchk'
        exact hchk' x hx
      have hfold := setwfFoldPerm ord 0 s.map h.1 hnd hmapped
      unfold IndexMapBijection
      constructor
      · exact hfold.1
      · have hordkeys : ord.Perm (s.map.map Prod.fst) := by
          apply List.Subperm.perm_of_length_le
          · exact List.subperm_of_subset hnd (fun x hx => mapCount_iff.mp (hmapped x hx))
          · rw [List.length_map]
            omega
        have hfil : s.map.filter (fun q => decide (q.1 ∉ ord)) = [] := by
          rw [List.filter_eq_nil_iff]
          intro a ha
          simp only [decide_eq_true_eq]
          intro hcon
          exact hcon (hordkeys.symm.subset (List.mem_map_of_mem Prod.fst ha))
        have hperm := hfold.2
        rw [hfil, List.append_nil] at hperm
        have hv := hperm.map Prod.snd
        rw [List.map_map] at hv
        have e1 : (List.enumFrom 0 ord).map
              (Prod.snd ∘ (fun p : ℕ × ℕ => (p.2, p.1))) = List.range' 0 ord.length := by
          rw [show (Prod.snd ∘ (fun p : ℕ × ℕ => (p.2, p.1))) = Prod.fst from rfl]
          exact List.enumFrom_map_fst 0 ord
        rw [e1] at hv
        have hNr : s.N = ord.length := by
          have hl := h.2.length_eq
          rw [List.length_map, List.length_range] at hl
          omega
        show (((List.enumFrom 0 ord).foldl
            (fun mm p => mapInsertKV mm p.2 p.1) s.map).map Prod.snd).Perm
          (List.range s.N)
        rw [hNr, List.range_eq_range']
        exact hv

/-- `collapse_wavefunction` never changes the map or the qubit count. -/
theorem collapse_map_bij {s : Sim} (h : IndexMapBijection s) (sq : ℚ → ℚ)
    (ids : List ℕ) (vals : List Bool) :
    IndexMapBijection (collapse_wavefunction sq s ids vals).2 := by
  have hm1 : (collapse_wavefunction sq s ids vals).2.map = s.map := by
    simp only [collapse_wavefunction]
    split
    · rfl
    · split
      · rfl
      · split <;> rfl
  have hm2 : (collapse_wavefunction sq s ids vals).2.N = s.N := by
    simp only [collapse_wavefunction]
    split
    · rfl
    · split
      · rfl
      · split <;> rfl
  exact bij_of_eq hm1 hm2 h

/-- The public mutating operations of `Simulator` (each modelled with the
`run()` flush it performs on entry; `allocate_qubit` performs none). -/
inductive PubOp where
  | allocateOp (id : ℕ)
  | deallocateOp (id : ℕ)
  | measureOp (sq : ℚ → ℚ) (ids : List ℕ) (rnd : ℚ)
  | setWavefunctionOp (wf : Vec) (ordering : List ℕ)
  | collapseWavefunctionOp (sq : ℚ → ℚ) (ids : List ℕ) (values : List Bool)
  | applyControlledGateOp (m : Mat) (targets : List ℕ) (ctrls : List ℕ)

/-- Run one public operation on the buffered simulator state, exactly as
the C++ methods do (flush first where the method starts with `run()`). -/
def applyOp (op : PubOp) (sf : SimF) : SimF :=
  match op with
  | .allocateOp id => { sf with sim := (allocate_qubit sf.sim id).2 }
  | .deallocateOp id =>
      let s1 := Simulator.run sf
      { s1 with sim := (deallocate_qubit s1.sim id).2 }
  | .measureOp sq ids rnd =>
      let s1 := Simulator.run sf
      { s1 with sim := (measure_qubits sq s1.sim ids rnd).2 }
  | .setWavefunctionOp wf ord =>
      let s1 := Simulator.run sf
      { s1 with sim := (set_wavefunction s1.sim wf ord).2 }
  | .collapseWavefunctionOp sq ids vals =>
      let s1 := Simulator.run sf
      { s1 with sim := (collapse_wavefunction sq s1.sim ids vals).2 }
  | .applyControlledGateOp m t c => apply_controlled_gate sf m t c

/-- The documented validity requirements of each operation's arguments:
a valid buffer; measured ids must be allocated; the ordering must be
duplicate-free; a gate command's targets and controls must leave the
buffer valid. -/
def WfOp : PubOp → SimF → Prop
  | .allocateOp _, _ => True
  | .deallocateOp _, sf => BufWF sf
  | .measureOp _ ids _, sf => BufWF sf ∧ ∀ x ∈ ids, mapCount sf.sim.map x = true
  | .setWavefunctionOp _ ord, sf => BufWF sf ∧ ord.Nodup
  | .collapseWavefunctionOp _ _ _, sf => BufWF sf
  | .applyControlledGateOp m t c, sf =>
      BufWF sf ∧ BufWF { sf with fused_gates := sf.fused_gates.insert m t c }

instance (op : PubOp) (sf : SimF) : Decidable (WfOp op sf) :=
  match op with
  | .allocateOp _ => inferInstanceAs (Decidable True)
  | .deallocateOp _ => inferInstanceAs (Decidable (BufWF sf))
  | .measureOp _ ids _ =>
      inferInstanceAs (Decidable (BufWF sf ∧ ∀ x ∈ ids, mapCount sf.sim.map x = true))
  | .setWavefunctionOp _ ord => inferInstanceAs (Decidable (BufWF sf ∧ ord.Nodup))
  | .collapseWavefunctionOp _ _ _ => inferInstanceAs (Decidable (BufWF sf))
  | .applyControlledGateOp m t c =>
      inferInstanceAs (Decidable
        (BufWF sf ∧ BufWF { sf with fused_gates := sf.fused_gates.insert m t c }))

/-- `apply_controlled_gate` preserves the bijection: every branch either
leaves the flushed state untouched or flushes a valid buffer. -/
theorem applyGate_bij {sf : SimF} (h : IndexMapBijection sf.sim) (m : Mat)
    (t c : List ℕ) (hb1 : BufWF sf)
    (hb2 : BufWF { sf with fused_gates := sf.fused_gates.insert m t c }) :
    IndexMapBijection (apply_controlled_gate sf m t c).sim := by
  simp only [apply_controlled_gate]
  split
  · exact run_bij hb2 h
  · split
    · show IndexMapBijection (Simulator.run sf).sim
      exact run_bij hb1 h
    · exact h

/-- Two qubits in `|00⟩` with an empty fusion buffer: slots `{0 ↦ 0, 1 ↦ 1}`. -/
def c4Sf : SimF := ⟨⟨2, [⟨1, 0⟩, 0, 0, 0], [(0, 0), (1, 1)]⟩, emptyFusion⟩

/-- **C4 counterexample.**  As literally stated the invariant fails:
`measure_qubits` on the unknown id 7 completes without any error (claim
C10), and afterwards the map is `{0 ↦ 0, 1 ↦ 1, 7 ↦ 0}` — three live ids
for two slots, not a bijection onto `[0, 2)`. -/
theorem C4_counterexample :
    IndexMapBijection c4Sf.sim ∧
    ¬ IndexMapBijection (applyOp (.measureOp (fun x => x) [7] (1 / 2)) c4Sf).sim := by
  constructor
  · exact of_decide_eq_true (by with_unfolding_all rfl)
  · exact of_decide_eq_true (by with_unfolding_all rfl)

/-- **C4** (corrected).  The unrestricted claim is false (see the
counterexample: a completed `measure_qubits` call on an unknown id breaks
the invariant).  Amended claim: after every completed public operation
whose arguments meet the documented validity requirements — buffered ids
allocated, measured ids allocated, duplicate-free ordering — the index map
is again a bijection from the live ids onto the slot range `[0, N)`. -/
theorem C4_index_map_bijection (op : PubOp) (sf : SimF)
    (hbij : IndexMapBijection sf.sim) (hwf : WfOp op sf) :
    IndexMapBijection (applyOp op sf).sim := by
  cases op with
  | allocateOp id =>
      show IndexMapBijection (allocate_qubit sf.sim id).2
      exact allocate_bij hbij id
  | deallocateOp id =>
      show IndexMapBijection (deallocate_qubit (Simulator.run sf).sim id).2
      exact dealloc_bij (run_bij hwf hbij) id
  | measureOp sq ids rnd =>
      show IndexMapBijection (measure_qubits sq (Simulator.run sf).sim ids rnd).2
      refine measure_bij (run_bij hwf.1 hbij) ?_ sq rnd
      intro x hx
      rw [(run_map_eq hwf.1).1]
      exact hwf.2 x hx
  | setWavefunctionOp wf ord =>
      show IndexMapBijection (set_wavefunction (Simulator.run sf).sim wf ord).2
      exact setwf_bij (run_bij hwf.1 hbij) wf hwf.2
  | collapseWavefunctionOp sq ids vals =>
      show IndexMapBijection (collapse_wavefunction sq (Simulator.run sf).sim ids vals).2
      exact collapse_map_bij (run_bij hwf hbij) sq ids vals
  | applyControlledGateOp m t c =>
      exact applyGate_bij hbij m t c hwf.1 hwf.2

/-- Witness: measuring the two allocated qubits of `c4Sf` (a valid
argument list) keeps the map a bijection onto `[0, 2)`. -/
theorem C4_index_map_bijection_witness :
    IndexMapBijection c4Sf.sim ∧ WfOp (.measureOp (fun x => x) [0, 1] (1 / 3)) c4Sf ∧
    IndexMapBijection (applyOp (.measureOp (fun x => x) [0, 1] (1 / 3)) c4Sf).sim := by
  have h1 : IndexMapBijection c4Sf.sim := of_decide_eq_true (by with_unfolding_all rfl)
  have h2 : WfOp (.measureOp (fun x => x) [0, 1] (1 / 3)) c4Sf :=
    of_decide_eq_true (by with_unfolding_all rfl)
  exact ⟨h1, h2, C4_index_map_bijection _ c4Sf h1 h2⟩

/-! ## Claim C5: measurement idempotence -/

/-- The total squared-norm mass a sampling scan can consume. -/
def vecMass (v : Vec) : ℚ := (v.map Cplx.normSq).sum

theorem qsum_shift (n : ℕ) (g : ℕ → ℚ) :
    qsum (n + 1) g = g 0 + qsum n (fun i => g (i + 1)) := by
  unfold qsum
  rw [List.range_succ_eq_map, List.map_cons, List.sum_cons, List.map_map]
  rfl

theorem vecMass_eq_qsum : ∀ (v : Vec),
    vecMass v = qsum v.length (fun i => Cplx.normSq (ventry v i))
  | [] => rfl
  | z :: t => by
      have ih := vecMass_eq_qsum t
      unfold vecMass at ih ⊢
      rw [List.map_cons, List.sum_cons, ih,
          show (z :: t).length = t.length + 1 from rfl, qsum_shift]
      rfl

theorem scanPickAux_of_ge {rnd P : ℚ} (h : ¬ P < rnd) :
    ∀ (l : List Cplx) (pick : ℕ), scanPickAux rnd l P pick = pick
  | [], _ => rfl
  | _ :: _, pick => by rw [scanPickAux, if_neg h]

/-- The sampling loop `while (P < rnd && pick < size) P += norm(vec[pick++])`
stops right after an entry of positive squared norm whenever the draw is
positive and not above the remaining mass. -/
theorem scanPick_crossing (rnd : ℚ) : ∀ (l : List Cplx) (P : ℚ) (pick : ℕ),
    P < rnd → rnd ≤ P + vecMass l →
    ∃ j, j < l.length ∧ scanPickAux rnd l P pick = pick + j + 1 ∧
      0 < Cplx.normSq (l.getD j 0)
  | [], P, _, hlt, hge => by
      exfalso
      unfold vecMass at hge
      simp only [List.map_nil, List.sum_nil, add_zero] at hge
      linarith
  | z :: t, P, pick, hlt, hge => by
      rw [scanPickAux, if_pos hlt]
      by_cases h2 : P + Cplx.normSq z < rnd
      · have hge2 : rnd ≤ (P + Cplx.normSq z) + vecMass t := by
          unfold vecMass at hge ⊢
          rw [List.map_cons, List.sum_cons] at hge
          linarith
        obtain ⟨j, hj, heq, hpos⟩ :=
          scanPick_crossing rnd t (P + Cplx.normSq z) (pick + 1) h2 hge2
        refine ⟨j + 1, by simpa using hj, ?_, ?_⟩
        · rw [heq]
          omega
        · simpa using hpos
      · rw [scanPickAux_of_ge h2]
        refine ⟨0, by simp, by omega, ?_⟩
        have h3 := not_lt.mp h2
        simp only [List.getD_cons_zero]
        linarith

/-- The squared-norm mass of a masked, `c`-rescaled copy of `v`. -/
theorem mass_renorm (c : ℚ) (v : Vec) (cond : ℕ → Prop) [DecidablePred cond] :
    vecMass (buildVec v.length (fun i => Cplx.smul c (if cond i then ventry v i else 0)))
      = c * c * qsum v.length (fun i => if cond i then Cplx.normSq (ventry v i) else 0) := by
  rw [vecMass_eq_qsum, length_buildVec]
  refine Eq.trans (qsum_congr
    (g := fun i => c * c * (if cond i then Cplx.normSq (ventry v i) else 0)) ?_)
    (qsum_mul_left v.length (c * c) _)
  intro i hi
  rw [ventry_buildVec _ hi, Cplx.normSq_smul]
  show _ = c * c * if cond i then Cplx.normSq (ventry v i) else 0
  by_cases hc : cond i
  · rw [if_pos hc, if_pos hc]
  · rw [if_neg hc, if_neg hc, Cplx.normSq_zero, mul_zero]

/-- `pick` after the sampling scan of `measure_qubits` (pre-decrement). -/
def measureScan (s : Sim) (rnd : ℚ) : ℕ := scanPickAux rnd s.vec 0 0

/-- The sampled index (`pick--` on the `std::size_t` counter). -/
def measurePick (s : Sim) (rnd : ℚ) : ℕ :=
  (measureScan s rnd + (SIZE_T_MOD - 1)) % SIZE_T_MOD

/-- The slot positions `map_[ids[i]]` recorded by `measure_qubits`. -/
def measurePositions (s : Sim) (ids : List ℕ) : List ℕ := (getPositions s.map ids).2

/-- The outcome pattern `val` accumulated by `measure_qubits`. -/
def measureVal (s : Sim) (ids : List ℕ) (rnd : ℚ) : ℕ :=
  valFold (measurePositions s ids)
    ((measurePositions s ids).map (measurePick s rnd).testBit)

/-- The surviving squared-norm mass `N` that `measure_qubits` renormalizes
by. -/
def measureNq (s : Sim) (ids : List ℕ) (rnd : ℚ) : ℚ :=
  qsum s.vec.length (fun i =>
    if i &&& maskFold (measurePositions s ids) = measureVal s ids rnd
    then Cplx.normSq (ventry s.vec i) else 0)

/-- `measure_qubits` restated with the named intermediate quantities. -/
theorem measure_qubits_named (sq : ℚ → ℚ) (s : Sim) (ids : List ℕ) (rnd : ℚ) :
    measure_qubits sq s ids rnd
      = ((measurePositions s ids).map (measurePick s rnd).testBit,
         { s with
           map := (getPositions s.map ids).1,
           vec := buildVec s.vec.length (fun i =>
             Cplx.smul (1 / sq (measureNq s ids rnd))
               (if i &&& maskFold (measurePositions s ids) = measureVal s ids rnd
                then ventry s.vec i else 0)) }) := by
  rw [measure_qubits_eq]
  rfl

/-- One qubit in `|0⟩` (for claim C5). -/
def c5Sim : Sim := ⟨1, [⟨1, 0⟩, 0], [(0, 0)]⟩

/-- **C5 counterexample.**  Idempotence fails for the legal second draw
`rnd = 0`: the sampling loop body never runs, `pick` stays 0, and the
`pick--` on the `std::size_t` counter wraps to `2^64 - 1`, whose low bits
are all 1 — so measuring `|0⟩` twice returns `[false]` then `[true]`. -/
theorem C5_counterexample :
    (measure_qubits (fun x => x) c5Sim [0] (1 / 2)).1 = [false] ∧
    (measure_qubits (fun x => x)
        (measure_qubits (fun x => x) c5Sim [0] (1 / 2)).2 [0] 0).1 = [true] := by
  constructor
  · with_unfolding_all rfl
  · with_unfolding_all rfl

/-- **C5** (corrected).  As stated the claim fails when the second draw is
0 (see the counterexample: the `pick--` wraparound then reports all-true).
Amended claim: if the measured ids are allocated, the register is not
larger than `2^64` amplitudes, the second draw lies in `(0, 1]`, and the
square root is exact at the surviving mass `N` of the first call with
`N > 0`, then a second `measure_qubits` on the same ids (no intervening
gates) returns the same outcome list: after the first call all surviving
squared-amplitude mass is consistent with the first outcome. -/
theorem C5_measure_idempotent (sq : ℚ → ℚ) (s : Sim) (ids : List ℕ) (rnd1 rnd2 : ℚ)
    (hids : ∀ x ∈ ids, mapCount s.map x = true)
    (hlen : s.vec.length ≤ SIZE_T_MOD)
    (h2a : 0 < rnd2) (h2b : rnd2 ≤ 1)
    (hsq : sq (measureNq s ids rnd1) * sq (measureNq s ids rnd1) = measureNq s ids rnd1)
    (hNq : 0 < measureNq s ids rnd1) :
    (measure_qubits sq (measure_qubits sq s ids rnd1).2 ids rnd2).1
      = (measure_qubits sq s ids rnd1).1 := by
  have hfst : (getPositions s.map ids).1 = s.map := getPositions_fst_of_mapped ids s.map hids
  have hchar := measure_qubits_named sq s ids rnd1
  have hvec : (measure_qubits sq s ids rnd1).2.vec
      = buildVec s.vec.length (fun i =>
          Cplx.smul (1 / sq (measureNq s ids rnd1))
            (if i &&& maskFold (measurePositions s ids) = measureVal s ids rnd1
             then ventry s.vec i else 0)) := by
    rw [hchar]
  have hmapeq : (measure_qubits sq s ids rnd1).2.map = s.map := by
    rw [hchar]
    exact hfst
  have hlen1 : (measure_qubits sq s ids rnd1).2.vec.length = s.vec.length := by
    rw [hvec, length_buildVec]
  have hchar2 := measure_qubits_named sq (measure_qubits sq s ids rnd1).2 ids rnd2
  have hres1 : (measure_qubits sq s ids rnd1).1
      = (measurePositions s ids).map (measurePick s rnd1).testBit := by
    rw [hchar]
  have hres2 : (measure_qubits sq (measure_qubits sq s ids rnd1).2 ids rnd2).1
      = (measurePositions (measure_qubits sq s ids rnd1).2 ids).map
          (measurePick (measure_qubits sq s ids rnd1).2 rnd2).testBit := by
    rw [hchar2]
  have hps2 : measurePositions (measure_qubits sq s ids rnd1).2 ids
      = measurePositions s ids := by
    unfold measurePositions
    rw [hmapeq]
  have hsqne : sq (measureNq s ids rnd1) ≠ 0 := by
    intro h0
    rw [h0, zero_mul] at hsq
    exact absurd hsq.symm (ne_of_gt hNq)
  have hmass : vecMass (measure_qubits sq s ids rnd1).2.vec = 1 := by
    rw [hvec, mass_renorm]
    show (1 / sq (measureNq s ids rnd1)) * (1 / sq (measureNq s ids rnd1))
        * measureNq s ids rnd1 = 1
    field_simp
    exact hsq.symm
  obtain ⟨j, hj, hscan, hpos⟩ :=
    scanPick_crossing rnd2 (measure_qubits sq s ids rnd1).2.vec 0 0 h2a
      (by rw [hmass]; linarith)
  rw [hlen1] at hj
  have hj64 : j < SIZE_T_MOD := lt_of_lt_of_le hj hlen
  have hM : 1 ≤ SIZE_T_MOD := by
    unfold SIZE_T_MOD
    exact Nat.one_le_two_pow
  have hpick2 : measurePick (measure_qubits sq s ids rnd1).2 rnd2 = j := by
    unfold measurePick measureScan
    rw [hscan, show 0 + j + 1 + (SIZE_T_MOD - 1) = j + SIZE_T_MOD from by omega,
        Nat.add_mod_right]
    exact Nat.mod_eq_of_lt hj64
  have hne : ventry (measure_qubits sq s ids rnd1).2.vec j ≠ 0 :=
    Cplx.ne_zero_of_normSq_pos hpos
  have hcnd : j &&& maskFold (measurePositions s ids) = measureVal s ids rnd1 := by
    by_contra hno
    apply hne
    rw [hvec, ventry_buildVec _ hj, if_neg hno]
    exact Cplx.smul_zero_right _
  rw [hres1, hres2, hps2, hpick2]
  apply List.map_congr_left
  intro p hp
  have h1 := congrArg (fun x => Nat.testBit x p) hcnd
  simp only [Nat.testBit_land] at h1
  rw [(testBit_maskFold _ p).mpr hp, Bool.and_true] at h1
  rw [h1]
  exact testBit_measure_val _ _ p hp

/-- Witness: measuring `|0⟩` twice with draws 1/2 and 1/2 (id square root:
the surviving mass is 1) returns `[false]` both times. -/
theorem C5_measure_idempotent_witness :
    (∀ x ∈ ([0] : List ℕ), mapCount c5Sim.map x = true) ∧
    c5Sim.vec.length ≤ SIZE_T_MOD ∧
    (0 : ℚ) < 1 / 2 ∧ (1 / 2 : ℚ) ≤ 1 ∧
    measureNq c5Sim [0] (1 / 2) * measureNq c5Sim [0] (1 / 2)
      = measureNq c5Sim [0] (1 / 2) ∧
    0 < measureNq c5Sim [0] (1 / 2) ∧
    (measure_qubits (fun x => x)
        (measure_qubits (fun x => x) c5Sim [0] (1 / 2)).2 [0] (1 / 2)).1
      = (measure_qubits (fun x => x) c5Sim [0] (1 / 2)).1 := by
  have ha : ∀ x ∈ ([0] : List ℕ), mapCount c5Sim.map x = true :=
    of_decide_eq_true (by with_unfolding_all rfl)
  have hb : c5Sim.vec.length ≤ SIZE_T_MOD :=
    of_decide_eq_true (by with_unfolding_all rfl)
  have hc : (0 : ℚ) < 1 / 2 := by norm_num
  have hd : (1 / 2 : ℚ) ≤ 1 := by norm_num
  have he : measureNq c5Sim [0] (1 / 2) * measureNq c5Sim [0] (1 / 2)
      = measureNq c5Sim [0] (1 / 2) := of_decide_eq_true (by with_unfolding_all rfl)
  have hf : 0 < measureNq c5Sim [0] (1 / 2) :=
    of_decide_eq_true (by with_unfolding_all rfl)
  exact ⟨ha, hb, hc, hd, he, hf,
    C5_measure_idempotent (fun x => x) c5Sim [0] (1 / 2) (1 / 2) ha hb hc hd he hf⟩

/-! ## Claim C3: kernel control eligibility and frame property -/

/-- Adding a power of two into a number whose corresponding bit is clear is
a bitwise or. -/
theorem two_pow_add_eq_or_of_testBit_false {p X : ℕ} (h : X.testBit p = false) :
    2 ^ p + X = 2 ^ p ||| X := by
  have hsplit : 2 ^ (p + 1) * (X / 2 ^ (p + 1)) + X % 2 ^ (p + 1) = X :=
    Nat.div_add_mod X (2 ^ (p + 1))
  have hlo : X % 2 ^ (p + 1) < 2 ^ p := by
    have h1 : X % 2 ^ (p + 1) < 2 ^ (p + 1) := Nat.mod_lt _ (Nat.two_pow_pos _)
    by_contra hge
    push_neg at hge
    have htb : (X % 2 ^ (p + 1)).testBit p = X.testBit p := by
      rw [Nat.testBit_mod_two_pow]
      simp [Nat.lt_succ_self]
    have hdiv : X % 2 ^ (p + 1) / 2 ^ p = 1 := by
      apply Nat.div_eq_of_lt_le
      · omega
      · have : 2 ^ (p + 1) = 2 * 2 ^ p := by rw [pow_succ]; ring
        omega
    have : (X % 2 ^ (p + 1)).testBit p = true := by
      rw [Nat.testBit_to_div_mod, hdiv]
      rfl
    rw [htb, h] at this
    exact Bool.false_ne_true this
  apply Nat.eq_of_testBit_eq
  intro q
  have hMain : 2 ^ p + X = 2 ^ (p + 1) * (X / 2 ^ (p + 1)) + (2 ^ p + X % 2 ^ (p + 1)) := by
    omega
  have hlt2 : 2 ^ p + X % 2 ^ (p + 1) < 2 ^ (p + 1) := by
    have : 2 ^ (p + 1) = 2 * 2 ^ p := by rw [pow_succ]; ring
    omega
  have hXdec : X.testBit q
      = (2 ^ (p + 1) * (X / 2 ^ (p + 1)) + X % 2 ^ (p + 1)).testBit q := by rw [hsplit]
  rw [hMain, Nat.testBit_mul_pow_two_add _ hlt2 q, Nat.testBit_or, hXdec,
      Nat.testBit_mul_pow_two_add _ (Nat.mod_lt _ (Nat.two_pow_pos _)) q]
  by_cases hq : q < p + 1
  · rw [if_pos hq, if_pos hq]
    by_cases hq2 : q = p
    · subst hq2
      rw [Nat.testBit_two_pow_add_eq, Nat.testBit_lt_two_pow hlo,
          Nat.testBit_two_pow_self]
      rfl
    · have hqlt : q < p := by omega
      rw [Nat.testBit_two_pow_add_gt hqlt, Nat.testBit_two_pow_of_ne (by omega)]
      rfl
  · rw [if_neg hq, if_neg hq, Nat.testBit_two_pow_of_ne (by omega)]
    rfl

theorem and_two_pow_eq_zero_iff {b p : ℕ} :
    b &&& 2 ^ p = 0 ↔ b.testBit p = false := by
  constructor
  · intro h
    have := congrArg (fun x => x.testBit p) h
    simp only [Nat.testBit_and, Nat.testBit_two_pow_self, Bool.and_true,
      Nat.zero_testBit] at this
    exact this
  · intro h
    apply Nat.zero_of_testBit_eq_false
    intro q
    rw [Nat.testBit_and]
    by_cases hq : q = p
    · subst hq
      rw [h]
      rfl
    · rw [Nat.testBit_two_pow_of_ne (fun he => hq he.symm)]
      exact Bool.and_false _

theorem and_maskFold_eq_zero_iff {b : ℕ} {ids : List ℕ} :
    b &&& maskFold ids = 0 ↔ ∀ id ∈ ids, b.testBit id = false := by
  constructor
  · intro h id hid
    have := congrArg (fun x => x.testBit id) h
    simp only [Nat.testBit_and, Nat.zero_testBit] at this
    rw [(testBit_maskFold ids id).mpr hid, Bool.and_true] at this
    exact this
  · intro h
    apply Nat.zero_of_testBit_eq_false
    intro q
    rw [Nat.testBit_and]
    by_cases hq : q ∈ ids
    · rw [h q hq]
      rfl
    · rw [testBit_maskFold_of_not_mem hq]
      exact Bool.and_false _

theorem foldl_add_shift {α : Type} (g : α → ℕ) (l : List α) (a : ℕ) :
    l.foldl (fun x p => x + g p) a = a + l.foldl (fun x p => x + g p) 0 := by
  induction l generalizing a with
  | nil => simp
  | cons b t ih =>
      simp only [List.foldl_cons]
      rw [ih (a + g b), ih (0 + g b)]
      omega

theorem blockOff_cons (d : ℕ) (t : List ℕ) (r : ℕ) :
    blockOff (d :: t) r = (if r.testBit 0 then d else 0) + blockOff t (r / 2) := by
  unfold blockOff
  rw [show (d :: t).length = t.length + 1 from rfl, List.range_succ_eq_map,
      List.foldl_cons, List.foldl_map]
  rw [foldl_add_shift]
  congr 1
  · simp
  · have hfun : (fun (a : ℕ) (l : ℕ) =>
        a + if r.testBit l.succ then (d :: t).getD l.succ 0 else 0)
        = fun (a : ℕ) (l : ℕ) => a + if (r / 2).testBit l then t.getD l 0 else 0 := by
      funext a l
      rw [Nat.testBit_succ, List.getD_cons_succ]
    rw [hfun]

/-- With duplicate-free bit positions, the `I + d0 + d1 + ...` addressing of
the unrolled cores is the or-spread of the local index over the positions. -/
theorem blockOff_eq_valFold : ∀ (ids : List ℕ), ids.Nodup → ∀ (r : ℕ),
    blockOff (ids.map (fun id => 2 ^ id)) r
      = valFold ids ((List.range ids.length).map r.testBit)
  | [], _, r => rfl
  | id :: t, hnd, r => by
      rw [List.map_cons, blockOff_cons]
      have ih := blockOff_eq_valFold t (List.nodup_cons.mp hnd).2 (r / 2)
      rw [show (id :: t).length = t.length + 1 from rfl, List.range_succ_eq_map,
          List.map_cons, List.map_map, valFold_cons]
      have hfun : (List.range t.length).map (r.testBit ∘ Nat.succ)
          = (List.range t.length).map (r / 2).testBit := by
        apply List.map_congr_left
        intro l _
        show r.testBit l.succ = (r / 2).testBit l
        rw [Nat.testBit_succ]
      rw [hfun, ← ih]
      by_cases hb : r.testBit 0
      · rw [if_pos hb]
        apply two_pow_add_eq_or_of_testBit_false
        rw [ih]
        exact testBit_valFold_of_not_mem (List.nodup_cons.mp hnd).1
      · rw [if_neg hb, Nat.zero_add, Nat.zero_or]

theorem valFold_lt_two_pow {ids : List ℕ} {bs : List Bool} {N : ℕ}
    (h : ∀ id ∈ ids, id < N) : valFold ids bs < 2 ^ N := by
  by_contra hge
  push_neg at hge
  obtain ⟨i, hiN, hbit⟩ := Nat.ge_two_pow_implies_high_bit_true hge
  obtain ⟨pb, hmem, hfst, _⟩ := (testBit_valFold ids bs i).mp hbit
  have := h pb.1 (List.of_mem_zip hmem).1
  omega

/-- Adding an or-spread over clear bit positions is a bitwise or. -/
theorem add_valFold_eq_or : ∀ (ids : List ℕ) (bs : List Bool) (b : ℕ),
    (∀ id ∈ ids, b.testBit id = false) → ids.Nodup →
    b + valFold ids bs = b ||| valFold ids bs
  | [], bs, b, _, _ => by simp [valFold]
  | id :: t, [], b, _, _ => by simp [valFold]
  | id :: t, b0 :: bs, b, hclear, hnd => by
      rw [valFold_cons]
      cases b0 with
      | false =>
          rw [if_neg (by simp), Nat.zero_or]
          exact add_valFold_eq_or t bs b
            (fun q hq => hclear q (List.mem_cons_of_mem id hq))
            (List.nodup_cons.mp hnd).2
      | true =>
          rw [if_pos rfl]
          have hVid : (valFold t bs).testBit id = false :=
            testBit_valFold_of_not_mem (List.nodup_cons.mp hnd).1
          have h1 : 2 ^ id + valFold t bs = 2 ^ id ||| valFold t bs :=
            two_pow_add_eq_or_of_testBit_false hVid
          have h2 : 2 ^ id + b = 2 ^ id ||| b :=
            two_pow_add_eq_or_of_testBit_false
              (hclear id (List.mem_cons_self id t))
          have h3 : (b ||| 2 ^ id) + valFold t bs = (b ||| 2 ^ id) ||| valFold t bs := by
            apply add_valFold_eq_or t bs (b ||| 2 ^ id) ?_ (List.nodup_cons.mp hnd).2
            intro q hq
            have hne : id ≠ q := fun he => (List.nodup_cons.mp hnd).1 (he ▸ hq)
            rw [Nat.testBit_or, hclear q (List.mem_cons_of_mem id hq),
                Nat.testBit_two_pow_of_ne hne]
            rfl
          calc b + (2 ^ id ||| valFold t bs)
              = b + (2 ^ id + valFold t bs) := by rw [h1]
            _ = (2 ^ id + b) + valFold t bs := by omega
            _ = (b ||| 2 ^ id) + valFold t bs := by rw [h2, Nat.lor_comm]
            _ = (b ||| 2 ^ id) ||| valFold t bs := h3
            _ = b ||| (2 ^ id ||| valFold t bs) := Nat.lor_assoc b _ _

/-- The bits of `i` at the positions `ids`, gathered into the low bits (the
local block-row index of `i`). -/
def gatherBits (ids : List ℕ) (i : ℕ) : ℕ :=
  valFold (List.range ids.length) (ids.map i.testBit)

/-- `i` with the bits at the positions `ids` cleared (the base of `i`'s
block). -/
def clearBits (ids : List ℕ) (i : ℕ) : ℕ := i ^^^ (i &&& maskFold ids)

theorem testBit_clearBits (ids : List ℕ) (i q : ℕ) :
    (clearBits ids i).testBit q = (i.testBit q && !(maskFold ids).testBit q) := by
  unfold clearBits
  rw [Nat.testBit_xor, Nat.testBit_and]
  cases i.testBit q <;> cases (maskFold ids).testBit q <;> rfl

theorem clearBits_testBit_mem {ids : List ℕ} {i q : ℕ} (h : q ∈ ids) :
    (clearBits ids i).testBit q = false := by
  rw [testBit_clearBits, (testBit_maskFold ids q).mpr h]
  exact Bool.and_false _

theorem clearBits_testBit_not_mem {ids : List ℕ} {i q : ℕ} (h : q ∉ ids) :
    (clearBits ids i).testBit q = i.testBit q := by
  rw [testBit_clearBits, testBit_maskFold_of_not_mem h]
  exact Bool.and_true _

theorem clearBits_lt {ids : List ℕ} {i N : ℕ} (h : i < 2 ^ N) :
    clearBits ids i < 2 ^ N := by
  by_contra hge
  push_neg at hge
  obtain ⟨q, hqN, hbit⟩ := Nat.ge_two_pow_implies_high_bit_true hge
  rw [testBit_clearBits] at hbit
  have : i.testBit q = true := by
    revert hbit
    cases i.testBit q <;> simp
  have hfalse : i.testBit q = false :=
    Nat.testBit_lt_two_pow (lt_of_lt_of_le h (Nat.pow_le_pow_right (by omega) hqN))
  rw [this] at hfalse
  exact absurd hfalse (by simp)

theorem gatherBits_lt (ids : List ℕ) (i : ℕ) :
    gatherBits ids i < 2 ^ ids.length := by
  unfold gatherBits
  exact valFold_lt_two_pow (fun id hid => List.mem_range.mp hid)

theorem gatherBits_testBit {ids : List ℕ} (i : ℕ) {l : ℕ} (hl : l < ids.length) :
    (gatherBits ids i).testBit l = i.testBit (ids.getD l 0) := by
  unfold gatherBits
  have h := @valFold_testBit_nodup (List.range ids.length) (ids.map i.testBit)
    (List.nodup_range ids.length) (by simp) l (by simpa using hl)
  rw [List.getD_eq_getElem?_getD, List.getElem?_range hl] at h
  simp only [Option.getD_some] at h
  rw [h, getD_map_lt' i.testBit ids l hl 0 false]

theorem getD_range {n l : ℕ} (h : l < n) : (List.range n).getD l 0 = l := by
  rw [List.getD_eq_getElem?_getD, List.getElem?_range h]
  rfl

theorem base_add_blockOff_eq_or {ids : List ℕ} (hnd : ids.Nodup) {b : ℕ}
    (hbase : ∀ id ∈ ids, b.testBit id = false) (r : ℕ) :
    b + blockOff (ids.map (fun id => 2 ^ id)) r
      = b ||| valFold ids ((List.range ids.length).map r.testBit) := by
  rw [blockOff_eq_valFold ids hnd r]
  exact add_valFold_eq_or _ _ b hbase hnd

theorem base_add_blockOff_testBit_mem {ids : List ℕ} (hnd : ids.Nodup) {b : ℕ}
    (hbase : ∀ id ∈ ids, b.testBit id = false) (r : ℕ) {l : ℕ} (hl : l < ids.length) :
    (b + blockOff (ids.map (fun id => 2 ^ id)) r).testBit (ids.getD l 0)
      = r.testBit l := by
  rw [base_add_blockOff_eq_or hnd hbase r, Nat.testBit_or,
      hbase _ (getD_mem hl), Bool.false_or,
      valFold_testBit_nodup hnd (by simp) l hl,
      getD_map_lt' r.testBit (List.range ids.length) l (by simpa using hl) 0 false,
      getD_range hl]

theorem base_add_blockOff_testBit_not_mem {ids : List ℕ} (hnd : ids.Nodup) {b : ℕ}
    (hbase : ∀ id ∈ ids, b.testBit id = false) (r : ℕ) {q : ℕ} (hq : q ∉ ids) :
    (b + blockOff (ids.map (fun id => 2 ^ id)) r).testBit q = b.testBit q := by
  rw [base_add_blockOff_eq_or hnd hbase r, Nat.testBit_or,
      testBit_valFold_of_not_mem hq, Bool.or_false]

theorem base_add_blockOff_lt {ids : List ℕ} (hnd : ids.Nodup) {N b : ℕ}
    (hlt : ∀ id ∈ ids, id < N) (hb : b < 2 ^ N)
    (hbase : ∀ id ∈ ids, b.testBit id = false) (r : ℕ) :
    b + blockOff (ids.map (fun id => 2 ^ id)) r < 2 ^ N := by
  rw [base_add_blockOff_eq_or hnd hbase r]
  exact Nat.or_lt_two_pow hb (valFold_lt_two_pow hlt)

/-- The block decomposition `(base, local index) ↦ base + offset` is
injective. -/
theorem base_add_blockOff_inj {ids : List ℕ} (hnd : ids.Nodup) {b b' r r' : ℕ}
    (hbase : ∀ id ∈ ids, b.testBit id = false)
    (hbase' : ∀ id ∈ ids, b'.testBit id = false)
    (hr : r < 2 ^ ids.length) (hr' : r' < 2 ^ ids.length)
    (heq : b + blockOff (ids.map (fun id => 2 ^ id)) r
      = b' + blockOff (ids.map (fun id => 2 ^ id)) r') : b = b' ∧ r = r' := by
  constructor
  · apply Nat.eq_of_testBit_eq
    intro q
    by_cases hq : q ∈ ids
    · rw [hbase q hq, hbase' q hq]
    · rw [← base_add_blockOff_testBit_not_mem hnd hbase r hq,
          ← base_add_blockOff_testBit_not_mem hnd hbase' r' hq, heq]
  · apply Nat.eq_of_testBit_eq
    intro l
    by_cases hl : l < ids.length
    · rw [← base_add_blockOff_testBit_mem hnd hbase r hl,
          ← base_add_blockOff_testBit_mem hnd hbase' r' hl, heq]
    · push_neg at hl
      have h2l : (2 : ℕ) ^ ids.length ≤ 2 ^ l := Nat.pow_le_pow_right (by omega) hl
      rw [Nat.testBit_lt_two_pow (lt_of_lt_of_le hr h2l),
          Nat.testBit_lt_two_pow (lt_of_lt_of_le hr' h2l)]

/-- Every index splits as its block base plus the offset of its local
index. -/
theorem decomp_base_offset {ids : List ℕ} (hnd : ids.Nodup) (i : ℕ) :
    i = clearBits ids i
        + blockOff (ids.map (fun id => 2 ^ id)) (gatherBits ids i) := by
  have hbase : ∀ id ∈ ids, (clearBits ids i).testBit id = false :=
    fun id h => clearBits_testBit_mem h
  have hmain : clearBits ids i
      + blockOff (ids.map (fun id => 2 ^ id)) (gatherBits ids i) = i := by
    apply Nat.eq_of_testBit_eq
    intro q
    by_cases hq : q ∈ ids
    · obtain ⟨l, hl, hgl⟩ := List.mem_iff_getElem.mp hq
      have hgd : ids.getD l 0 = q := by
        rw [List.getD_eq_getElem?_getD, List.getElem?_eq_getElem hl]
        simpa using hgl
      rw [← hgd, base_add_blockOff_testBit_mem hnd hbase _ hl, gatherBits_testBit i hl]
    · rw [base_add_blockOff_testBit_not_mem hnd hbase _ hq, clearBits_testBit_not_mem hq]
  exact hmain.symm

theorem stepRange_nodup {n step : ℕ} (h : step ≠ 0) : (stepRange 0 n step).Nodup := by
  unfold stepRange
  rw [if_neg h]
  apply List.Nodup.map ?_ (List.nodup_range _)
  intro a b hab
  have h2 : 0 + a * step = 0 + b * step := hab
  have h3 : a * step = b * step := by omega
  exact Nat.eq_of_mul_eq_mul_right (Nat.pos_of_ne_zero h) h3

theorem nodup_flatMap_aux {α β : Type} (f : α → List β) : ∀ (l : List α),
    (∀ x ∈ l, (f x).Nodup) → l.Pairwise (fun a b => ∀ y ∈ f a, y ∉ f b) →
    (l.flatMap f).Nodup
  | [], _, _ => by simp
  | a :: t, hall, hpw => by
      rw [List.flatMap_cons, List.nodup_append]
      rw [List.pairwise_cons] at hpw
      refine ⟨hall a (List.mem_cons_self a t),
        nodup_flatMap_aux f t (fun x hx => hall x (List.mem_cons_of_mem a hx)) hpw.2, ?_⟩
      intro y hy hcon
      obtain ⟨x, hx, hyx⟩ := List.mem_flatMap.mp hcon
      exact hpw.1 x hx y hy hyx

/-- The nested block loops visit exactly the indices below `2^N` whose bits
at the (descending, distinct) stride positions are all clear. -/
theorem nestLoops_mem : ∀ (ds' : List ℕ) (N : ℕ),
    ds'.Chain' (· > ·) → (∀ d ∈ ds', ∃ p, p < N ∧ d = 2 ^ p) →
    ∀ x, x ∈ nestLoops (2 ^ N) ds' ↔ (x < 2 ^ N ∧ ∀ d ∈ ds', x &&& d = 0)
  | [], N, _, _, x => by simp [nestLoops, List.mem_range]
  | d :: t, N, hch, hpow, x => by
      obtain ⟨p, hpN, rfl⟩ := hpow d (List.mem_cons_self d t)
      have hpair : ∀ e ∈ t, e < 2 ^ p := by
        have hp := List.chain'_iff_pairwise.mp hch
        rw [List.pairwise_cons] at hp
        exact fun e he => hp.1 e he
      have hcht : t.Chain' (· > ·) := hch.tail
      have hpowt : ∀ e ∈ t, ∃ q, q < p ∧ e = 2 ^ q := by
        intro e he
        obtain ⟨q, _, rfl⟩ := hpow e (List.mem_cons_of_mem _ he)
        exact ⟨q, (Nat.pow_lt_pow_iff_right (by omega)).mp (hpair _ he), rfl⟩
      have ih := nestLoops_mem t p hcht hpowt
      rw [show nestLoops (2 ^ N) (2 ^ p :: t)
          = (stepRange 0 (2 ^ N) (2 * 2 ^ p)).flatMap
              (fun i => (nestLoops (2 ^ p) t).map (fun b => i + b)) from rfl,
          List.mem_flatMap]
      constructor
      · rintro ⟨i, hi, hmem⟩
        rw [List.mem_map] at hmem
        obtain ⟨c, hc, rfl⟩ := hmem
        obtain ⟨hclt, hcand⟩ := (ih c).mp hc
        have hfacts := base_offset_lt_and_testBit hpN hi hclt false
        have hlt : i + c < 2 ^ N := by simpa using hfacts.1
        have htb : (i + c).testBit p = false := by simpa using hfacts.2
        refine ⟨hlt, ?_⟩
        intro e he
        rcases List.mem_cons.mp he with rfl | het
        · exact and_two_pow_eq_zero_iff.mpr htb
        · obtain ⟨q, hqp, rfl⟩ := hpowt e het
          apply and_two_pow_eq_zero_iff.mpr
          obtain ⟨k, hik, _⟩ := (mem_stepRange_zero (by positivity)).mp hi
          have hi2 : i + c = 2 ^ (p + 1) * k + c := by
            rw [hik, pow_succ]
            ring
          have hc2 : c < 2 ^ (p + 1) := lt_trans hclt (Nat.pow_lt_pow_succ (by omega))
          rw [hi2, Nat.testBit_mul_pow_two_add k hc2 q, if_pos (by omega)]
          exact and_two_pow_eq_zero_iff.mp (hcand _ het)
      · rintro ⟨hxlt, hand⟩
        have hxp : x.testBit p = false :=
          and_two_pow_eq_zero_iff.mp (hand _ (List.mem_cons_self _ _))
        obtain ⟨i, hi, j, hj, hxeq⟩ := exists_base_offset hpN hxlt
        rw [hxp] at hxeq
        have hxeq' : x = i + j := by simpa using hxeq
        refine ⟨i, hi, ?_⟩
        rw [List.mem_map]
        refine ⟨j, ?_, hxeq'.symm⟩
        apply (ih j).mpr
        refine ⟨hj, ?_⟩
        intro e he
        obtain ⟨q, hqp, rfl⟩ := hpowt e he
        apply and_two_pow_eq_zero_iff.mpr
        obtain ⟨k, hik, _⟩ := (mem_stepRange_zero (by positivity)).mp hi
        have hx2 : x = 2 ^ (p + 1) * k + j := by
          rw [hxeq', hik, pow_succ]
          ring
        have hj2 : j < 2 ^ (p + 1) := lt_trans hj (Nat.pow_lt_pow_succ (by omega))
        have hq2 := and_two_pow_eq_zero_iff.mp (hand _ (List.mem_cons_of_mem _ he))
        rw [hx2, Nat.testBit_mul_pow_two_add k hj2 q, if_pos (by omega)] at hq2
        exact hq2

/-- The nested block loops visit each base once. -/
theorem nestLoops_nodup : ∀ (ds' : List ℕ) (N : ℕ),
    ds'.Chain' (· > ·) → (∀ d ∈ ds', ∃ p, p < N ∧ d = 2 ^ p) →
    (nestLoops (2 ^ N) ds').Nodup
  | [], N, _, _ => by
      show (List.range (2 ^ N)).Nodup
      exact List.nodup_range _
  | d :: t, N, hch, hpow => by
      obtain ⟨p, hpN, rfl⟩ := hpow d (List.mem_cons_self d t)
      have hpair : ∀ e ∈ t, e < 2 ^ p := by
        have hp := List.chain'_iff_pairwise.mp hch
        rw [List.pairwise_cons] at hp
        exact fun e he => hp.1 e he
      have hcht : t.Chain' (· > ·) := hch.tail
      have hpowt : ∀ e ∈ t, ∃ q, q < p ∧ e = 2 ^ q := by
        intro e he
        obtain ⟨q, _, rfl⟩ := hpow e (List.mem_cons_of_mem _ he)
        exact ⟨q, (Nat.pow_lt_pow_iff_right (by omega)).mp (hpair _ he), rfl⟩
      have ihnd := nestLoops_nodup t p hcht hpowt
      show ((stepRange 0 (2 ^ N) (2 * 2 ^ p)).flatMap
          (fun i => (nestLoops (2 ^ p) t).map (fun b => i + b))).Nodup
      apply nodup_flatMap_aux
      · intro i _
        apply List.Nodup.map ?_ ihnd
        intro a b hab
        have h2 : i + a = i + b := hab
        omega
      · have hsr : (stepRange 0 (2 ^ N) (2 * 2 ^ p)).Nodup :=
          stepRange_nodup (by positivity)
        apply List.Pairwise.imp_of_mem ?_ hsr
        intro i i' hi hi' hne y hy hcon
        rw [List.mem_map] at hy hcon
        obtain ⟨c, hc, hyc⟩ := hy
        obtain ⟨c', hc', hyc'⟩ := hcon
        obtain ⟨hclt, _⟩ := (nestLoops_mem t p hcht hpowt c).mp hc
        obtain ⟨hclt', _⟩ := (nestLoops_mem t p hcht hpowt c').mp hc'
        obtain ⟨k, hik, _⟩ := (mem_stepRange_zero (by positivity)).mp hi
        obtain ⟨k', hik', _⟩ := (mem_stepRange_zero (by positivity)).mp hi'
        have heq : i + c = i' + c' := by
          have h1 : i + c = y := hyc
          have h2 : i' + c' = y := hyc'
          omega
        apply hne
        have ed : (2 : ℕ) * 2 ^ p ≠ 0 := by positivity
        have e1 : (i + c) / (2 * 2 ^ p) = k := by
          rw [hik, Nat.mul_comm k (2 * 2 ^ p), Nat.mul_add_div (by positivity),
              Nat.div_eq_of_lt (by omega)]
          omega
        have e2 : (i' + c') / (2 * 2 ^ p) = k' := by
          rw [hik', Nat.mul_comm k' (2 * 2 ^ p), Nat.mul_add_div (by positivity),
              Nat.div_eq_of_lt (by omega)]
          omega
        rw [heq, e2] at e1
        rw [hik, hik', e1]

theorem ventry_set_ne {ψ : Vec} {p x : ℕ} (z : Cplx) (h : p ≠ x) :
    ventry (ψ.set p z) x = ventry ψ x := by
  unfold ventry
  rw [List.getD_eq_getElem?_getD, List.getD_eq_getElem?_getD, List.getElem?_set_ne h]

theorem ventry_set_eq {ψ : Vec} {p : ℕ} (z : Cplx) (h : p < ψ.length) :
    ventry (ψ.set p z) p = z := by
  unfold ventry
  rw [List.getD_eq_getElem?_getD, List.getElem?_set_self h]
  rfl

theorem foldl_set_ventry_ne {α : Type} (pos : α → ℕ) (val : α → Cplx) :
    ∀ (l : List α) (ψ : Vec) (x : ℕ), (∀ r ∈ l, pos r ≠ x) →
    ventry (l.foldl (fun ψ2 r => ψ2.set (pos r) (val r)) ψ) x = ventry ψ x
  | [], _, _, _ => rfl
  | a :: t, ψ, x, h => by
      rw [List.foldl_cons,
          foldl_set_ventry_ne pos val t _ x (fun r hr => h r (List.mem_cons_of_mem a hr))]
      exact ventry_set_ne _ (h a (List.mem_cons_self a t))

theorem foldl_set_length {α : Type} (pos : α → ℕ) (val : α → Cplx) :
    ∀ (l : List α) (ψ : Vec),
    (l.foldl (fun ψ2 r => ψ2.set (pos r) (val r)) ψ).length = ψ.length
  | [], _ => rfl
  | a :: t, ψ => by
      rw [List.foldl_cons, foldl_set_length pos val t, List.length_set]

theorem foldl_set_ventry_eq {α : Type} (pos : α → ℕ) (val : α → Cplx) :
    ∀ (l : List α) (ψ : Vec) (r0 : α), l.Nodup → r0 ∈ l →
    (∀ r ∈ l, r ≠ r0 → pos r ≠ pos r0) → pos r0 < ψ.length →
    ventry (l.foldl (fun ψ2 r => ψ2.set (pos r) (val r)) ψ) (pos r0) = val r0
  | [], _, r0, _, hmem, _, _ => by simp at hmem
  | a :: t, ψ, r0, hnd, hmem, hne, hlen => by
      rw [List.foldl_cons]
      rcases List.mem_cons.mp hmem with rfl | hmem2
      · rw [foldl_set_ventry_ne pos val t _ _ ?hall]
        · exact ventry_set_eq _ hlen
        case hall =>
          intro r hr
          have hra : r ≠ r0 := fun he => (List.nodup_cons.mp hnd).1 (he ▸ hr)
          exact hne r (List.mem_cons_of_mem r0 hr) hra
      · apply foldl_set_ventry_eq pos val t _ r0 (List.nodup_cons.mp hnd).2 hmem2
          (fun r hr hrne => hne r (List.mem_cons_of_mem a hr) hrne)
        rw [List.length_set]
        exact hlen

/-- `kernel_core` leaves every index outside its block untouched. -/
theorem kernel_core_gen_other {psi : Vec} {I : ℕ} {ds : List ℕ} {m : Mat} {x : ℕ}
    (h : ∀ r, r < 2 ^ ds.length → I + blockOff ds r ≠ x) :
    ventry (kernel_core_gen psi I ds m) x = ventry psi x := by
  simp only [kernel_core_gen]
  exact foldl_set_ventry_ne _ _ (List.range _) psi x
    (fun r hr => h r (List.mem_range.mp hr))

theorem kernel_core_gen_length (psi : Vec) (I : ℕ) (ds : List ℕ) (m : Mat) :
    (kernel_core_gen psi I ds m).length = psi.length := by
  simp only [kernel_core_gen]
  exact foldl_set_length _ _ (List.range _) psi

/-- `kernel_core` replaces each block cell by the matrix row applied to the
block vector read from the original `psi`. -/
theorem kernel_core_gen_cell {psi : Vec} {I : ℕ} {ds : List ℕ} {m : Mat} {r0 : ℕ}
    (hr0 : r0 < 2 ^ ds.length)
    (hinj : ∀ r, r < 2 ^ ds.length → r ≠ r0 → I + blockOff ds r ≠ I + blockOff ds r0)
    (hlen : I + blockOff ds r0 < psi.length) :
    ventry (kernel_core_gen psi I ds m) (I + blockOff ds r0)
      = csum (2 ^ ds.length)
          (fun j => Cplx.mul (ventry psi (I + blockOff ds j)) (mentry m r0 j)) := by
  simp only [kernel_core_gen]
  rw [foldl_set_ventry_eq (fun r => I + blockOff ds r) _ (List.range _) psi r0
      (List.nodup_range _) (List.mem_range.mpr hr0)
      (fun r hr hrne => hinj r (List.mem_range.mp hr) hrne) hlen]
  apply csum_congr
  intro j hj
  rw [getD_map_lt' (fun j => ventry psi (I + blockOff ds j)) (List.range _) j
      (by simpa using hj) 0 0, getD_range hj]

theorem base_add_blockOff_and_cm {ids : List ℕ} (hnd : ids.Nodup) {b cm : ℕ}
    (hbase : ∀ id ∈ ids, b.testBit id = false)
    (hdisj : ∀ id ∈ ids, cm.testBit id = false) (r : ℕ) :
    (b + blockOff (ids.map (fun id => 2 ^ id)) r) &&& cm = b &&& cm := by
  apply Nat.eq_of_testBit_eq
  intro q
  rw [Nat.testBit_and, Nat.testBit_and]
  by_cases hq : q ∈ ids
  · rw [hdisj q hq, Bool.and_false, Bool.and_false]
  · rw [base_add_blockOff_testBit_not_mem hnd hbase r hq]

theorem foldF_untouched (ids : List ℕ) (m : Mat) (cm : ℕ) :
    ∀ (bl : List ℕ) (ψ : Vec) (x : ℕ),
    (∀ b ∈ bl, ∀ r, r < 2 ^ ids.length → (cm = 0 ∨ b &&& cm = cm) →
        b + blockOff (ids.map (fun id => 2 ^ id)) r ≠ x) →
    ventry (bl.foldl (fun ψ2 base =>
        if cm = 0 ∨ base &&& cm = cm
        then kernel_core_gen ψ2 base (ids.map (fun id => 2 ^ id)) m else ψ2) ψ) x
      = ventry ψ x
  | [], _, _, _ => rfl
  | b :: t, ψ, x, h => by
      rw [List.foldl_cons,
          foldF_untouched ids m cm t _ x
            (fun b2 hb2 => h b2 (List.mem_cons_of_mem b hb2))]
      by_cases helig : cm = 0 ∨ b &&& cm = cm
      · rw [if_pos helig]
        apply kernel_core_gen_other
        intro r hr
        rw [List.length_map] at hr
        exact h b (List.mem_cons_self b t) r hr helig
      · rw [if_neg helig]

theorem foldF_length (ids : List ℕ) (m : Mat) (cm : ℕ) :
    ∀ (bl : List ℕ) (ψ : Vec),
    (bl.foldl (fun ψ2 base =>
        if cm = 0 ∨ base &&& cm = cm
        then kernel_core_gen ψ2 base (ids.map (fun id => 2 ^ id)) m else ψ2) ψ).length
      = ψ.length
  | [], _ => rfl
  | b :: t, ψ => by
      rw [List.foldl_cons, foldF_length ids m cm t]
      by_cases helig : cm = 0 ∨ b &&& cm = cm
      · rw [if_pos helig, kernel_core_gen_length]
      · rw [if_neg helig]

/-- Folding the guarded cores over duplicate-free bases: an eligible base's
block cells end up holding the matrix rows applied to the original block
vector. -/
theorem foldF_block (ids : List ℕ) (m : Mat) (cm : ℕ) (psi : Vec) (N : ℕ)
    (hψ : psi.length = 2 ^ N) (hnd : ids.Nodup) (hlt : ∀ id ∈ ids, id < N) :
    ∀ (bl : List ℕ) (ψ : Vec) (b0 r0 : ℕ),
    bl.Nodup →
    (∀ b ∈ bl, b < 2 ^ N ∧ ∀ id ∈ ids, b.testBit id = false) →
    b0 ∈ bl → r0 < 2 ^ ids.length →
    (cm = 0 ∨ b0 &&& cm = cm) →
    ψ.length = psi.length →
    (∀ r, r < 2 ^ ids.length →
        ventry ψ (b0 + blockOff (ids.map (fun id => 2 ^ id)) r)
          = ventry psi (b0 + blockOff (ids.map (fun id => 2 ^ id)) r)) →
    ventry (bl.foldl (fun ψ2 base =>
        if cm = 0 ∨ base &&& cm = cm
        then kernel_core_gen ψ2 base (ids.map (fun id => 2 ^ id)) m else ψ2) ψ)
      (b0 + blockOff (ids.map (fun id => 2 ^ id)) r0)
      = csum (2 ^ ids.length)
          (fun j => Cplx.mul
            (ventry psi (b0 + blockOff (ids.map (fun id => 2 ^ id)) j))
            (mentry m r0 j))
  | [], _, b0, _, _, _, hmem, _, _, _, _ => by simp at hmem
  | b :: t, ψ, b0, r0, hblnd, hbl, hmem, hr0, helig, hψlen, hblock => by
      have hb0P := hbl b0 hmem
      rcases List.mem_cons.mp hmem with rfl | hmem2
      · -- the head is the target base
        rw [List.foldl_cons, if_pos helig]
        rw [foldF_untouched ids m cm t _ _ ?hnot]
        case hnot =>
          intro b2 hb2 r hr _ heq
          have hb2P := hbl b2 (List.mem_cons_of_mem b0 hb2)
          have := (base_add_blockOff_inj hnd hb2P.2 hb0P.2 hr hr0 heq).1
          exact (List.nodup_cons.mp hblnd).1 (this ▸ hb2)
        have hinj : ∀ r, r < 2 ^ (ids.map (fun id => 2 ^ id)).length → r ≠ r0 →
            b0 + blockOff (ids.map (fun id => 2 ^ id)) r
              ≠ b0 + blockOff (ids.map (fun id => 2 ^ id)) r0 := by
          intro r hr hrne heq
          rw [List.length_map] at hr
          exact hrne (base_add_blockOff_inj hnd hb0P.2 hb0P.2 hr hr0 heq).2
        have hcl : b0 + blockOff (ids.map (fun id => 2 ^ id)) r0 < ψ.length := by
          rw [hψlen, hψ]
          exact base_add_blockOff_lt hnd hlt hb0P.1 hb0P.2 r0
        have hr0' : r0 < 2 ^ (ids.map (fun id => 2 ^ id)).length := by
          rw [List.length_map]
          exact hr0
        have hcell := @kernel_core_gen_cell ψ _ _ m _ hr0' hinj hcl
        rw [List.length_map] at hcell
        rw [hcell]
        apply csum_congr
        intro j hj
        rw [hblock j hj]
      · -- the head is a different base
        have hbne : b ≠ b0 := fun he => (List.nodup_cons.mp hblnd).1 (by rw [he]; exact hmem2)
        have hbP := hbl b (List.mem_cons_self b t)
        rw [List.foldl_cons]
        by_cases helig2 : cm = 0 ∨ b &&& cm = cm
        · rw [if_pos helig2]
          apply foldF_block ids m cm psi N hψ hnd hlt t _ b0 r0
            (List.nodup_cons.mp hblnd).2
            (fun b2 hb2 => hbl b2 (List.mem_cons_of_mem b hb2)) hmem2 hr0 helig
          · rw [kernel_core_gen_length]
            exact hψlen
          · intro r hr
            rw [kernel_core_gen_other ?hother]
            · exact hblock r hr
            case hother =>
              intro r2 hr2 heq
              rw [List.length_map] at hr2
              exact hbne (base_add_blockOff_inj hnd hbP.2 hb0P.2 hr2 hr heq).1
        · rw [if_neg helig2]
          exact foldF_block ids m cm psi N hψ hnd hlt t ψ b0 r0
            (List.nodup_cons.mp hblnd).2
            (fun b2 hb2 => hbl b2 (List.mem_cons_of_mem b hb2)) hmem2 hr0 helig
            hψlen hblock

/-- The generic kernel: frame property for control-failing indices, and
in-place block replacement for eligible bases. -/
theorem kernelK_spec (psi : Vec) (N : ℕ) (ids : List ℕ) (m : Mat) (cm : ℕ)
    (hψ : psi.length = 2 ^ N) (hnd : ids.Nodup) (hlt : ∀ id ∈ ids, id < N)
    (hdisj : cm &&& maskFold ids = 0) :
    (∀ i, i < 2 ^ N → i &&& cm ≠ cm →
        ventry (kernelK psi ids m cm) i = ventry psi i) ∧
    (∀ b r, b < 2 ^ N → (∀ id ∈ ids, b.testBit id = false) →
        r < 2 ^ ids.length → (cm = 0 ∨ b &&& cm = cm) →
        ventry (kernelK psi ids m cm) (b + blockOff (ids.map (fun id => 2 ^ id)) r)
          = csum (2 ^ ids.length) (fun j =>
              Cplx.mul (ventry psi (b + blockOff (ids.map (fun id => 2 ^ id)) j))
                (mentry m r j))) := by
  haveI : IsTotal ℕ (fun a b : ℕ => b ≤ a) := ⟨fun a b => le_total b a⟩
  haveI : IsTrans ℕ (fun a b : ℕ => b ≤ a) := ⟨fun a b c h1 h2 => le_trans h2 h1⟩
  have hdsnd : (ids.map (fun id => 2 ^ id)).Nodup := by
    apply List.Nodup.map ?_ hnd
    exact Nat.pow_right_injective (le_refl 2)
  have hdssperm : (dsortedOf (ids.map (fun id => 2 ^ id))).Perm
      (ids.map (fun id => 2 ^ id)) := List.perm_insertionSort _ _
  have hdssnd : (dsortedOf (ids.map (fun id => 2 ^ id))).Nodup :=
    hdssperm.nodup_iff.mpr hdsnd
  have hsorted : (dsortedOf (ids.map (fun id => 2 ^ id))).Pairwise
      (fun a b : ℕ => b ≤ a) :=
    List.sorted_insertionSort (fun a b : ℕ => b ≤ a) (ids.map (fun id => 2 ^ id))
  have hchain : (dsortedOf (ids.map (fun id => 2 ^ id))).Chain' (· > ·) := by
    apply List.Pairwise.chain'
    exact (hsorted.and hdssnd).imp
      (fun hab => lt_of_le_of_ne hab.1 (Ne.symm hab.2))
  have hpows : ∀ d ∈ dsortedOf (ids.map (fun id => 2 ^ id)),
      ∃ p, p < N ∧ d = 2 ^ p := by
    intro d hd
    obtain ⟨id, hid, rfl⟩ := List.mem_map.mp (hdssperm.subset hd)
    exact ⟨id, hlt id hid, rfl⟩
  have hmem := nestLoops_mem (dsortedOf (ids.map (fun id => 2 ^ id))) N hchain hpows
  have hnodup := nestLoops_nodup (dsortedOf (ids.map (fun id => 2 ^ id))) N hchain hpows
  have hbase_iff : ∀ b,
      b ∈ nestLoops (2 ^ N) (dsortedOf (ids.map (fun id => 2 ^ id)))
        ↔ (b < 2 ^ N ∧ ∀ id ∈ ids, b.testBit id = false) := by
    intro b
    rw [hmem b]
    refine and_congr_right (fun _ => ⟨?_, ?_⟩)
    · intro h id hid
      apply and_two_pow_eq_zero_iff.mp
      apply h
      rw [hdssperm.mem_iff]
      exact List.mem_map_of_mem _ hid
    · intro h d hd
      obtain ⟨id, hid, rfl⟩ := List.mem_map.mp (hdssperm.subset hd)
      exact and_two_pow_eq_zero_iff.mpr (h id hid)
  have hdisj' : ∀ id ∈ ids, cm.testBit id = false := and_maskFold_eq_zero_iff.mp hdisj
  have hkdef : kernelK psi ids m cm
      = (nestLoops (2 ^ N) (dsortedOf (ids.map (fun id => 2 ^ id)))).foldl
          (fun ψ2 base =>
            if cm = 0 ∨ base &&& cm = cm
            then kernel_core_gen ψ2 base (ids.map (fun id => 2 ^ id)) m else ψ2) psi := by
    simp only [kernelK]
    rw [hψ]
  constructor
  · intro i hiN hic
    have hcm0 : cm ≠ 0 := by
      intro h0
      rw [h0, Nat.and_zero] at hic
      exact hic rfl
    rw [hkdef]
    apply foldF_untouched
    intro b hb r hr helig heq
    have hbP := (hbase_iff b).mp hb
    have helig2 : b &&& cm = cm := by
      rcases helig with h0 | h1
      · exact absurd h0 hcm0
      · exact h1
    have := base_add_blockOff_and_cm hnd hbP.2 hdisj' r
    rw [heq, helig2] at this
    exact hic this
  · intro b r hbN hbbits hr helig
    rw [hkdef]
    exact foldF_block ids m cm psi N hψ hnd hlt _ psi b r hnodup
      (fun b2 hb2 => (hbase_iff b2).mp hb2) ((hbase_iff b).mpr ⟨hbN, hbbits⟩)
      hr helig rfl (fun _ _ => rfl)

theorem Cplx_add_eq (x y : Cplx) : Cplx.add x y = x + y := rfl

theorem Cplx_mul_eq (x y : Cplx) : Cplx.mul x y = x * y := rfl

theorem set_congr (l l' : Vec) (i : ℕ) (x x' : Cplx) (h1 : l = l') (h2 : x = x') :
    l.set i x = l'.set i x' := by
  rw [h1, h2]

/-- The width-1 unrolled core is the generic core at the stride list `[d0]`. -/
theorem kernel_core_gen_one (psi : Vec) (I d0 : ℕ) (m : Mat) :
    kernel_core_gen psi I [d0] m = kernel_core1 psi I d0 m := by
  have hoffnil : ∀ r : ℕ, blockOff [] r = 0 := fun _ => rfl
  have hoff0 : blockOff [d0] 0 = 0 := by simp [blockOff_cons, hoffnil]
  have hoff1 : blockOff [d0] 1 = d0 := by simp [blockOff_cons, hoffnil]
  have hcsum : ∀ g : ℕ → Cplx, csum 2 g = g 0 + g 1 := by
    intro g
    show ((List.range 2).map g).sum = g 0 + g 1
    rw [show List.range 2 = [0, 1] from rfl]
    simp
  simp only [kernel_core_gen, kernel_core1]
  rw [show (2 : ℕ) ^ ([d0] : List ℕ).length = 2 from rfl,
      show List.range 2 = [0, 1] from rfl]
  simp only [List.map_cons, List.map_nil, List.foldl_cons, List.foldl_nil,
    hoff0, hoff1, Nat.add_zero, hcsum, List.getD_cons_zero, List.getD_cons_succ]
  apply set_congr
  · apply set_congr _ _ _ _ _ rfl
    simp only [Cplx_add_eq, Cplx_mul_eq]
  · simp only [Cplx_add_eq, Cplx_mul_eq]

/-- The width-2 unrolled core is the generic core at the stride list
`[d0, d1]`. -/
theorem kernel_core_gen_two (psi : Vec) (I d0 d1 : ℕ) (m : Mat) :
    kernel_core_gen psi I [d0, d1] m = kernel_core2 psi I d0 d1 m := by
  have hoffnil : ∀ r : ℕ, blockOff [] r = 0 := fun _ => rfl
  have hoff0 : blockOff [d0, d1] 0 = 0 := by simp [blockOff_cons, hoffnil]
  have hoff1 : blockOff [d0, d1] 1 = d0 := by simp [blockOff_cons, hoffnil]
  have hoff2 : blockOff [d0, d1] 2 = d1 := by simp [blockOff_cons, hoffnil]
  have hoff3 : blockOff [d0, d1] 3 = d0 + d1 := by simp [blockOff_cons, hoffnil]
  have hcsum : ∀ g : ℕ → Cplx, csum 4 g = g 0 + g 1 + g 2 + g 3 := by
    intro g
    show ((List.range 4).map g).sum = g 0 + g 1 + g 2 + g 3
    rw [show List.range 4 = [0, 1, 2, 3] from rfl]
    simp
    ring
  simp only [kernel_core_gen, kernel_core2]
  rw [show (2 : ℕ) ^ ([d0, d1] : List ℕ).length = 4 from rfl,
      show List.range 4 = [0, 1, 2, 3] from rfl]
  simp only [List.map_cons, List.map_nil, List.foldl_cons, List.foldl_nil,
    hoff0, hoff1, hoff2, hoff3, Nat.add_zero, hcsum, List.getD_cons_zero,
    List.getD_cons_succ]
  rw [show I + (d0 + d1) = I + d0 + d1 from by ring]
  apply set_congr
  · apply set_congr
    · apply set_congr
      · apply set_congr _ _ _ _ _ rfl
        simp only [Cplx_add_eq, Cplx_mul_eq]
        ring
      · simp only [Cplx_add_eq, Cplx_mul_eq]
        ring
    · simp only [Cplx_add_eq, Cplx_mul_eq]
      ring
  · simp only [Cplx_add_eq, Cplx_mul_eq]
    ring

theorem foldl_flatMap {α β γ : Type} (f : γ → β → γ) (g : α → List β) :
    ∀ (l : List α) (init : γ),
    (l.flatMap g).foldl f init = l.foldl (fun acc x => (g x).foldl f acc) init
  | [], _ => rfl
  | a :: t, init => by
      rw [List.flatMap_cons, List.foldl_append, List.foldl_cons,
          foldl_flatMap f g t]

/-- `kernel1` is the generic kernel at the one-slot list. -/
theorem kernel1_eq_kernelK (psi : Vec) (id0 : ℕ) (m : Mat) (cm : ℕ) :
    kernel1 psi id0 m cm = kernelK psi [id0] m cm := by
  simp only [kernel1, kernelK]
  rw [show List.map (fun id => 2 ^ id) [id0] = [2 ^ id0] from rfl,
      show dsortedOf [2 ^ id0] = [2 ^ id0] from rfl,
      show nestLoops psi.length [2 ^ id0]
        = (stepRange 0 psi.length (2 * 2 ^ id0)).flatMap
            (fun i => (List.range (2 ^ id0)).map (fun b => i + b)) from rfl,
      foldl_flatMap]
  by_cases hcm : cm = 0
  · rw [if_pos hcm]
    have hfun : (fun (ψ : Vec) (i0 : ℕ) =>
        ((List.range (2 ^ id0)).map (fun b => i0 + b)).foldl
          (fun ψ2 base => if cm = 0 ∨ base &&& cm = cm
            then kernel_core_gen ψ2 base [2 ^ id0] m else ψ2) ψ)
        = fun ψ i0 => (List.range (2 ^ id0)).foldl
            (fun ψ2 i1 => kernel_core1 ψ2 (i0 + i1) (2 ^ id0) m) ψ := by
      funext ψ i0
      rw [List.foldl_map]
      have hin : (fun (ψ2 : Vec) (i1 : ℕ) =>
          if cm = 0 ∨ (i0 + i1) &&& cm = cm
          then kernel_core_gen ψ2 (i0 + i1) [2 ^ id0] m else ψ2)
          = fun ψ2 i1 => kernel_core1 ψ2 (i0 + i1) (2 ^ id0) m := by
        funext ψ2 i1
        rw [if_pos (Or.inl hcm), kernel_core_gen_one]
      rw [hin]
    rw [hfun]
  · rw [if_neg hcm]
    have hfun : (fun (ψ : Vec) (i0 : ℕ) =>
        ((List.range (2 ^ id0)).map (fun b => i0 + b)).foldl
          (fun ψ2 base => if cm = 0 ∨ base &&& cm = cm
            then kernel_core_gen ψ2 base [2 ^ id0] m else ψ2) ψ)
        = fun ψ i0 => (List.range (2 ^ id0)).foldl
            (fun ψ2 i1 => if (i0 + i1) &&& cm = cm
              then kernel_core1 ψ2 (i0 + i1) (2 ^ id0) m else ψ2) ψ := by
      funext ψ i0
      rw [List.foldl_map]
      have hin : (fun (ψ2 : Vec) (i1 : ℕ) =>
          if cm = 0 ∨ (i0 + i1) &&& cm = cm
          then kernel_core_gen ψ2 (i0 + i1) [2 ^ id0] m else ψ2)
          = fun ψ2 i1 => if (i0 + i1) &&& cm = cm
              then kernel_core1 ψ2 (i0 + i1) (2 ^ id0) m else ψ2 := by
        funext ψ2 i1
        by_cases hx : (i0 + i1) &&& cm = cm
        · rw [if_pos (Or.inr hx), if_pos hx, kernel_core_gen_one]
        · rw [if_neg (by
              intro hor
              rcases hor with h | h
              exacts [hcm h, hx h]), if_neg hx]
      rw [hin]
    rw [hfun]

/-- `kernel2` is the generic kernel at the two-slot list. -/
theorem kernel2_eq_kernelK (psi : Vec) (id1 id0 : ℕ) (m : Mat) (cm : ℕ) :
    kernel2 psi id1 id0 m cm = kernelK psi [id0, id1] m cm := by
  simp only [kernel2, kernelK]
  rw [show List.map (fun id => 2 ^ id) [id0, id1] = [2 ^ id0, 2 ^ id1] from rfl]
  by_cases hcmp : (2 : ℕ) ^ id1 ≤ 2 ^ id0
  · have hsort : dsortedOf [2 ^ id0, 2 ^ id1] = [2 ^ id0, 2 ^ id1] := by
      show List.insertionSort _ [2 ^ id0, 2 ^ id1] = _
      simp [List.insertionSort, List.orderedInsert, hcmp]
    have hmax : max (2 ^ id0) (2 ^ id1) = 2 ^ id0 := max_eq_left hcmp
    have hmin : min (2 ^ id0) (2 ^ id1) = 2 ^ id1 := min_eq_right hcmp
    rw [hsort, hmax, hmin,
        show nestLoops psi.length [2 ^ id0, 2 ^ id1]
          = (stepRange 0 psi.length (2 * 2 ^ id0)).flatMap (fun i0 =>
              ((stepRange 0 (2 ^ id0) (2 * 2 ^ id1)).flatMap (fun i1 =>
                (List.range (2 ^ id1)).map (fun b => i1 + b))).map
                (fun b => i0 + b)) from rfl,
        foldl_flatMap]
    by_cases hcm : cm = 0
    · rw [if_pos hcm]
      have hfun : (fun (ψ : Vec) (i0 : ℕ) =>
          (((stepRange 0 (2 ^ id0) (2 * 2 ^ id1)).flatMap (fun i1 =>
              (List.range (2 ^ id1)).map (fun b => i1 + b))).map
              (fun b => i0 + b)).foldl
            (fun ψ2 base => if cm = 0 ∨ base &&& cm = cm
              then kernel_core_gen ψ2 base [2 ^ id0, 2 ^ id1] m else ψ2) ψ)
          = fun ψ i0 => (stepRange 0 (2 ^ id0) (2 * 2 ^ id1)).foldl
              (fun ψ2 i1 => (List.range (2 ^ id1)).foldl
                (fun ψ3 i2 => kernel_core2 ψ3 (i0 + i1 + i2) (2 ^ id0) (2 ^ id1) m)
                ψ2) ψ := by
        funext ψ i0
        rw [List.foldl_map, foldl_flatMap]
        have hin : (fun (ψ2 : Vec) (i1 : ℕ) =>
            ((List.range (2 ^ id1)).map (fun b => i1 + b)).foldl
              (fun ψ3 b => if cm = 0 ∨ (i0 + b) &&& cm = cm
                then kernel_core_gen ψ3 (i0 + b) [2 ^ id0, 2 ^ id1] m else ψ3) ψ2)
            = fun ψ2 i1 => (List.range (2 ^ id1)).foldl
                (fun ψ3 i2 => kernel_core2 ψ3 (i0 + i1 + i2) (2 ^ id0) (2 ^ id1) m)
                ψ2 := by
          funext ψ2 i1
          rw [List.foldl_map]
          have hin2 : (fun (ψ3 : Vec) (i2 : ℕ) =>
              if cm = 0 ∨ (i0 + (i1 + i2)) &&& cm = cm
              then kernel_core_gen ψ3 (i0 + (i1 + i2)) [2 ^ id0, 2 ^ id1] m else ψ3)
              = fun ψ3 i2 =>
                  kernel_core2 ψ3 (i0 + i1 + i2) (2 ^ id0) (2 ^ id1) m := by
            funext ψ3 i2
            rw [if_pos (Or.inl hcm), kernel_core_gen_two, ← Nat.add_assoc]
          rw [hin2]
        rw [hin]
      rw [hfun]
    · rw [if_neg hcm]
      have hfun : (fun (ψ : Vec) (i0 : ℕ) =>
          (((stepRange 0 (2 ^ id0) (2 * 2 ^ id1)).flatMap (fun i1 =>
              (List.range (2 ^ id1)).map (fun b => i1 + b))).map
              (fun b => i0 + b)).foldl
            (fun ψ2 base => if cm = 0 ∨ base &&& cm = cm
              then kernel_core_gen ψ2 base [2 ^ id0, 2 ^ id1] m else ψ2) ψ)
          = fun ψ i0 => (stepRange 0 (2 ^ id0) (2 * 2 ^ id1)).foldl
              (fun ψ2 i1 => (List.range (2 ^ id1)).foldl
                (fun ψ3 i2 => if (i0 + i1 + i2) &&& cm = cm
                  then kernel_core2 ψ3 (i0 + i1 + i2) (2 ^ id0) (2 ^ id1) m else ψ3)
                ψ2) ψ := by
        funext ψ i0
        rw [List.foldl_map, foldl_flatMap]
        have hin : (fun (ψ2 : Vec) (i1 : ℕ) =>
            ((List.range (2 ^ id1)).map (fun b => i1 + b)).foldl
              (fun ψ3 b => if cm = 0 ∨ (i0 + b) &&& cm = cm
                then kernel_core_gen ψ3 (i0 + b) [2 ^ id0, 2 ^ id1] m else ψ3) ψ2)
            = fun ψ2 i1 => (List.range (2 ^ id1)).foldl
                (fun ψ3 i2 => if (i0 + i1 + i2) &&& cm = cm
                  then kernel_core2 ψ3 (i0 + i1 + i2) (2 ^ id0) (2 ^ id1) m else ψ3)
                ψ2 := by
          funext ψ2 i1
          rw [List.foldl_map]
          have hin2 : (fun (ψ3 : Vec) (i2 : ℕ) =>
              if cm = 0 ∨ (i0 + (i1 + i2)) &&& cm = cm
              then kernel_core_gen ψ3 (i0 + (i1 + i2)) [2 ^ id0, 2 ^ id1] m else ψ3)
              = fun ψ3 i2 => if (i0 + i1 + i2) &&& cm = cm
                  then kernel_core2 ψ3 (i0 + i1 + i2) (2 ^ id0) (2 ^ id1) m
                  else ψ3 := by
            funext ψ3 i2
            by_cases hx : (i0 + (i1 + i2)) &&& cm = cm
            · rw [if_pos (Or.inr hx), kernel_core_gen_two, ← Nat.add_assoc,
                  if_pos (by rw [← Nat.add_assoc] at hx; exact hx)]
            · rw [if_neg (by
                  intro hor
                  rcases hor with h | h
                  exacts [hcm h, hx h]),
                  if_neg (by rw [← Nat.add_assoc] at hx; exact hx)]
          rw [hin2]
        rw [hin]
      rw [hfun]
  · have hle : (2 : ℕ) ^ id0 ≤ 2 ^ id1 := le_of_not_le hcmp
    have hsort : dsortedOf [2 ^ id0, 2 ^ id1] = [2 ^ id1, 2 ^ id0] := by
      show List.insertionSort _ [2 ^ id0, 2 ^ id1] = _
      simp [List.insertionSort, List.orderedInsert, hcmp]
    have hmax : max (2 ^ id0) (2 ^ id1) = 2 ^ id1 := max_eq_right hle
    have hmin : min (2 ^ id0) (2 ^ id1) = 2 ^ id0 := min_eq_left hle
    rw [hsort, hmax, hmin,
        show nestLoops psi.length [2 ^ id1, 2 ^ id0]
          = (stepRange 0 psi.length (2 * 2 ^ id1)).flatMap (fun i0 =>
              ((stepRange 0 (2 ^ id1) (2 * 2 ^ id0)).flatMap (fun i1 =>
                (List.range (2 ^ id0)).map (fun b => i1 + b))).map
                (fun b => i0 + b)) from rfl,
        foldl_flatMap]
    by_cases hcm : cm = 0
    · rw [if_pos hcm]
      have hfun : (fun (ψ : Vec) (i0 : ℕ) =>
          (((stepRange 0 (2 ^ id1) (2 * 2 ^ id0)).flatMap (fun i1 =>
              (List.range (2 ^ id0)).map (fun b => i1 + b))).map
              (fun b => i0 + b)).foldl
            (fun ψ2 base => if cm = 0 ∨ base &&& cm = cm
              then kernel_core_gen ψ2 base [2 ^ id0, 2 ^ id1] m else ψ2) ψ)
          = fun ψ i0 => (stepRange 0 (2 ^ id1) (2 * 2 ^ id0)).foldl
              (fun ψ2 i1 => (List.range (2 ^ id0)).foldl
                (fun ψ3 i2 => kernel_core2 ψ3 (i0 + i1 + i2) (2 ^ id0) (2 ^ id1) m)
                ψ2) ψ := by
        funext ψ i0
        rw [List.foldl_map, foldl_flatMap]
        have hin : (fun (ψ2 : Vec) (i1 : ℕ) =>
            ((List.range (2 ^ id0)).map (fun b => i1 + b)).foldl
              (fun ψ3 b => if cm = 0 ∨ (i0 + b) &&& cm = cm
                then kernel_core_gen ψ3 (i0 + b) [2 ^ id0, 2 ^ id1] m else ψ3) ψ2)
            = fun ψ2 i1 => (List.range (2 ^ id0)).foldl
                (fun ψ3 i2 => kernel_core2 ψ3 (i0 + i1 + i2) (2 ^ id0) (2 ^ id1) m)
                ψ2 := by
          funext ψ2 i1
          rw [List.foldl_map]
          have hin2 : (fun (ψ3 : Vec) (i2 : ℕ) =>
              if cm = 0 ∨ (i0 + (i1 + i2)) &&& cm = cm
              then kernel_core_gen ψ3 (i0 + (i1 + i2)) [2 ^ id0, 2 ^ id1] m else ψ3)
              = fun ψ3 i2 =>
                  kernel_core2 ψ3 (i0 + i1 + i2) (2 ^ id0) (2 ^ id1) m := by
            funext ψ3 i2
            rw [if_pos (Or.inl hcm), kernel_core_gen_two, ← Nat.add_assoc]
          rw [hin2]
        rw [hin]
      rw [hfun]
    · rw [if_neg hcm]
      have hfun : (fun (ψ : Vec) (i0 : ℕ) =>
          (((stepRange 0 (2 ^ id1) (2 * 2 ^ id0)).flatMap (fun i1 =>
              (List.range (2 ^ id0)).map (fun b => i1 + b))).map
              (fun b => i0 + b)).foldl
            (fun ψ2 base => if cm = 0 ∨ base &&& cm = cm
              then kernel_core_gen ψ2 base [2 ^ id0, 2 ^ id1] m else ψ2) ψ)
          = fun ψ i0 => (stepRange 0 (2 ^ id1) (2 * 2 ^ id0)).foldl
              (fun ψ2 i1 => (List.range (2 ^ id0)).foldl
                (fun ψ3 i2 => if (i0 + i1 + i2) &&& cm = cm
                  then kernel_core2 ψ3 (i0 + i1 + i2) (2 ^ id0) (2 ^ id1) m else ψ3)
                ψ2) ψ := by
        funext ψ i0
        rw [List.foldl_map, foldl_flatMap]
        have hin : (fun (ψ2 : Vec) (i1 : ℕ) =>
            ((List.range (2 ^ id0)).map (fun b => i1 + b)).foldl
              (fun ψ3 b => if cm = 0 ∨ (i0 + b) &&& cm = cm
                then kernel_core_gen ψ3 (i0 + b) [2 ^ id0, 2 ^ id1] m else ψ3) ψ2)
            = fun ψ2 i1 => (List.range (2 ^ id0)).foldl
                (fun ψ3 i2 => if (i0 + i1 + i2) &&& cm = cm
                  then kernel_core2 ψ3 (i0 + i1 + i2) (2 ^ id0) (2 ^ id1) m else ψ3)
                ψ2 := by
          funext ψ2 i1
          rw [List.foldl_map]
          have hin2 : (fun (ψ3 : Vec) (i2 : ℕ) =>
              if cm = 0 ∨ (i0 + (i1 + i2)) &&& cm = cm
              then kernel_core_gen ψ3 (i0 + (i1 + i2)) [2 ^ id0, 2 ^ id1] m else ψ3)
              = fun ψ3 i2 => if (i0 + i1 + i2) &&& cm = cm
                  then kernel_core2 ψ3 (i0 + i1 + i2) (2 ^ id0) (2 ^ id1) m
                  else ψ3 := by
            funext ψ3 i2
            by_cases hx : (i0 + (i1 + i2)) &&& cm = cm
            · rw [if_pos (Or.inr hx), kernel_core_gen_two, ← Nat.add_assoc,
                  if_pos (by rw [← Nat.add_assoc] at hx; exact hx)]
            · rw [if_neg (by
                  intro hor
                  rcases hor with h | h
                  exacts [hcm h, hx h]),
                  if_neg (by rw [← Nat.add_assoc] at hx; exact hx)]
          rw [hin2]
        rw [hin]
      rw [hfun]

/-- **C3** (confirmed).  For a kernel dispatch of a combined matrix over
duplicate-free target slots below `N` with a control mask disjoint from the
target slots: an amplitude is transformed iff its linear index satisfies
`(i & ctrlmask) == ctrlmask`; every amplitude failing the test is left
unchanged, and within each eligible block the amplitude at local row `r`
becomes the matrix row `r` applied to the block vector (the entries of the
original `psi` at the block's cells).  The width-1 and width-2 kernels are
the same generic kernel at the one- and two-slot lists. -/
theorem C3_kernel_frame (psi : Vec) (N : ℕ) (ids : List ℕ) (m : Mat) (cm : ℕ)
    (hψ : psi.length = 2 ^ N) (hnd : ids.Nodup) (hlt : ∀ id ∈ ids, id < N)
    (hdisj : cm &&& maskFold ids = 0) :
    (∀ i, i < 2 ^ N → i &&& cm ≠ cm →
        ventry (kernelK psi ids m cm) i = ventry psi i) ∧
    (∀ i, i < 2 ^ N → i &&& cm = cm →
        ventry (kernelK psi ids m cm) i
          = csum (2 ^ ids.length) (fun j =>
              Cplx.mul (ventry psi (clearBits ids i
                  + blockOff (ids.map (fun id => 2 ^ id)) j))
                (mentry m (gatherBits ids i) j))) ∧
    (∀ (psi2 : Vec) (id0 : ℕ), kernel1 psi2 id0 m cm = kernelK psi2 [id0] m cm) ∧
    (∀ (psi2 : Vec) (id0 id1 : ℕ),
        kernel2 psi2 id1 id0 m cm = kernelK psi2 [id0, id1] m cm) := by
  obtain ⟨hframe, hblock⟩ := kernelK_spec psi N ids m cm hψ hnd hlt hdisj
  refine ⟨hframe, ?_, fun psi2 id0 => kernel1_eq_kernelK psi2 id0 m cm,
    fun psi2 id0 id1 => kernel2_eq_kernelK psi2 id1 id0 m cm⟩
  intro i hiN hic
  have hdisj' := and_maskFold_eq_zero_iff.mp hdisj
  have hbase : ∀ id ∈ ids, (clearBits ids i).testBit id = false :=
    fun id h => clearBits_testBit_mem h
  have hblt : clearBits ids i < 2 ^ N := clearBits_lt hiN
  have hdec := decomp_base_offset hnd i
  have hcmeq : clearBits ids i &&& cm = cm := by
    have h1 := base_add_blockOff_and_cm hnd hbase hdisj' (gatherBits ids i)
    rw [← hdec] at h1
    rw [← h1]
    exact hic
  have hb := hblock (clearBits ids i) (gatherBits ids i) hblt hbase
    (gatherBits_lt ids i) (Or.inr hcmeq)
  rw [← hdec] at hb
  exact hb

/-- A three-qubit register in `|000⟩`. -/
def c3Psi : Vec := [⟨1, 0⟩, 0, 0, 0, 0, 0, 0, 0]

/-- Witness for C3: the three-qubit register, targets at slots 0 and 2,
control mask `2` (slot 1). -/
theorem C3_kernel_frame_witness :
    c3Psi.length = 2 ^ 3 ∧ ([0, 2] : List ℕ).Nodup ∧
    (∀ id ∈ ([0, 2] : List ℕ), id < 3) ∧ (2 &&& maskFold [0, 2] = 0) ∧
    ((∀ i, i < 2 ^ 3 → i &&& 2 ≠ 2 →
        ventry (kernelK c3Psi [0, 2] [] 2) i = ventry c3Psi i) ∧
     (∀ i, i < 2 ^ 3 → i &&& 2 = 2 →
        ventry (kernelK c3Psi [0, 2] [] 2) i
          = csum (2 ^ ([0, 2] : List ℕ).length) (fun j =>
              Cplx.mul (ventry c3Psi (clearBits [0, 2] i
                  + blockOff (([0, 2] : List ℕ).map (fun id => 2 ^ id)) j))
                (mentry [] (gatherBits [0, 2] i) j))) ∧
     (∀ (psi2 : Vec) (id0 : ℕ), kernel1 psi2 id0 [] 2 = kernelK psi2 [id0] [] 2) ∧
     (∀ (psi2 : Vec) (id0 id1 : ℕ),
        kernel2 psi2 id1 id0 [] 2 = kernelK psi2 [id0, id1] [] 2)) := by
  have h1 : c3Psi.length = 2 ^ 3 := rfl
  have h2 : ([0, 2] : List ℕ).Nodup := by decide
  have h3 : ∀ id ∈ ([0, 2] : List ℕ), id < 3 := by decide
  have h4 : 2 &&& maskFold [0, 2] = 0 := by decide
  exact ⟨h1, h2, h3, h4, C3_kernel_frame c3Psi 3 [0, 2] [] 2 h1 h2 h3 h4⟩

/-! ## Claim C1: fusion transparency -/

theorem csum_zero_fn (m : ℕ) : csum m (fun _ => (0 : Cplx)) = 0 := by
  induction m with
  | zero => rfl
  | succ k ih => rw [csum_succ, ih, add_zero]

theorem csum_add (n : ℕ) (f g : ℕ → Cplx) :
    csum n (fun i => f i + g i) = csum n f + csum n g := by
  induction n with
  | zero => simp [csum]
  | succ k ih =>
      rw [csum_succ, csum_succ, csum_succ, ih]
      ring

theorem csum_cmul_left (n : ℕ) (a : Cplx) (f : ℕ → Cplx) :
    csum n (fun i => a * f i) = a * csum n f := by
  induction n with
  | zero => simp [csum]
  | succ k ih =>
      rw [csum_succ, csum_succ, ih]
      ring

theorem csum_swap (n m : ℕ) (f : ℕ → ℕ → Cplx) :
    csum n (fun i => csum m (fun j => f i j))
      = csum m (fun j => csum n (fun i => f i j)) := by
  induction n with
  | zero =>
      rw [show csum 0 (fun i => csum m (fun j => f i j)) = 0 from rfl]
      rw [show (fun j => csum 0 (fun i => f i j)) = fun _ => (0 : Cplx) from rfl]
      rw [csum_zero_fn]
  | succ k ih =>
      rw [csum_succ, ih, ← csum_add]
      apply csum_congr
      intro j _
      rw [csum_succ]

theorem csum_delta (n r : ℕ) (hr : r < n) (x : ℕ → Cplx) :
    csum n (fun j => (if j = r then (1 : Cplx) else 0) * x j) = x r := by
  induction n with
  | zero => omega
  | succ k ih =>
      rw [csum_succ]
      by_cases hk : r = k
      · subst hk
        rw [if_pos rfl, one_mul]
        have hz : csum r (fun j => (if j = r then (1 : Cplx) else 0) * x j)
            = csum r (fun _ => (0 : Cplx)) := by
          apply csum_congr
          intro j hj
          rw [if_neg (by omega), zero_mul]
        rw [hz, csum_zero_fn, zero_add]
      · rw [ih (by omega), if_neg (fun he => hk he.symm), zero_mul, add_zero]

theorem csum_eq_finset (n : ℕ) (f : ℕ → Cplx) :
    csum n f = ∑ i ∈ Finset.range n, f i := by
  induction n with
  | zero => simp [csum]
  | succ k ih => rw [csum_succ, Finset.sum_range_succ, ih]

theorem clearBits_base_add {pos : List ℕ} (hnd : pos.Nodup) {c : ℕ}
    (hcbits : ∀ p ∈ pos, c.testBit p = false) (j : ℕ) :
    clearBits pos (c + blockOff (pos.map (fun p => 2 ^ p)) j) = c := by
  apply Nat.eq_of_testBit_eq
  intro q
  by_cases hq : q ∈ pos
  · rw [clearBits_testBit_mem hq, hcbits q hq]
  · rw [clearBits_testBit_not_mem hq, base_add_blockOff_testBit_not_mem hnd hcbits j hq]

theorem gather_base_add {pos : List ℕ} (hnd : pos.Nodup) {c : ℕ}
    (hcbits : ∀ p ∈ pos, c.testBit p = false) {j : ℕ} (hj : j < 2 ^ pos.length) :
    gatherBits pos (c + blockOff (pos.map (fun p => 2 ^ p)) j) = j := by
  apply Nat.eq_of_testBit_eq
  intro l
  by_cases hl : l < pos.length
  · rw [gatherBits_testBit _ hl, base_add_blockOff_testBit_mem hnd hcbits j hl]
  · push_neg at hl
    rw [Nat.testBit_lt_two_pow
          (lt_of_lt_of_le (gatherBits_lt pos _) (Nat.pow_le_pow_right (by omega) hl)),
        Nat.testBit_lt_two_pow
          (lt_of_lt_of_le hj (Nat.pow_le_pow_right (by omega) hl))]

/-- A sum over the whole index space whose support lies in a single block
collapses to the sum over that block's cells. -/
theorem csum_block {W : ℕ} {pos : List ℕ} (hnd : pos.Nodup) {c : ℕ}
    (hcbits : ∀ p ∈ pos, c.testBit p = false)
    (hclt : ∀ j, j < 2 ^ pos.length → c + blockOff (pos.map (fun p => 2 ^ p)) j < 2 ^ W)
    (f : ℕ → Cplx)
    (hsupp : ∀ l, l < 2 ^ W → f l ≠ 0 → clearBits pos l = c) :
    csum (2 ^ W) f
      = csum (2 ^ pos.length)
          (fun j => f (c + blockOff (pos.map (fun p => 2 ^ p)) j)) := by
  rw [csum_eq_finset, csum_eq_finset]
  rw [← Finset.sum_filter_of_ne (p := fun l => clearBits pos l = c)
        (fun x hx hfx => hsupp x (Finset.mem_range.mp hx) hfx)]
  apply Finset.sum_nbij' (i := fun l => gatherBits pos l)
    (j := fun j => c + blockOff (pos.map (fun p => 2 ^ p)) j)
  · intro a ha
    rw [Finset.mem_range]
    exact gatherBits_lt pos a
  · intro a ha
    rw [Finset.mem_range] at ha
    rw [Finset.mem_filter, Finset.mem_range]
    exact ⟨hclt a ha, clearBits_base_add hnd hcbits a⟩
  · intro a ha
    rw [Finset.mem_filter] at ha
    conv_rhs => rw [decomp_base_offset hnd a]
    rw [ha.2]
  · intro a ha
    rw [Finset.mem_range] at ha
    exact gather_base_add hnd hcbits ha
  · intro a ha
    rw [Finset.mem_filter] at ha
    have : c + blockOff (pos.map (fun p => 2 ^ p)) (gatherBits pos a) = a := by
      conv_rhs => rw [decomp_base_offset hnd a]
      rw [ha.2]
    rw [this]

/-! ### The index helpers of `perform_fusion` in bit form -/

/-- `(x >> q) & 1` is the indicator of bit `q`. -/
theorem shift_and_one (x q : ℕ) : (x >>> q) &&& 1 = if x.testBit q then 1 else 0 := by
  rw [Nat.and_one_is_mod, Nat.shiftRight_eq_div_pow, Nat.testBit_to_div_mod]
  rcases Nat.mod_two_eq_zero_or_one (x / 2 ^ q) with h | h <;> simp [h]

theorem testBit_orFold (g : ℕ → ℕ) (n a q : ℕ) :
    (((List.range n).foldl (fun x l => x ||| g l) a).testBit q)
      = (a.testBit q || (List.range n).any (fun l => (g l).testBit q)) := by
  induction n generalizing a with
  | zero => simp
  | succ k ih =>
      rw [List.range_succ, List.foldl_append, List.foldl_cons, List.foldl_nil,
          Nat.testBit_or, ih, List.any_append]
      simp [Bool.or_assoc]

theorem testBit_xorFold (g : ℕ → ℕ) (n a q : ℕ) :
    (((List.range n).foldl (fun x l => x ^^^ g l) a).testBit q)
      = ((a.testBit q).xor
          ((List.range n).foldl (fun b l => b.xor ((g l).testBit q)) false)) := by
  induction n generalizing a with
  | zero => simp
  | succ k ih =>
      rw [List.range_succ, List.foldl_append, List.foldl_append,
          List.foldl_cons, List.foldl_nil, List.foldl_cons, List.foldl_nil,
          Nat.testBit_xor, ih]
      cases a.testBit q <;> cases (g k).testBit q <;>
        cases (List.range k).foldl (fun b l => b.xor ((g l).testBit q)) false <;> rfl

theorem xorFold_false {n : ℕ} {h : ℕ → Bool} (hz : ∀ l, l < n → h l = false) :
    (List.range n).foldl (fun b l => b.xor (h l)) false = false := by
  induction n with
  | zero => rfl
  | succ k ih =>
      rw [List.range_succ, List.foldl_append, List.foldl_cons, List.foldl_nil,
          ih (fun l hl => hz l (Nat.lt_succ_of_lt hl)), hz k (Nat.lt_succ_self k)]
      rfl

theorem xorFold_single {n l0 : ℕ} (hl0 : l0 < n) {h : ℕ → Bool}
    (hz : ∀ l, l < n → l ≠ l0 → h l = false) :
    (List.range n).foldl (fun b l => b.xor (h l)) false = h l0 := by
  induction n with
  | zero => omega
  | succ k ih =>
      rw [List.range_succ, List.foldl_append, List.foldl_cons, List.foldl_nil]
      by_cases hk : l0 = k
      · subst hk
        rw [xorFold_false (fun l hl => hz l (by omega) (by omega))]
        cases h l0 <;> rfl
      · rw [ih (by omega) (fun l hl hne => hz l (by omega) hne),
            hz k (by omega) (fun he => hk he.symm)]
        cases h l0 <;> rfl

theorem nodup_getD_inj {l : List ℕ} (hnd : l.Nodup) {a b : ℕ}
    (ha : a < l.length) (hb : b < l.length) (h : l.getD a 0 = l.getD b 0) : a = b := by
  rw [List.getD_eq_getElem?_getD, List.getElem?_eq_getElem ha,
      List.getD_eq_getElem?_getD, List.getElem?_eq_getElem hb] at h
  simp only [Option.getD_some] at h
  exact (List.Nodup.getElem_inj_iff hnd).mp h

theorem mem_exists_getD {l : List ℕ} {x : ℕ} (h : x ∈ l) :
    ∃ k, k < l.length ∧ l.getD k 0 = x := by
  obtain ⟨k, hk, he⟩ := List.mem_iff_getElem.mp h
  refine ⟨k, hk, ?_⟩
  rw [List.getD_eq_getElem?_getD, List.getElem?_eq_getElem hk]
  simpa using he

/-- `local_i` of `perform_fusion` gathers exactly the bits of `i` at the
positions `idx2mat`. -/
theorem localIdx_eq_gatherBits (pos : List ℕ) (i : ℕ) :
    localIdx pos i = gatherBits pos i := by
  have hfn : (fun (a l : ℕ) => a ||| ((i >>> pos.getD l 0) &&& 1) <<< l)
      = fun a l => a ||| (if i.testBit (pos.getD l 0) then 2 ^ l else 0) := by
    funext a l
    rw [shift_and_one]
    by_cases hb : i.testBit (pos.getD l 0)
    · rw [if_pos hb, if_pos hb, Nat.one_shiftLeft]
    · rw [if_neg hb, if_neg hb, Nat.zero_shiftLeft]
  unfold localIdx
  rw [hfn]
  apply Nat.eq_of_testBit_eq
  intro q
  refine (testBit_orFold (fun l => if i.testBit (pos.getD l 0) then 2 ^ l else 0)
      pos.length 0 q).trans ?_
  show (Nat.testBit 0 q
      || (List.range pos.length).any
          (fun l => (if i.testBit (pos.getD l 0) then 2 ^ l else 0).testBit q))
    = (gatherBits pos i).testBit q
  rw [Nat.zero_testBit, Bool.false_or]
  by_cases hq : q < pos.length
  · rw [gatherBits_testBit i hq]
    cases hb : i.testBit (pos.getD q 0)
    · refine List.any_eq_false.mpr ?_
      intro l hl
      rw [List.mem_range] at hl
      show ¬((if i.testBit (pos.getD l 0) then 2 ^ l else 0).testBit q = true)
      by_cases hbl : i.testBit (pos.getD l 0)
      · rw [if_pos hbl, Nat.testBit_two_pow]
        intro hdq
        have hlq : l = q := of_decide_eq_true hdq
        rw [hlq, hb] at hbl
        exact Bool.noConfusion hbl
      · rw [if_neg hbl, Nat.zero_testBit]
        exact fun hcon => Bool.noConfusion hcon
    · refine List.any_eq_true.mpr ⟨q, List.mem_range.mpr hq, ?_⟩
      show (if i.testBit (pos.getD q 0) then 2 ^ q else 0).testBit q = true
      rw [if_pos hb, Nat.testBit_two_pow]
      exact decide_eq_true rfl
  · push_neg at hq
    rw [Nat.testBit_lt_two_pow
          (lt_of_lt_of_le (gatherBits_lt pos i) (Nat.pow_le_pow_right (by omega) hq))]
    refine List.any_eq_false.mpr ?_
    intro l hl
    rw [List.mem_range] at hl
    show ¬((if i.testBit (pos.getD l 0) then 2 ^ l else 0).testBit q = true)
    by_cases hbl : i.testBit (pos.getD l 0)
    · rw [if_pos hbl, Nat.testBit_two_pow]
      intro hdq
      have hlq : l = q := of_decide_eq_true hdq
      omega
    · rw [if_neg hbl, Nat.zero_testBit]
      exact fun hcon => Bool.noConfusion hcon

theorem flipIdx_fn_eq (pos : List ℕ) (i j : ℕ) :
    (fun (a l : ℕ) => if (j >>> l) &&& 1 ≠ (i >>> pos.getD l 0) &&& 1
        then a ^^^ 2 ^ pos.getD l 0 else a)
      = fun a l => a ^^^ (if j.testBit l ≠ i.testBit (pos.getD l 0)
          then 2 ^ pos.getD l 0 else 0) := by
  funext a l
  rw [shift_and_one, shift_and_one]
  by_cases hb : j.testBit l = i.testBit (pos.getD l 0)
  · rw [hb, if_neg (fun h => h rfl), if_neg (fun h => h rfl), Nat.xor_zero]
  · have h1 : (if j.testBit l then (1 : ℕ) else 0)
        ≠ (if i.testBit (pos.getD l 0) then 1 else 0) := by
      cases hjb : j.testBit l <;> cases hib : i.testBit (pos.getD l 0) <;> simp_all
    rw [if_pos h1, if_pos hb]

/-- `locidx` of `perform_fusion` is the block decomposition: base `i` with
the bits at `idx2mat` cleared, plus the spread of the local column `j`. -/
theorem flipIdx_eq {pos : List ℕ} (hnd : pos.Nodup) (i j : ℕ) :
    flipIdx pos i j
      = clearBits pos i + blockOff (pos.map (fun p => 2 ^ p)) j := by
  have hbase : ∀ p ∈ pos, (clearBits pos i).testBit p = false :=
    fun p hp => clearBits_testBit_mem hp
  unfold flipIdx
  rw [flipIdx_fn_eq]
  apply Nat.eq_of_testBit_eq
  intro q
  refine (testBit_xorFold
      (fun l => if j.testBit l ≠ i.testBit (pos.getD l 0) then 2 ^ pos.getD l 0 else 0)
      pos.length i q).trans ?_
  show Bool.xor (i.testBit q)
      ((List.range pos.length).foldl
        (fun b l => Bool.xor b ((if j.testBit l ≠ i.testBit (pos.getD l 0)
            then 2 ^ pos.getD l 0 else 0).testBit q)) false)
    = (clearBits pos i + blockOff (pos.map (fun p => 2 ^ p)) j).testBit q
  by_cases hq : q ∈ pos
  · obtain ⟨l0, hl0len, hl0⟩ := mem_exists_getD hq
    have hX : (List.range pos.length).foldl
        (fun b l => Bool.xor b ((if j.testBit l ≠ i.testBit (pos.getD l 0)
            then 2 ^ pos.getD l 0 else 0).testBit q)) false
        = (if j.testBit l0 ≠ i.testBit (pos.getD l0 0)
            then 2 ^ pos.getD l0 0 else 0).testBit q := by
      apply xorFold_single hl0len
      intro l hl hne
      by_cases hb : j.testBit l ≠ i.testBit (pos.getD l 0)
      · rw [if_pos hb, Nat.testBit_two_pow]
        apply decide_eq_false
        intro he
        exact hne (nodup_getD_inj hnd hl hl0len (he.trans hl0.symm))
      · rw [if_neg hb, Nat.zero_testBit]
    rw [hX, hl0]
    rw [show (clearBits pos i + blockOff (pos.map (fun p => 2 ^ p)) j).testBit q
          = j.testBit l0 from by
      rw [← hl0]
      exact base_add_blockOff_testBit_mem hnd hbase j hl0len]
    cases hjb : j.testBit l0 <;> cases hib : i.testBit q <;>
      simp [Nat.testBit_two_pow, Nat.zero_testBit]
  · have hX : (List.range pos.length).foldl
        (fun b l => Bool.xor b ((if j.testBit l ≠ i.testBit (pos.getD l 0)
            then 2 ^ pos.getD l 0 else 0).testBit q)) false = false := by
      apply xorFold_false
      intro l hl
      by_cases hb : j.testBit l ≠ i.testBit (pos.getD l 0)
      · rw [if_pos hb, Nat.testBit_two_pow]
        apply decide_eq_false
        intro he
        exact hq (he ▸ getD_mem hl)
      · rw [if_neg hb, Nat.zero_testBit]
    rw [hX, base_add_blockOff_testBit_not_mem hnd hbase j hq,
        clearBits_testBit_not_mem hq]
    cases i.testBit q <;> rfl

/-! ### Sorted-set and lower-bound lemmas -/

theorem setInsert_mem (l : List ℕ) (x y : ℕ) :
    y ∈ setInsert l x ↔ y ∈ l ∨ y = x := by
  induction l with
  | nil => simp [setInsert]
  | cons a t ih =>
      unfold setInsert
      by_cases h1 : x < a
      · rw [if_pos h1]
        simp only [List.mem_cons]
        tauto
      · rw [if_neg h1]
        by_cases h2 : x = a
        · subst h2
          rw [if_pos rfl]
          simp only [List.mem_cons]
          tauto
        · rw [if_neg h2]
          simp only [List.mem_cons, ih]
          tauto

theorem setInsert_sorted {l : List ℕ} (hs : List.Sorted (· < ·) l) (x : ℕ) :
    List.Sorted (· < ·) (setInsert l x) := by
  induction l with
  | nil => simp [setInsert]
  | cons a t ih =>
      rw [List.sorted_cons] at hs
      unfold setInsert
      by_cases h1 : x < a
      · rw [if_pos h1, List.sorted_cons]
        refine ⟨?_, List.sorted_cons.mpr hs⟩
        intro b hb
        rcases List.mem_cons.mp hb with rfl | hbt
        · exact h1
        · exact lt_trans h1 (hs.1 b hbt)
      · rw [if_neg h1]
        by_cases h2 : x = a
        · rw [if_pos h2, List.sorted_cons]
          exact hs
        · rw [if_neg h2, List.sorted_cons]
          refine ⟨?_, ih hs.2⟩
          intro b hb
          rcases (setInsert_mem t x b).mp hb with hbt | rfl
          · exact hs.1 b hbt
          · omega

theorem foldl_setInsert_mem (xs : List ℕ) (l : List ℕ) (y : ℕ) :
    y ∈ xs.foldl setInsert l ↔ y ∈ l ∨ y ∈ xs := by
  induction xs generalizing l with
  | nil => simp
  | cons a t ih =>
      rw [List.foldl_cons, ih, setInsert_mem]
      simp only [List.mem_cons]
      tauto

theorem foldl_setInsert_sorted (xs : List ℕ) {l : List ℕ}
    (hs : List.Sorted (· < ·) l) : List.Sorted (· < ·) (xs.foldl setInsert l) := by
  induction xs generalizing l with
  | nil => exact hs
  | cons a t ih => exact ih (setInsert_sorted hs a)

theorem setErase_mem (l : List ℕ) (x y : ℕ) :
    y ∈ setErase l x ↔ y ∈ l ∧ y ≠ x := by
  unfold setErase
  rw [List.mem_filter]
  simp

theorem foldl_setErase_mem (xs : List ℕ) (l : List ℕ) (y : ℕ) :
    y ∈ xs.foldl setErase l ↔ y ∈ l ∧ y ∉ xs := by
  induction xs generalizing l with
  | nil => simp
  | cons a t ih =>
      rw [List.foldl_cons, ih, setErase_mem]
      simp only [List.mem_cons]
      tauto

theorem setErase_sorted {l : List ℕ} (hs : List.Sorted (· < ·) l) (x : ℕ) :
    List.Sorted (· < ·) (setErase l x) := List.Sorted.filter _ hs

theorem foldl_setErase_sorted (xs : List ℕ) {l : List ℕ}
    (hs : List.Sorted (· < ·) l) : List.Sorted (· < ·) (xs.foldl setErase l) := by
  induction xs generalizing l with
  | nil => exact hs
  | cons a t ih => exact ih (setErase_sorted hs a)

theorem lowerBound_cons (a : ℕ) (t : List ℕ) (x : ℕ) :
    lowerBound (a :: t) x = if a < x then lowerBound t x + 1 else 0 := by
  unfold lowerBound
  rw [List.takeWhile_cons]
  by_cases h : a < x
  · rw [if_pos (decide_eq_true h), if_pos h, List.length_cons]
  · rw [if_neg (by simpa using h), if_neg h]
    rfl

/-- On a strictly ascending list, the `equal_range` lower bound of a member
is its index. -/
theorem lowerBound_spec {l : List ℕ} (hs : List.Sorted (· < ·) l) {x : ℕ}
    (hx : x ∈ l) :
    lowerBound l x < l.length ∧ l.getD (lowerBound l x) 0 = x := by
  induction l with
  | nil => cases hx
  | cons a t ih =>
      rw [List.sorted_cons] at hs
      rw [lowerBound_cons]
      by_cases h : a < x
      · have hxt : x ∈ t := by
          rcases List.mem_cons.mp hx with rfl | h2
          · omega
          · exact h2
        obtain ⟨ih1, ih2⟩ := ih hs.2 hxt
        rw [if_pos h]
        refine ⟨by rw [List.length_cons]; omega, ?_⟩
        rw [List.getD_cons_succ]
        exact ih2
      · rw [if_neg h]
        have hax : x = a := by
          rcases List.mem_cons.mp hx with rfl | h2
          · rfl
          · exact absurd (hs.1 x h2) h
        refine ⟨by rw [List.length_cons]; omega, ?_⟩
        rw [List.getD_cons_zero]
        omega

theorem getD_map_lowerBound {il : List ℕ} (hs : List.Sorted (· < ·) il)
    (σ : ℕ → ℕ) {x : ℕ} (hx : x ∈ il) :
    (il.map σ).getD (lowerBound il x) 0 = σ x := by
  obtain ⟨h1, h2⟩ := lowerBound_spec hs hx
  rw [getD_map_lt' σ il _ h1 0, h2]

theorem testBit_maskFold_eq (ps : List ℕ) (q : ℕ) :
    (maskFold ps).testBit q = decide (q ∈ ps) := by
  by_cases h : q ∈ ps
  · rw [(testBit_maskFold ps q).mpr h, decide_eq_true h]
  · rw [testBit_maskFold_of_not_mem h, decide_eq_false h]

theorem maskFold_eq_of_mem_iff {l1 l2 : List ℕ}
    (h : ∀ q, q ∈ l1 ↔ q ∈ l2) : maskFold l1 = maskFold l2 := by
  apply Nat.eq_of_testBit_eq
  intro q
  rw [testBit_maskFold_eq, testBit_maskFold_eq]
  exact decide_eq_decide.mpr (h q)

theorem getPositions_snd_of_mapped : ∀ (ids : List ℕ) (m : Smap),
    (∀ x ∈ ids, mapCount m x = true) →
    (getPositions m ids).2 = ids.map (mapFindD m)
  | [], _, _ => rfl
  | id :: t, m, h => by
      have hm := mapGetRef_of_mapped (h id (List.mem_cons_self id t))
      show (mapGetRef m id).2 :: (getPositions (mapGetRef m id).1 t).2
        = mapFindD m id :: t.map (mapFindD m)
      rw [hm]
      exact congrArg (fun z => mapFindD m id :: z)
        (getPositions_snd_of_mapped t m (fun x hx => h x (List.mem_cons_of_mem id hx)))

theorem getCtrlMask_snd_of_mapped : ∀ (cs : List ℕ) (m : Smap),
    (∀ x ∈ cs, mapCount m x = true) →
    (getCtrlMask m cs).2 = maskFold (cs.map (mapFindD m))
  | [], _, _ => rfl
  | c :: t, m, h => by
      have hm := mapGetRef_of_mapped (h c (List.mem_cons_self c t))
      show (getCtrlMask (mapGetRef m c).1 t).2 ||| 2 ^ (mapGetRef m c).2
        = maskFold (mapFindD m c :: t.map (mapFindD m))
      rw [hm, maskFold_cons]
      refine (congrArg (fun z => z ||| 2 ^ mapFindD m c)
        (getCtrlMask_snd_of_mapped t m
          (fun x hx => h x (List.mem_cons_of_mem c hx)))).trans (Nat.or_comm _ _)

/-! ### Matrix algebra: the semantics of one fused dispatch -/

/-- `n`-dimensional matrix product (entries read through `mentry`). -/
def matMul (n : ℕ) (A B : Mat) : Mat :=
  (List.range n).map (fun i => (List.range n).map (fun k =>
    csum n (fun l => Cplx.mul (mentry A i l) (mentry B l k))))

/-- The `2^Nn`-dimensional extension of a small matrix acting on the bit
positions `pos`: nonzero only between indices that agree outside `pos`. -/
def extMat (Nn : ℕ) (pos : List ℕ) (sm : Mat) : Mat :=
  (List.range (2 ^ Nn)).map (fun i => (List.range (2 ^ Nn)).map (fun k =>
    if clearBits pos i = clearBits pos k
    then mentry sm (gatherBits pos i) (gatherBits pos k) else 0))

/-- Reference semantics of one controlled dispatch on a `2^W` register: on
every index satisfying the control mask, the matrix acts on the bits at the
positions `P`; all other amplitudes are untouched. -/
def applyAt (W : ℕ) (P : List ℕ) (A : Mat) (cm : ℕ) (v : Vec) : Vec :=
  buildVec (2 ^ W) (fun i =>
    if i &&& cm = cm then
      csum (2 ^ P.length) (fun j =>
        Cplx.mul (mentry A (gatherBits P i) j)
          (ventry v (clearBits P i + blockOff (P.map (fun p => 2 ^ p)) j)))
    else ventry v i)

theorem mentry_tab {n m : ℕ} (f : ℕ → ℕ → Cplx) {i j : ℕ} (hi : i < n) (hj : j < m) :
    mentry ((List.range n).map (fun i => (List.range m).map (f i))) i j = f i j := by
  unfold mentry
  rw [getD_map_lt' (fun i => (List.range m).map (f i)) (List.range n) i
        (by simpa using hi) 0, getD_range hi,
      getD_map_lt' (f i) (List.range m) j (by simpa using hj) 0, getD_range hj]

theorem ventry_lt {v : Vec} {i : ℕ} (h : i < v.length) : ventry v i = v[i] := by
  unfold ventry
  rw [List.getD_eq_getElem?_getD, List.getElem?_eq_getElem h]
  rfl

theorem vec_ext {v w : Vec} (hl : v.length = w.length)
    (h : ∀ i, i < v.length → ventry v i = ventry w i) : v = w := by
  apply List.ext_getElem hl
  intro i h1 h2
  rw [← ventry_lt h1, ← ventry_lt h2]
  exact h i h1

@[simp] theorem applyAt_length (W : ℕ) (P : List ℕ) (A : Mat) (cm : ℕ) (v : Vec) :
    (applyAt W P A cm v).length = 2 ^ W := by
  unfold applyAt
  exact length_buildVec _ _

theorem clearBits_and_of_disjoint {ids : List ℕ} {cm : ℕ}
    (hdisj : ∀ id ∈ ids, cm.testBit id = false) (i : ℕ) :
    clearBits ids i &&& cm = i &&& cm := by
  apply Nat.eq_of_testBit_eq
  intro q
  rw [Nat.testBit_and, Nat.testBit_and]
  by_cases hq : q ∈ ids
  · rw [hdisj q hq, Bool.and_false, Bool.and_false]
  · rw [clearBits_testBit_not_mem hq]

theorem kernelK_length (psi : Vec) (N : ℕ) (ids : List ℕ) (m : Mat) (cm : ℕ)
    (hψ : psi.length = 2 ^ N) :
    (kernelK psi ids m cm).length = psi.length := by
  have hkdef : kernelK psi ids m cm
      = (nestLoops (2 ^ N) (dsortedOf (ids.map (fun id => 2 ^ id)))).foldl
          (fun ψ2 base =>
            if cm = 0 ∨ base &&& cm = cm
            then kernel_core_gen ψ2 base (ids.map (fun id => 2 ^ id)) m else ψ2) psi := by
    simp only [kernelK]
    rw [hψ]
  rw [hkdef, foldF_length]

/-- The generic kernel computes exactly the reference dispatch semantics. -/
theorem kernelK_eq_applyAt (psi : Vec) (N : ℕ) (ids : List ℕ) (m : Mat) (cm : ℕ)
    (hψ : psi.length = 2 ^ N) (hnd : ids.Nodup) (hlt : ∀ id ∈ ids, id < N)
    (hdisj : cm &&& maskFold ids = 0) :
    kernelK psi ids m cm = applyAt N ids m cm psi := by
  obtain ⟨hunt, hblk⟩ := kernelK_spec psi N ids m cm hψ hnd hlt hdisj
  have hdisj' : ∀ id ∈ ids, cm.testBit id = false := and_maskFold_eq_zero_iff.mp hdisj
  have hlen : (kernelK psi ids m cm).length = 2 ^ N := by
    rw [kernelK_length psi N ids m cm hψ, hψ]
  apply vec_ext (by rw [hlen, applyAt_length])
  intro i hi
  rw [hlen] at hi
  have hR : ventry (applyAt N ids m cm psi) i
      = (if i &&& cm = cm then
          csum (2 ^ ids.length) (fun j =>
            Cplx.mul (mentry m (gatherBits ids i) j)
              (ventry psi (clearBits ids i + blockOff (ids.map (fun p => 2 ^ p)) j)))
        else ventry psi i) := by
    unfold applyAt
    exact ventry_buildVec _ hi
  rw [hR]
  by_cases helig : i &&& cm = cm
  · rw [if_pos helig]
    have hbase : ∀ id ∈ ids, (clearBits ids i).testBit id = false :=
      fun id h => clearBits_testBit_mem h
    have hb_elig : cm = 0 ∨ (clearBits ids i) &&& cm = cm := by
      right
      rw [clearBits_and_of_disjoint hdisj' i]
      exact helig
    have hbl := hblk (clearBits ids i) (gatherBits ids i) (clearBits_lt hi) hbase
      (gatherBits_lt ids i) hb_elig
    rw [← decomp_base_offset hnd i] at hbl
    rw [hbl]
    apply csum_congr
    intro j hj
    rw [Cplx_mul_eq, Cplx_mul_eq]
    exact mul_comm _ _
  · rw [if_neg helig]
    exact hunt i hi helig

/-- The width dispatch of `Simulator::run` (the `switch` over
`ids.size()`), as a standalone function of the computed slot list. -/
def dispatchK (psi : Vec) (slots : List ℕ) (M : Mat) (cm : ℕ) : Vec :=
  match slots with
  | [a] => kernel1 psi a M cm
  | [a, b] => kernel2 psi b a M cm
  | [a, b, c] => kernelK psi [a, b, c] M cm
  | [a, b, c, d] => kernelK psi [a, b, c, d] M cm
  | [a, b, c, d, e] => kernelK psi [a, b, c, d, e] M cm
  | _ => psi

theorem run_vec_eq_dispatchK (sf : SimF) (hsz : ¬sf.fused_gates.fsize < 1) :
    (Simulator.run sf).sim.vec
      = dispatchK sf.sim.vec
          (getPositions sf.sim.map sf.fused_gates.perform_fusion.2.1).2
          sf.fused_gates.perform_fusion.1
          (getCtrlMask (getPositions sf.sim.map sf.fused_gates.perform_fusion.2.1).1
             sf.fused_gates.perform_fusion.2.2).2 := by
  unfold Simulator.run
  rw [if_neg hsz]
  rfl

theorem dispatchK_eq_applyAt (psi : Vec) (N : ℕ) (L : List ℕ) (M : Mat) (cm : ℕ)
    (hψ : psi.length = 2 ^ N) (hnd : L.Nodup) (hlt : ∀ x ∈ L, x < N)
    (hdisj : cm &&& maskFold L = 0)
    (h1 : 1 ≤ L.length) (h5 : L.length ≤ 5) :
    dispatchK psi L M cm = applyAt N L M cm psi := by
  rcases L with _ | ⟨a, _ | ⟨b, _ | ⟨c, _ | ⟨d, _ | ⟨e, _ | ⟨f, t⟩⟩⟩⟩⟩⟩
  · simp at h1
  · show kernel1 psi a M cm = applyAt N [a] M cm psi
    rw [kernel1_eq_kernelK]
    exact kernelK_eq_applyAt psi N [a] M cm hψ hnd hlt hdisj
  · show kernel2 psi b a M cm = applyAt N [a, b] M cm psi
    rw [kernel2_eq_kernelK]
    exact kernelK_eq_applyAt psi N [a, b] M cm hψ hnd hlt hdisj
  · show kernelK psi [a, b, c] M cm = applyAt N [a, b, c] M cm psi
    exact kernelK_eq_applyAt psi N [a, b, c] M cm hψ hnd hlt hdisj
  · show kernelK psi [a, b, c, d] M cm = applyAt N [a, b, c, d] M cm psi
    exact kernelK_eq_applyAt psi N [a, b, c, d] M cm hψ hnd hlt hdisj
  · show kernelK psi [a, b, c, d, e] M cm = applyAt N [a, b, c, d, e] M cm psi
    exact kernelK_eq_applyAt psi N [a, b, c, d, e] M cm hψ hnd hlt hdisj
  · simp at h5

/-- A nonempty in-range buffer flush is the reference dispatch of the fused
matrix at the mapped slots under the mapped global-control mask. -/
theorem run_vec_applyAt (sf : SimF)
    (hsz : 1 ≤ sf.fused_gates.fsize)
    (hψ : sf.sim.vec.length = 2 ^ sf.sim.N)
    (hbuf : BufWF sf)
    (hw1 : 1 ≤ sf.fused_gates.num_qubits) (hw5 : sf.fused_gates.num_qubits ≤ 5)
    (hsnd : (sf.fused_gates.set.map (mapFindD sf.sim.map)).Nodup)
    (hslt : ∀ p ∈ sf.fused_gates.set.map (mapFindD sf.sim.map), p < sf.sim.N)
    (hcdisj : maskFold (sf.fused_gates.ctrl_set.map (mapFindD sf.sim.map)) &&&
        maskFold (sf.fused_gates.set.map (mapFindD sf.sim.map)) = 0) :
    (Simulator.run sf).sim.vec
      = applyAt sf.sim.N (sf.fused_gates.set.map (mapFindD sf.sim.map))
          sf.fused_gates.perform_fusion.1
          (maskFold (sf.fused_gates.ctrl_set.map (mapFindD sf.sim.map)))
          sf.sim.vec := by
  rw [run_vec_eq_dispatchK sf (by omega)]
  have h21 : sf.fused_gates.perform_fusion.2.1 = sf.fused_gates.set := rfl
  have h22 : sf.fused_gates.perform_fusion.2.2 = sf.fused_gates.ctrl_set := rfl
  rw [h21, h22, getPositions_fst_of_mapped _ _ hbuf.1,
      getPositions_snd_of_mapped _ _ hbuf.1,
      getCtrlMask_snd_of_mapped _ _ hbuf.2]
  have hlen : (sf.fused_gates.set.map (mapFindD sf.sim.map)).length
      = sf.fused_gates.num_qubits := by
    rw [List.length_map]
    rfl
  exact dispatchK_eq_applyAt sf.sim.vec sf.sim.N _ _ _ hψ hsnd hslt hcdisj
    (by omega) (by omega)

theorem mentry_matMul {n : ℕ} (A B : Mat) {i k : ℕ} (hi : i < n) (hk : k < n) :
    mentry (matMul n A B) i k
      = csum n (fun l => Cplx.mul (mentry A i l) (mentry B l k)) := by
  unfold matMul
  exact mentry_tab (fun i k => csum n (fun l => Cplx.mul (mentry A i l) (mentry B l k))) hi hk

theorem mentry_extMat {Nn : ℕ} (pos : List ℕ) (sm : Mat) {i k : ℕ}
    (hi : i < 2 ^ Nn) (hk : k < 2 ^ Nn) :
    mentry (extMat Nn pos sm) i k
      = (if clearBits pos i = clearBits pos k
         then mentry sm (gatherBits pos i) (gatherBits pos k) else 0) := by
  unfold extMat
  exact mentry_tab _ hi hk

theorem ventry_applyAt {W : ℕ} (P : List ℕ) (A : Mat) (cm : ℕ) (v : Vec) {i : ℕ}
    (hi : i < 2 ^ W) :
    ventry (applyAt W P A cm v) i
      = (if i &&& cm = cm then
          csum (2 ^ P.length) (fun j =>
            Cplx.mul (mentry A (gatherBits P i) j)
              (ventry v (clearBits P i + blockOff (P.map (fun p => 2 ^ p)) j)))
        else ventry v i) := by
  unfold applyAt
  exact ventry_buildVec _ hi

theorem csum_mul_right (n : ℕ) (f : ℕ → Cplx) (y : Cplx) :
    csum n f * y = csum n (fun l => f l * y) := by
  rw [mul_comm, ← csum_cmul_left]
  apply csum_congr
  intro l hl
  ring

/-- Applying a matrix product at fixed positions is the composition of the
two applications. -/
theorem applyAt_matMul (W : ℕ) (P : List ℕ) (cm : ℕ) (hnd : P.Nodup)
    (hlt : ∀ p ∈ P, p < W) (hdisj : ∀ p ∈ P, cm.testBit p = false)
    (A B : Mat) (v : Vec) :
    applyAt W P (matMul (2 ^ P.length) A B) cm v
      = applyAt W P A cm (applyAt W P B cm v) := by
  apply vec_ext (by rw [applyAt_length, applyAt_length])
  intro i hi0
  rw [applyAt_length] at hi0
  rw [ventry_applyAt P (matMul (2 ^ P.length) A B) cm v hi0,
      ventry_applyAt P A cm (applyAt W P B cm v) hi0]
  by_cases helig : i &&& cm = cm
  · rw [if_pos helig, if_pos helig]
    have hcbits : ∀ p ∈ P, (clearBits P i).testBit p = false :=
      fun p hp => clearBits_testBit_mem hp
    have hoff_lt : ∀ l : ℕ,
        clearBits P i + blockOff (P.map (fun p => 2 ^ p)) l < 2 ^ W :=
      fun l => base_add_blockOff_lt hnd (fun p hp => hlt p hp) (clearBits_lt hi0) hcbits l
    have hoff_elig : ∀ l : ℕ,
        (clearBits P i + blockOff (P.map (fun p => 2 ^ p)) l) &&& cm = cm := by
      intro l
      rw [base_add_blockOff_and_cm hnd hcbits hdisj l,
          clearBits_and_of_disjoint hdisj i]
      exact helig
    have hL : csum (2 ^ P.length) (fun j =>
          Cplx.mul (mentry (matMul (2 ^ P.length) A B) (gatherBits P i) j)
            (ventry v (clearBits P i + blockOff (P.map (fun p => 2 ^ p)) j)))
        = csum (2 ^ P.length) (fun j => csum (2 ^ P.length) (fun l =>
            mentry A (gatherBits P i) l * mentry B l j *
              ventry v (clearBits P i + blockOff (P.map (fun p => 2 ^ p)) j))) := by
      apply csum_congr
      intro j hj
      rw [mentry_matMul A B (gatherBits_lt P i) hj, Cplx_mul_eq,
          show csum (2 ^ P.length)
              (fun l => Cplx.mul (mentry A (gatherBits P i) l) (mentry B l j))
            = csum (2 ^ P.length)
              (fun l => mentry A (gatherBits P i) l * mentry B l j) from
            csum_congr (fun l hl => Cplx_mul_eq _ _),
          csum_mul_right]
    have hR : csum (2 ^ P.length) (fun l =>
          Cplx.mul (mentry A (gatherBits P i) l)
            (ventry (applyAt W P B cm v)
              (clearBits P i + blockOff (P.map (fun p => 2 ^ p)) l)))
        = csum (2 ^ P.length) (fun l => csum (2 ^ P.length) (fun j =>
            mentry A (gatherBits P i) l * mentry B l j *
              ventry v (clearBits P i + blockOff (P.map (fun p => 2 ^ p)) j))) := by
      apply csum_congr
      intro l hl
      rw [ventry_applyAt P B cm v (hoff_lt l), if_pos (hoff_elig l),
          gather_base_add hnd hcbits hl, clearBits_base_add hnd hcbits l,
          Cplx_mul_eq,
          show csum (2 ^ P.length) (fun j => Cplx.mul (mentry B l j)
              (ventry v (clearBits P i + blockOff (P.map (fun p => 2 ^ p)) j)))
            = csum (2 ^ P.length) (fun j => mentry B l j *
              ventry v (clearBits P i + blockOff (P.map (fun p => 2 ^ p)) j)) from
            csum_congr (fun j hj => Cplx_mul_eq _ _),
          ← csum_cmul_left]
      apply csum_congr
      intro j hj
      ring
    rw [hL, hR]
    exact csum_swap _ _ _
  · rw [if_neg helig, if_neg helig, ventry_applyAt P B cm v hi0, if_neg helig]

/-- The identity matrix (`M[i][i] = 1.` of `perform_fusion`). -/
def idMat (n : ℕ) : Mat :=
  (List.range n).map (fun i => (List.range n).map (fun j =>
    if i = j then (1 : Cplx) else 0))

theorem mentry_idMat {n : ℕ} {i j : ℕ} (hi : i < n) (hj : j < n) :
    mentry (idMat n) i j = if i = j then 1 else 0 := by
  unfold idMat
  exact mentry_tab _ hi hj

theorem applyAt_idMat (W : ℕ) (P : List ℕ) (cm : ℕ) (hnd : P.Nodup) (v : Vec)
    (hv : v.length = 2 ^ W) :
    applyAt W P (idMat (2 ^ P.length)) cm v = v := by
  apply vec_ext (by rw [applyAt_length, hv])
  intro i hi0
  rw [applyAt_length] at hi0
  rw [ventry_applyAt P _ cm v hi0]
  by_cases helig : i &&& cm = cm
  · rw [if_pos helig]
    rw [show csum (2 ^ P.length) (fun j =>
          Cplx.mul (mentry (idMat (2 ^ P.length)) (gatherBits P i) j)
            (ventry v (clearBits P i + blockOff (P.map (fun p => 2 ^ p)) j)))
        = csum (2 ^ P.length) (fun j =>
            (if j = gatherBits P i then (1 : Cplx) else 0) *
              ventry v (clearBits P i + blockOff (P.map (fun p => 2 ^ p)) j)) from by
      apply csum_congr
      intro j hj
      rw [mentry_idMat (gatherBits_lt P i) hj, Cplx_mul_eq]
      by_cases hje : gatherBits P i = j
      · rw [if_pos hje, if_pos hje.symm]
      · rw [if_neg hje, if_neg (fun h => hje h.symm)]]
    rw [csum_delta (2 ^ P.length) (gatherBits P i) (gatherBits_lt P i)]
    rw [← decomp_base_offset hnd i]
  · rw [if_neg helig]

theorem gatherBits_map_getD (P posL : List ℕ)
    (hlt : ∀ l ∈ posL, l < P.length) (i : ℕ) :
    gatherBits posL (gatherBits P i)
      = gatherBits (posL.map (fun l => P.getD l 0)) i := by
  apply Nat.eq_of_testBit_eq
  intro q
  by_cases hq : q < posL.length
  · rw [gatherBits_testBit _ hq]
    have hqm : q < (posL.map (fun l => P.getD l 0)).length := by simpa using hq
    rw [gatherBits_testBit i hqm, gatherBits_testBit i (hlt _ (getD_mem hq))]
    congr 1
    exact (getD_map_lt' (fun l => P.getD l 0) posL q hq 0 0).symm
  · push_neg at hq
    rw [Nat.testBit_lt_two_pow
          (lt_of_lt_of_le (gatherBits_lt _ _) (Nat.pow_le_pow_right (by omega) hq)),
        Nat.testBit_lt_two_pow
          (lt_of_lt_of_le (gatherBits_lt _ _)
            (Nat.pow_le_pow_right (by omega) (by simpa using hq)))]

theorem nodup_map_getD {P posL : List ℕ} (hndP : P.Nodup) (hndL : posL.Nodup)
    (hlt : ∀ l ∈ posL, l < P.length) :
    (posL.map (fun l => P.getD l 0)).Nodup :=
  List.Nodup.map_on
    (fun x hx y hy h => nodup_getD_inj hndP (hlt x hx) (hlt y hy) h) hndL

/-- Composing the block decompositions of the two levels: reading the bits
of `i` at `P`, then addressing those at `posL`, is addressing `i` at the
composed position list. -/
theorem clear_off_compose {P posL : List ℕ} (hndP : P.Nodup) (hndL : posL.Nodup)
    (hlt : ∀ l ∈ posL, l < P.length) (i j' : ℕ) :
    clearBits P i
      + blockOff (P.map (fun p => 2 ^ p))
          (clearBits posL (gatherBits P i) + blockOff (posL.map (fun p => 2 ^ p)) j')
      = clearBits (posL.map (fun l => P.getD l 0)) i
        + blockOff ((posL.map (fun l => P.getD l 0)).map (fun p => 2 ^ p)) j' := by
  have hndQ : (posL.map (fun l => P.getD l 0)).Nodup := nodup_map_getD hndP hndL hlt
  have hcP : ∀ p ∈ P, (clearBits P i).testBit p = false :=
    fun p hp => clearBits_testBit_mem hp
  have hcL : ∀ p ∈ posL, (clearBits posL (gatherBits P i)).testBit p = false :=
    fun p hp => clearBits_testBit_mem hp
  have hcQ : ∀ p ∈ posL.map (fun l => P.getD l 0),
      (clearBits (posL.map (fun l => P.getD l 0)) i).testBit p = false :=
    fun p hp => clearBits_testBit_mem hp
  apply Nat.eq_of_testBit_eq
  intro q
  by_cases hqP : q ∈ P
  · obtain ⟨l, hlP, hlq⟩ := mem_exists_getD hqP
    rw [show q = P.getD l 0 from hlq.symm]
    rw [base_add_blockOff_testBit_mem hndP hcP _ hlP]
    by_cases hlL : l ∈ posL
    · obtain ⟨l', hl'L, hl'⟩ := mem_exists_getD hlL
      have hLHS : (clearBits posL (gatherBits P i)
          + blockOff (posL.map (fun p => 2 ^ p)) j').testBit l = j'.testBit l' := by
        rw [show l = posL.getD l' 0 from hl'.symm]
        exact base_add_blockOff_testBit_mem hndL hcL j' hl'L
      have hQval : (posL.map (fun l => P.getD l 0)).getD l' 0 = P.getD l 0 := by
        rw [getD_map_lt' (fun l => P.getD l 0) posL l' hl'L 0 0, hl']
      have hRHS : (clearBits (posL.map (fun l => P.getD l 0)) i
          + blockOff ((posL.map (fun l => P.getD l 0)).map (fun p => 2 ^ p)) j').testBit
            (P.getD l 0) = j'.testBit l' := by
        rw [show P.getD l 0 = (posL.map (fun l => P.getD l 0)).getD l' 0 from hQval.symm]
        exact base_add_blockOff_testBit_mem hndQ hcQ j' (by simpa using hl'L)
      rw [hLHS, hRHS]
    · have hqQ : P.getD l 0 ∉ posL.map (fun l => P.getD l 0) := by
        intro hmem
        obtain ⟨a, haL, ha⟩ := List.mem_map.mp hmem
        exact hlL (nodup_getD_inj hndP (hlt a haL) hlP ha ▸ haL)
      rw [base_add_blockOff_testBit_not_mem hndL hcL j' hlL,
          clearBits_testBit_not_mem hlL, gatherBits_testBit i hlP,
          base_add_blockOff_testBit_not_mem hndQ hcQ j' hqQ,
          clearBits_testBit_not_mem hqQ]
  · have hqQ : q ∉ posL.map (fun l => P.getD l 0) := by
      intro hmem
      obtain ⟨a, haL, ha⟩ := List.mem_map.mp hmem
      exact hqP (ha ▸ getD_mem (hlt a haL))
    rw [base_add_blockOff_testBit_not_mem hndP hcP _ hqP,
        clearBits_testBit_not_mem hqP,
        base_add_blockOff_testBit_not_mem hndQ hcQ j' hqQ,
        clearBits_testBit_not_mem hqQ]

/-- Applying an extended matrix at positions `P` is applying the small
matrix at the composed positions. -/
theorem applyAt_extMat (W : ℕ) (P posL : List ℕ) (cm : ℕ)
    (hndP : P.Nodup) (hndL : posL.Nodup) (hlt : ∀ l ∈ posL, l < P.length)
    (sm : Mat) (v : Vec) :
    applyAt W P (extMat P.length posL sm) cm v
      = applyAt W (posL.map (fun l => P.getD l 0)) sm cm v := by
  apply vec_ext (by rw [applyAt_length, applyAt_length])
  intro i hi0
  rw [applyAt_length] at hi0
  rw [ventry_applyAt P _ cm v hi0, ventry_applyAt _ sm cm v hi0]
  by_cases helig : i &&& cm = cm
  · rw [if_pos helig, if_pos helig]
    have hcbits : ∀ p ∈ posL,
        (clearBits posL (gatherBits P i)).testBit p = false :=
      fun p hp => clearBits_testBit_mem hp
    have hclt : ∀ j', j' < 2 ^ posL.length →
        clearBits posL (gatherBits P i)
          + blockOff (posL.map (fun p => 2 ^ p)) j' < 2 ^ P.length :=
      fun j' _ => base_add_blockOff_lt hndL hlt
        (clearBits_lt (gatherBits_lt P i)) hcbits j'
    have hsupp : ∀ l, l < 2 ^ P.length →
        Cplx.mul (mentry (extMat P.length posL sm) (gatherBits P i) l)
          (ventry v (clearBits P i + blockOff (P.map (fun p => 2 ^ p)) l)) ≠ 0 →
        clearBits posL l = clearBits posL (gatherBits P i) := by
      intro l hl hf
      by_contra hne
      apply hf
      rw [mentry_extMat posL sm (gatherBits_lt P i) hl, if_neg (fun h => hne h.symm),
          Cplx_mul_eq, zero_mul]
    rw [csum_block hndL hcbits hclt _ hsupp]
    rw [show csum (2 ^ posL.length) (fun j' =>
          Cplx.mul (mentry (extMat P.length posL sm) (gatherBits P i)
            (clearBits posL (gatherBits P i) + blockOff (posL.map (fun p => 2 ^ p)) j'))
            (ventry v (clearBits P i + blockOff (P.map (fun p => 2 ^ p))
              (clearBits posL (gatherBits P i)
                + blockOff (posL.map (fun p => 2 ^ p)) j'))))
        = csum (2 ^ posL.length) (fun j' =>
            Cplx.mul (mentry sm (gatherBits (posL.map (fun l => P.getD l 0)) i) j')
              (ventry v (clearBits (posL.map (fun l => P.getD l 0)) i
                + blockOff ((posL.map (fun l => P.getD l 0)).map (fun p => 2 ^ p)) j')))
        from by
      apply csum_congr
      intro j' hj'
      rw [mentry_extMat posL sm (gatherBits_lt P i) (hclt j' hj'),
          clearBits_base_add hndL hcbits j', if_pos rfl,
          gather_base_add hndL hcbits hj',
          gatherBits_map_getD P posL hlt i,
          clear_off_compose hndP hndL hlt i j']]
    simp only [List.length_map]
  · rw [if_neg helig, if_neg helig]

/-- One pass of the `perform_fusion` composition loop is a matrix product
with the extension of the item's matrix to the full touched set. -/
theorem fuseItem_eq (il : List ℕ) (M : Mat) (it : Item)
    (hndpos : (it.idx.map (lowerBound il)).Nodup)
    (hltpos : ∀ l ∈ it.idx.map (lowerBound il), l < il.length) :
    fuseItem il.length il M it
      = matMul (2 ^ il.length)
          (extMat il.length (it.idx.map (lowerBound il)) it.mat) M := by
  unfold fuseItem matMul
  apply List.map_congr_left
  intro i hi
  rw [List.mem_range] at hi
  apply List.map_congr_left
  intro k hk
  rw [List.mem_range] at hk
  have hcbits : ∀ p ∈ it.idx.map (lowerBound il),
      (clearBits (it.idx.map (lowerBound il)) i).testBit p = false :=
    fun p hp => clearBits_testBit_mem hp
  have hclt : ∀ j', j' < 2 ^ (it.idx.map (lowerBound il)).length →
      clearBits (it.idx.map (lowerBound il)) i
        + blockOff ((it.idx.map (lowerBound il)).map (fun p => 2 ^ p)) j'
        < 2 ^ il.length :=
    fun j' _ => base_add_blockOff_lt hndpos hltpos (clearBits_lt hi) hcbits j'
  have hsupp : ∀ l, l < 2 ^ il.length →
      Cplx.mul (mentry (extMat il.length (it.idx.map (lowerBound il)) it.mat) i l)
        (mentry M l k) ≠ 0 →
      clearBits (it.idx.map (lowerBound il)) l
        = clearBits (it.idx.map (lowerBound il)) i := by
    intro l hl hf
    by_contra hne
    apply hf
    rw [mentry_extMat (it.idx.map (lowerBound il)) it.mat hi hl,
        if_neg (fun h => hne h.symm), Cplx_mul_eq, zero_mul]
  rw [csum_block hndpos hcbits hclt _ hsupp]
  rw [show csum (2 ^ (it.idx.map (lowerBound il)).length) (fun j' =>
        Cplx.mul (mentry (extMat il.length (it.idx.map (lowerBound il)) it.mat) i
          (clearBits (it.idx.map (lowerBound il)) i
            + blockOff ((it.idx.map (lowerBound il)).map (fun p => 2 ^ p)) j'))
          (mentry M (clearBits (it.idx.map (lowerBound il)) i
            + blockOff ((it.idx.map (lowerBound il)).map (fun p => 2 ^ p)) j') k))
      = csum (2 ^ (it.idx.map (lowerBound il)).length) (fun j' =>
          Cplx.mul (mentry it.mat (gatherBits (it.idx.map (lowerBound il)) i) j')
            (mentry M (clearBits (it.idx.map (lowerBound il)) i
              + blockOff ((it.idx.map (lowerBound il)).map (fun p => 2 ^ p)) j') k))
      from by
    apply csum_congr
    intro j' hj'
    rw [mentry_extMat (it.idx.map (lowerBound il)) it.mat hi (hclt j' hj'),
        clearBits_base_add hndpos hcbits j', if_pos rfl,
        gather_base_add hndpos hcbits hj']]
  rw [show csum (2 ^ it.idx.length) (fun j =>
        Cplx.mul (mentry M (flipIdx (it.idx.map (lowerBound il)) i j) k)
          (mentry it.mat (localIdx (it.idx.map (lowerBound il)) i) j))
      = csum (2 ^ it.idx.length) (fun j =>
          Cplx.mul (mentry it.mat (gatherBits (it.idx.map (lowerBound il)) i) j)
            (mentry M (clearBits (it.idx.map (lowerBound il)) i
              + blockOff ((it.idx.map (lowerBound il)).map (fun p => 2 ^ p)) j) k))
      from by
    apply csum_congr
    intro j hj
    rw [flipIdx_eq hndpos i j, localIdx_eq_gatherBits, Cplx_mul_eq, Cplx_mul_eq]
    exact mul_comm _ _]
  simp only [List.length_map]

theorem pos_nodup_of (il : List ℕ) (hs : List.Sorted (· < ·) il)
    {idx : List ℕ} (hnd : idx.Nodup) (hsub : ∀ x ∈ idx, x ∈ il) :
    (idx.map (lowerBound il)).Nodup :=
  List.Nodup.map_on (fun x hx y hy h => by
    have h1 := (lowerBound_spec hs (hsub x hx)).2
    have h2 := (lowerBound_spec hs (hsub y hy)).2
    rw [← h1, ← h2, h]) hnd

theorem pos_lt_of (il : List ℕ) (hs : List.Sorted (· < ·) il)
    {idx : List ℕ} (hsub : ∀ x ∈ idx, x ∈ il) :
    ∀ l ∈ idx.map (lowerBound il), l < il.length := by
  intro l hl
  obtain ⟨x, hx, rfl⟩ := List.mem_map.mp hl
  exact (lowerBound_spec hs (hsub x hx)).1

theorem pos_map_getD (il : List ℕ) (hs : List.Sorted (· < ·) il) (σ : ℕ → ℕ)
    {idx : List ℕ} (hsub : ∀ x ∈ idx, x ∈ il) :
    (idx.map (lowerBound il)).map (fun l => (il.map σ).getD l 0) = idx.map σ := by
  rw [List.map_map]
  apply List.map_congr_left
  intro x hx
  show (il.map σ).getD (lowerBound il x) 0 = σ x
  exact getD_map_lowerBound hs σ (hsub x hx)

/-- The reference semantics of one queued item under the slot map `σ` and a
global control mask. -/
def itemSem (W : ℕ) (σ : ℕ → ℕ) (cm : ℕ) (it : Item) (v : Vec) : Vec :=
  applyAt W (it.idx.map σ) it.mat cm v

/-- The reference semantics of a queue of items, applied first to last. -/
def listSem (W : ℕ) (σ : ℕ → ℕ) (cm : ℕ) (items : List Item) (v : Vec) : Vec :=
  items.foldl (fun w it => itemSem W σ cm it w) v

theorem applyAt_fuseItem (W : ℕ) (σ : ℕ → ℕ) (il : List ℕ) (cm : ℕ)
    (hs : List.Sorted (· < ·) il) (hP : (il.map σ).Nodup)
    (hPlt : ∀ p ∈ il.map σ, p < W) (hdisj : ∀ p ∈ il.map σ, cm.testBit p = false)
    (it : Item) (hnd : it.idx.Nodup) (hsub : ∀ x ∈ it.idx, x ∈ il)
    (M : Mat) (v : Vec) :
    applyAt W (il.map σ) (fuseItem il.length il M it) cm v
      = itemSem W σ cm it (applyAt W (il.map σ) M cm v) := by
  rw [fuseItem_eq il M it (pos_nodup_of il hs hnd hsub) (pos_lt_of il hs hsub)]
  rw [show (2 : ℕ) ^ il.length = 2 ^ (il.map σ).length from by rw [List.length_map]]
  rw [applyAt_matMul W (il.map σ) cm hP hPlt hdisj]
  rw [show il.length = (il.map σ).length from by rw [List.length_map]]
  rw [applyAt_extMat W (il.map σ) (it.idx.map (lowerBound il)) cm hP
        (pos_nodup_of il hs hnd hsub)
        (fun l hl => by
          rw [List.length_map]
          exact pos_lt_of il hs hsub l hl)
        it.mat _]
  rw [pos_map_getD il hs σ hsub]
  rfl

theorem applyAt_foldl_fuseItem (W : ℕ) (σ : ℕ → ℕ) (il : List ℕ) (cm : ℕ)
    (hs : List.Sorted (· < ·) il) (hP : (il.map σ).Nodup)
    (hPlt : ∀ p ∈ il.map σ, p < W)
    (hdisj : ∀ p ∈ il.map σ, cm.testBit p = false) :
    ∀ (items : List Item) (M : Mat) (v : Vec),
    (∀ it ∈ items, it.idx.Nodup ∧ ∀ x ∈ it.idx, x ∈ il) →
    applyAt W (il.map σ) (items.foldl (fuseItem il.length il) M) cm v
      = listSem W σ cm items (applyAt W (il.map σ) M cm v)
  | [], M, v, _ => rfl
  | it :: rest, M, v, hWF => by
      rw [List.foldl_cons]
      rw [applyAt_foldl_fuseItem W σ il cm hs hP hPlt hdisj rest _ v
            (fun x hx => hWF x (List.mem_cons_of_mem it hx))]
      show listSem W σ cm rest
          (applyAt W (il.map σ) (fuseItem il.length il M it) cm v)
        = listSem W σ cm rest (itemSem W σ cm it (applyAt W (il.map σ) M cm v))
      rw [applyAt_fuseItem W σ il cm hs hP hPlt hdisj it
            (hWF it (List.mem_cons_self it rest)).1
            (hWF it (List.mem_cons_self it rest)).2 M v]

/-- The fused matrix applied at the mapped touched set is the sequential
application of the queued items. -/
theorem perform_fusion_applyAt (W : ℕ) (σ : ℕ → ℕ) (f : Fusion) (cm : ℕ)
    (hs : List.Sorted (· < ·) f.set)
    (hP : (f.set.map σ).Nodup) (hPlt : ∀ p ∈ f.set.map σ, p < W)
    (hdisj : ∀ p ∈ f.set.map σ, cm.testBit p = false)
    (hWF : ∀ it ∈ f.items, it.idx.Nodup ∧ ∀ x ∈ it.idx, x ∈ f.set)
    (v : Vec) (hv : v.length = 2 ^ W) :
    applyAt W (f.set.map σ) f.perform_fusion.1 cm v
      = listSem W σ cm f.items v := by
  have h1 : f.perform_fusion.1
      = f.items.foldl (fuseItem f.set.length f.set) (idMat (2 ^ f.set.length)) := rfl
  rw [h1]
  rw [applyAt_foldl_fuseItem W σ f.set cm hs hP hPlt hdisj f.items _ v hWF]
  rw [show (2 : ℕ) ^ f.set.length = 2 ^ (f.set.map σ).length from by
        rw [List.length_map],
      applyAt_idMat W (f.set.map σ) cm hP v hv]

/-! ### Control absorption: the semantics of `add_controls` -/

theorem and_eq_self_iff_bits {x y : ℕ} :
    x &&& y = y ↔ ∀ q, y.testBit q = true → x.testBit q = true := by
  constructor
  · intro h q hq
    have h2 := congrArg (fun z => z.testBit q) h
    simp only [Nat.testBit_and] at h2
    rw [hq, Bool.and_true] at h2
    exact h2
  · intro h
    apply Nat.eq_of_testBit_eq
    intro q
    rw [Nat.testBit_and]
    cases hy : y.testBit q
    · rw [Bool.and_false]
    · rw [h q hy]
      rfl

theorem and_or_eq_self_iff {x a b : ℕ} :
    x &&& (a ||| b) = (a ||| b) ↔ (x &&& a = a ∧ x &&& b = b) := by
  rw [and_eq_self_iff_bits, and_eq_self_iff_bits, and_eq_self_iff_bits]
  constructor
  · intro h
    constructor
    · intro q hq
      exact h q (by rw [Nat.testBit_or, hq, Bool.true_or])
    · intro q hq
      exact h q (by rw [Nat.testBit_or, hq, Bool.or_true])
  · intro h q hq
    rw [Nat.testBit_or, Bool.or_eq_true] at hq
    rcases hq with h1 | h1
    · exact h.1 q h1
    · exact h.2 q h1

theorem and_maskFold_eq_maskFold_iff {b : ℕ} {ids : List ℕ} :
    b &&& maskFold ids = maskFold ids ↔ ∀ id ∈ ids, b.testBit id = true := by
  rw [and_eq_self_iff_bits]
  constructor
  · intro h id hid
    exact h id ((testBit_maskFold ids id).mpr hid)
  · intro h q hq
    exact h q ((testBit_maskFold ids q).mp hq)

/-- Gathering over an appended position list splits into low and high
parts. -/
theorem gatherBits_append (P1 P2 : List ℕ) (i : ℕ) :
    gatherBits (P1 ++ P2) i
      = gatherBits P1 i + 2 ^ P1.length * gatherBits P2 i := by
  apply Nat.eq_of_testBit_eq
  intro q
  rw [Nat.add_comm (gatherBits P1 i),
      Nat.testBit_mul_pow_two_add (gatherBits P2 i) (gatherBits_lt P1 i) q]
  by_cases hq : q < P1.length
  · rw [if_pos hq, gatherBits_testBit i hq,
        gatherBits_testBit i (show q < (P1 ++ P2).length from by
          rw [List.length_append]; omega),
        List.getD_append P1 P2 0 q hq]
  · rw [if_neg hq]
    push_neg at hq
    by_cases hq2 : q - P1.length < P2.length
    · rw [gatherBits_testBit i hq2,
          gatherBits_testBit i (show q < (P1 ++ P2).length from by
            rw [List.length_append]; omega),
          List.getD_append_right P1 P2 0 q hq]
    · push_neg at hq2
      rw [Nat.testBit_lt_two_pow
            (lt_of_lt_of_le (gatherBits_lt _ _) (Nat.pow_le_pow_right (by omega) hq2)),
          Nat.testBit_lt_two_pow
            (lt_of_lt_of_le (gatherBits_lt _ _) (Nat.pow_le_pow_right (by omega)
              (show (P1 ++ P2).length ≤ q from by rw [List.length_append]; omega)))]

theorem gather_all_ones {PA : List ℕ} {i : ℕ}
    (hall : ∀ p ∈ PA, i.testBit p = true) :
    gatherBits PA i = 2 ^ PA.length - 1 := by
  apply Nat.eq_of_testBit_eq
  intro q
  rw [Nat.testBit_two_pow_sub_one]
  by_cases hq : q < PA.length
  · rw [gatherBits_testBit i hq, hall _ (getD_mem hq), decide_eq_true hq]
  · push_neg at hq
    rw [Nat.testBit_lt_two_pow
          (lt_of_lt_of_le (gatherBits_lt _ _) (Nat.pow_le_pow_right (by omega) hq)),
        decide_eq_false (by omega)]

theorem csum_range_add (a b : ℕ) (f : ℕ → Cplx) :
    csum (a + b) f = csum a f + csum b (fun j => f (a + j)) := by
  induction b with
  | zero => rw [Nat.add_zero, csum_zero, add_zero]
  | succ k ih =>
      rw [show a + (k + 1) = (a + k) + 1 from rfl, csum_succ, ih, csum_succ]
      ring

theorem mentry_add_controls (m : Mat) (L A : List ℕ) {i j : ℕ}
    (hi : i < 2 ^ A.length * m.length) (hj : j < 2 ^ A.length * m.length) :
    mentry (add_controls m L A).1 i j
      = (if i < 2 ^ A.length * m.length - m.length then (if j = i then (1 : Cplx) else 0)
         else if j < 2 ^ A.length * m.length - m.length then 0
         else mentry m (i - (2 ^ A.length * m.length - m.length))
               (j - (2 ^ A.length * m.length - m.length))) := by
  have h1 : (add_controls m L A).1
      = (List.range (2 ^ A.length * m.length)).map (fun i =>
          (List.range (2 ^ A.length * m.length)).map (fun j =>
            if i < 2 ^ A.length * m.length - m.length
            then (if j = i then (1 : Cplx) else 0)
            else if j < 2 ^ A.length * m.length - m.length then 0
            else mentry m (i - (2 ^ A.length * m.length - m.length))
                  (j - (2 ^ A.length * m.length - m.length)))) := rfl
  rw [h1]
  exact mentry_tab _ hi hj

/-- Addressing the bottom-right block of an absorbed-control matrix: the
column index `Offset + jT` touches the target bits like `jT` and holds every
control bit, which the eligible amplitude index already has set. -/
theorem clear_off_add_controls {PT PA : List ℕ} (hnd : (PT ++ PA).Nodup)
    {i : ℕ} (hall : ∀ p ∈ PA, i.testBit p = true)
    {jT : ℕ} (hjT : jT < 2 ^ PT.length) :
    clearBits (PT ++ PA) i
      + blockOff ((PT ++ PA).map (fun p => 2 ^ p))
          (2 ^ PT.length * (2 ^ PA.length - 1) + jT)
      = clearBits PT i + blockOff (PT.map (fun p => 2 ^ p)) jT := by
  have hndT : PT.Nodup := (List.nodup_append.mp hnd).1
  have hbTA : ∀ p ∈ PT ++ PA, (clearBits (PT ++ PA) i).testBit p = false :=
    fun p hp => clearBits_testBit_mem hp
  have hbT : ∀ p ∈ PT, (clearBits PT i).testBit p = false :=
    fun p hp => clearBits_testBit_mem hp
  apply Nat.eq_of_testBit_eq
  intro q
  by_cases hqT : q ∈ PT
  · obtain ⟨l, hlT, hlq⟩ := mem_exists_getD hqT
    have hgetD : (PT ++ PA).getD l 0 = q := by
      rw [List.getD_append PT PA 0 l hlT, hlq]
    have hLHS : (clearBits (PT ++ PA) i
        + blockOff ((PT ++ PA).map (fun p => 2 ^ p))
            (2 ^ PT.length * (2 ^ PA.length - 1) + jT)).testBit q
        = jT.testBit l := by
      rw [← hgetD,
          base_add_blockOff_testBit_mem hnd hbTA _
            (show l < (PT ++ PA).length from by rw [List.length_append]; omega),
          Nat.testBit_mul_pow_two_add _ hjT l, if_pos hlT]
    have hRHS : (clearBits PT i + blockOff (PT.map (fun p => 2 ^ p)) jT).testBit q
        = jT.testBit l := by
      rw [← hlq]
      exact base_add_blockOff_testBit_mem hndT hbT jT hlT
    rw [hLHS, hRHS]
  · by_cases hqA : q ∈ PA
    · obtain ⟨l', hl'A, hl'q⟩ := mem_exists_getD hqA
      have hgetD : (PT ++ PA).getD (PT.length + l') 0 = q := by
        rw [List.getD_append_right PT PA 0 _ (by omega),
            show PT.length + l' - PT.length = l' from by omega, hl'q]
      have hLHS : (clearBits (PT ++ PA) i
          + blockOff ((PT ++ PA).map (fun p => 2 ^ p))
              (2 ^ PT.length * (2 ^ PA.length - 1) + jT)).testBit q = true := by
        rw [← hgetD,
            base_add_blockOff_testBit_mem hnd hbTA _
              (show PT.length + l' < (PT ++ PA).length from by
                rw [List.length_append]; omega),
            Nat.testBit_mul_pow_two_add _ hjT (PT.length + l'),
            if_neg (by omega),
            show PT.length + l' - PT.length = l' from by omega,
            Nat.testBit_two_pow_sub_one, decide_eq_true hl'A]
      have hRHS : (clearBits PT i + blockOff (PT.map (fun p => 2 ^ p)) jT).testBit q
          = true := by
        rw [base_add_blockOff_testBit_not_mem hndT hbT jT hqT,
            clearBits_testBit_not_mem hqT]
        exact hall q hqA
      rw [hLHS, hRHS]
    · have hqTA : q ∉ PT ++ PA := by
        rw [List.mem_append]
        tauto
      rw [base_add_blockOff_testBit_not_mem hnd hbTA _ hqTA,
          clearBits_testBit_not_mem hqTA,
          base_add_blockOff_testBit_not_mem hndT hbT jT hqT,
          clearBits_testBit_not_mem hqT]

/-- `add_controls` is transparent: applying the enlarged matrix at the
enlarged position list equals applying the original matrix under the
enlarged control mask. -/
theorem applyAt_add_controls (W : ℕ) (cm : ℕ) (PT PA : List ℕ)
    (L A : List ℕ) (hAlen : A.length = PA.length)
    (m : Mat) (hm : m.length = 2 ^ PT.length)
    (hnd : (PT ++ PA).Nodup) (v : Vec) :
    applyAt W (PT ++ PA) (add_controls m L A).1 cm v
      = applyAt W PT m (cm ||| maskFold PA) v := by
  have hBound : 2 ^ A.length * m.length = 2 ^ (PT ++ PA).length := by
    rw [hAlen, hm, List.length_append, Nat.pow_add, Nat.mul_comm]
  have hOffE : 2 ^ A.length * m.length - m.length
      = 2 ^ PT.length * (2 ^ PA.length - 1) := by
    rw [hAlen, hm, Nat.mul_sub, Nat.mul_one, Nat.mul_comm]
  have hsplit : 2 ^ (PT ++ PA).length
      = 2 ^ PT.length * (2 ^ PA.length - 1) + 2 ^ PT.length := by
    rw [List.length_append, Nat.pow_add]
    have h1 : 2 ^ PT.length * (2 ^ PA.length - 1)
        = 2 ^ PT.length * 2 ^ PA.length - 2 ^ PT.length := by
      rw [Nat.mul_sub, Nat.mul_one]
    have h2 : 2 ^ PT.length ≤ 2 ^ PT.length * 2 ^ PA.length :=
      Nat.le_mul_of_pos_right _ (by positivity)
    omega
  apply vec_ext (by rw [applyAt_length, applyAt_length])
  intro i hi0
  rw [applyAt_length] at hi0
  rw [ventry_applyAt (PT ++ PA) (add_controls m L A).1 cm v hi0,
      ventry_applyAt PT m (cm ||| maskFold PA) v hi0]
  by_cases helig : i &&& cm = cm
  · rw [if_pos helig]
    have happ : gatherBits (PT ++ PA) i
        = gatherBits PT i + 2 ^ PT.length * gatherBits PA i :=
      gatherBits_append PT PA i
    have hgT := gatherBits_lt PT i
    by_cases hall : i &&& maskFold PA = maskFold PA
    · rw [if_pos (and_or_eq_self_iff.mpr ⟨helig, hall⟩)]
      have hgA : gatherBits PA i = 2 ^ PA.length - 1 :=
        gather_all_ones (and_maskFold_eq_maskFold_iff.mp hall)
      have hrow : gatherBits (PT ++ PA) i
          = gatherBits PT i + 2 ^ PT.length * (2 ^ PA.length - 1) := by
        rw [happ, hgA]
      rw [hsplit, csum_range_add]
      have hz : csum (2 ^ PT.length * (2 ^ PA.length - 1)) (fun j =>
            Cplx.mul (mentry (add_controls m L A).1 (gatherBits (PT ++ PA) i) j)
              (ventry v (clearBits (PT ++ PA) i
                + blockOff ((PT ++ PA).map (fun p => 2 ^ p)) j)))
          = csum (2 ^ PT.length * (2 ^ PA.length - 1)) (fun _ => (0 : Cplx)) := by
        apply csum_congr
        intro j hj
        rw [mentry_add_controls m L A
              (by rw [hBound]; exact gatherBits_lt _ _)
              (by rw [hBound, hsplit]; omega),
            hOffE, hrow, if_neg (by omega), if_pos hj, Cplx_mul_eq, zero_mul]
      rw [hz, csum_zero_fn, zero_add]
      rw [show csum (2 ^ PT.length) (fun jT =>
            Cplx.mul (mentry (add_controls m L A).1 (gatherBits (PT ++ PA) i)
              (2 ^ PT.length * (2 ^ PA.length - 1) + jT))
              (ventry v (clearBits (PT ++ PA) i
                + blockOff ((PT ++ PA).map (fun p => 2 ^ p))
                  (2 ^ PT.length * (2 ^ PA.length - 1) + jT))))
          = csum (2 ^ PT.length) (fun jT =>
              Cplx.mul (mentry m (gatherBits PT i) jT)
                (ventry v (clearBits PT i + blockOff (PT.map (fun p => 2 ^ p)) jT)))
          from by
        apply csum_congr
        intro jT hjT
        rw [mentry_add_controls m L A
              (by rw [hBound]; exact gatherBits_lt _ _)
              (by rw [hBound, hsplit]; omega),
            hOffE, hrow, if_neg (by omega), if_neg (by omega),
            show gatherBits PT i + 2 ^ PT.length * (2 ^ PA.length - 1)
                - 2 ^ PT.length * (2 ^ PA.length - 1) = gatherBits PT i from by omega,
            show 2 ^ PT.length * (2 ^ PA.length - 1) + jT
                - 2 ^ PT.length * (2 ^ PA.length - 1) = jT from by omega,
            clear_off_add_controls hnd (and_maskFold_eq_maskFold_iff.mp hall) hjT]]
    · rw [if_neg (fun h => hall (and_or_eq_self_iff.mp h).2)]
      have hgAne : gatherBits PA i ≠ 2 ^ PA.length - 1 := by
        intro he
        apply hall
        rw [and_maskFold_eq_maskFold_iff]
        intro p hp
        obtain ⟨l', hl', hlp⟩ := mem_exists_getD hp
        rw [← hlp, ← gatherBits_testBit i hl', he, Nat.testBit_two_pow_sub_one]
        exact decide_eq_true hl'
      have hgAlt := gatherBits_lt PA i
      have hrowlt : gatherBits (PT ++ PA) i
          < 2 ^ PT.length * (2 ^ PA.length - 1) := by
        rw [happ]
        calc gatherBits PT i + 2 ^ PT.length * gatherBits PA i
            < 2 ^ PT.length + 2 ^ PT.length * gatherBits PA i := by omega
          _ = 2 ^ PT.length * (gatherBits PA i + 1) := by ring
          _ ≤ 2 ^ PT.length * (2 ^ PA.length - 1) :=
              Nat.mul_le_mul_left _ (by omega)
      rw [show csum (2 ^ (PT ++ PA).length) (fun j =>
            Cplx.mul (mentry (add_controls m L A).1 (gatherBits (PT ++ PA) i) j)
              (ventry v (clearBits (PT ++ PA) i
                + blockOff ((PT ++ PA).map (fun p => 2 ^ p)) j)))
          = csum (2 ^ (PT ++ PA).length) (fun j =>
              (if j = gatherBits (PT ++ PA) i then (1 : Cplx) else 0) *
                ventry v (clearBits (PT ++ PA) i
                  + blockOff ((PT ++ PA).map (fun p => 2 ^ p)) j)) from by
        apply csum_congr
        intro j hj
        rw [mentry_add_controls m L A
              (by rw [hBound]; exact gatherBits_lt _ _) (by rw [hBound]; exact hj),
            hOffE, if_pos hrowlt, Cplx_mul_eq]]
      rw [csum_delta _ _ (gatherBits_lt _ _), ← decomp_base_offset hnd i]
  · rw [if_neg helig, if_neg (fun h => helig (and_or_eq_self_iff.mp h).1)]

/-! ### The structure of `Fusion::insert` -/

theorem setMem_iff (l : List ℕ) (x : ℕ) : setMem l x = true ↔ x ∈ l := by
  unfold setMem
  rw [List.any_eq_true]
  constructor
  · rintro ⟨a, ha, he⟩
    rwa [show a = x from by simpa using he] at ha
  · intro h
    exact ⟨x, h, by simp⟩

theorem setInsert_of_mem {l : List ℕ} (hs : List.Sorted (· < ·) l) {x : ℕ}
    (hx : x ∈ l) : setInsert l x = l := by
  induction l with
  | nil => cases hx
  | cons a t ih =>
      rw [List.sorted_cons] at hs
      unfold setInsert
      rcases List.mem_cons.mp hx with rfl | hxt
      · rw [if_neg (lt_irrefl x), if_pos rfl]
      · have hax : a < x := hs.1 x hxt
        rw [if_neg (by omega), if_neg (by omega), ih hs.2 hxt]

theorem setErase_of_not_mem {l : List ℕ} {x : ℕ} (h : x ∉ l) : setErase l x = l :=
  List.filter_eq_self.mpr (fun a ha =>
    decide_eq_true (show a ≠ x from fun he => h (he ▸ ha)))

theorem hcStep_eq (hasItems : Bool) (mx : Mat) (il set cs uh : List ℕ) (c : ℕ) :
    hcStep hasItems ⟨mx, il, set, cs, uh⟩ c
      = if setMem cs c = false then
          (if hasItems then
            ⟨(add_controls mx il [c]).1, (add_controls mx il [c]).2,
             setInsert set c, cs, uh⟩
          else ⟨mx, il, set, setInsert cs c, uh⟩)
        else ⟨mx, il, set, cs, setErase uh c⟩ := rfl

theorem demote_eq (mx : Mat) (il set cs uh : List ℕ) (items : List Item) :
    demote ⟨mx, il, set, cs, uh⟩ items
      = if 0 < uh.length then
          (⟨mx, il, uh.foldl setInsert set, uh.foldl setErase cs, uh⟩,
           items.map (fun it => ⟨(add_controls it.mat it.idx uh).1,
                                 (add_controls it.mat it.idx uh).2⟩))
        else (⟨mx, il, set, cs, uh⟩, items) := rfl

theorem Fusion.insert_eq (f : Fusion) (m : Mat) (T C : List ℕ) :
    f.insert m T C
      = { set := (demote (C.foldl (hcStep (decide (0 < f.items.length)))
              ⟨m, T, T.foldl setInsert f.set, f.ctrl_set, f.ctrl_set⟩) f.items).1.set,
          ctrl_set := (demote (C.foldl (hcStep (decide (0 < f.items.length)))
              ⟨m, T, T.foldl setInsert f.set, f.ctrl_set, f.ctrl_set⟩) f.items).1.ctrl_set,
          items := (demote (C.foldl (hcStep (decide (0 < f.items.length)))
              ⟨m, T, T.foldl setInsert f.set, f.ctrl_set, f.ctrl_set⟩) f.items).2
            ++ [⟨(demote (C.foldl (hcStep (decide (0 < f.items.length)))
                  ⟨m, T, T.foldl setInsert f.set, f.ctrl_set, f.ctrl_set⟩) f.items).1.matrix,
                (demote (C.foldl (hcStep (decide (0 < f.items.length)))
                  ⟨m, T, T.foldl setInsert f.set, f.ctrl_set, f.ctrl_set⟩) f.items).1.indexList⟩] }
      := rfl

theorem hcfold_empty :
    ∀ (C : List ℕ) (mx : Mat) (il set cs : List ℕ), List.Sorted (· < ·) cs →
    C.foldl (hcStep false) ⟨mx, il, set, cs, []⟩
      = ⟨mx, il, set, C.foldl setInsert cs, []⟩
  | [], _, _, _, _, _ => rfl
  | c :: t, mx, il, set, cs, hs => by
      rw [List.foldl_cons, hcStep_eq]
      cases hmem : setMem cs c
      · rw [if_pos rfl, if_neg (fun h => Bool.noConfusion h)]
        exact hcfold_empty t mx il set (setInsert cs c) (setInsert_sorted hs c)
      · rw [if_neg (fun h => Bool.noConfusion h)]
        rw [show setErase ([] : List ℕ) c = [] from rfl]
        rw [hcfold_empty t mx il set cs hs]
        rw [show (c :: t).foldl setInsert cs = t.foldl setInsert (setInsert cs c) from rfl,
            setInsert_of_mem hs ((setMem_iff cs c).mp hmem)]

theorem insert_empty_eq (m : Mat) (T C : List ℕ) :
    emptyFusion.insert m T C
      = ⟨T.foldl setInsert [], [⟨m, T⟩], C.foldl setInsert []⟩ := by
  rw [Fusion.insert_eq]
  rw [show emptyFusion.set = ([] : List ℕ) from rfl,
      show emptyFusion.ctrl_set = ([] : List ℕ) from rfl,
      show emptyFusion.items = ([] : List Item) from rfl,
      show decide (0 < List.length ([] : List Item)) = false from rfl]
  rw [hcfold_empty C m T (T.foldl setInsert []) [] List.sorted_nil]
  rw [demote_eq, if_neg (by simp)]
  rfl

/-- The iterated one-control absorptions performed by the
`handle_controls` loop on the new command. -/
def absorbAll (mil : Mat × List ℕ) (cs : List ℕ) : Mat × List ℕ :=
  cs.foldl (fun p c => add_controls p.1 p.2 [c]) mil

theorem add_controls_fst_length (m : Mat) (L A : List ℕ) :
    (add_controls m L A).1.length = 2 ^ A.length * m.length := by
  show ((List.range (2 ^ A.length * m.length)).map _).length = _
  rw [List.length_map, List.length_range]

theorem absorbAll_snd : ∀ (cs : List ℕ) (m : Mat) (L : List ℕ),
    (absorbAll (m, L) cs).2 = L ++ cs
  | [], m, L => by simp [absorbAll]
  | c :: t, m, L => by
      show (absorbAll (add_controls m L [c]) t).2 = L ++ c :: t
      rw [show add_controls m L [c]
            = ((add_controls m L [c]).1, L ++ [c]) from rfl,
          absorbAll_snd t]
      simp

theorem absorbAll_fst_length : ∀ (cs : List ℕ) (m : Mat) (L : List ℕ),
    (absorbAll (m, L) cs).1.length = 2 ^ cs.length * m.length
  | [], m, L => by simp [absorbAll]
  | c :: t, m, L => by
      show (absorbAll (add_controls m L [c]) t).1.length = _
      rw [show add_controls m L [c]
            = ((add_controls m L [c]).1, L ++ [c]) from rfl,
          absorbAll_fst_length t, add_controls_fst_length, List.length_cons]
      show 2 ^ t.length * (2 ^ 1 * m.length) = 2 ^ (t.length + 1) * m.length
      rw [pow_succ]
      ring

theorem hcfold_items (CS : List ℕ) :
    ∀ (C : List ℕ) (mx : Mat) (il set uh : List ℕ),
    (∀ x ∈ uh, x ∈ CS) →
    C.foldl (hcStep true) ⟨mx, il, set, CS, uh⟩
      = ⟨(absorbAll (mx, il) (C.filter (fun x => !setMem CS x))).1,
         (absorbAll (mx, il) (C.filter (fun x => !setMem CS x))).2,
         (C.filter (fun x => !setMem CS x)).foldl setInsert set,
         CS, C.foldl setErase uh⟩
  | [], mx, il, set, uh, _ => rfl
  | c :: t, mx, il, set, uh, huh => by
      rw [List.foldl_cons, hcStep_eq]
      cases hmem : setMem CS c
      · rw [if_pos rfl, if_pos rfl,
            List.filter_cons_of_pos (by rw [hmem]; rfl),
            show (c :: t).foldl setErase uh = t.foldl setErase uh from by
              rw [List.foldl_cons,
                  setErase_of_not_mem (fun hcu => by
                    have h2 := (setMem_iff CS c).mpr (huh c hcu)
                    rw [h2] at hmem
                    exact Bool.noConfusion hmem)]]
        exact hcfold_items CS t (add_controls mx il [c]).1 (add_controls mx il [c]).2
          (setInsert set c) uh huh
      · rw [if_neg (fun h => Bool.noConfusion h),
            List.filter_cons_of_neg (by rw [hmem]; exact fun h => Bool.noConfusion h)]
        exact hcfold_items CS t mx il set (setErase uh c)
          (fun x hx => huh x ((setErase_mem uh c x).mp hx).1)

theorem applyAt_absorbAll (W : ℕ) (σ : ℕ → ℕ) :
    ∀ (Ab : List ℕ) (T : List ℕ) (m : Mat) (cm : ℕ) (v : Vec),
    ((T ++ Ab).map σ).Nodup →
    m.length = 2 ^ T.length →
    applyAt W ((absorbAll (m, T) Ab).2.map σ) (absorbAll (m, T) Ab).1 cm v
      = applyAt W (T.map σ) m (cm ||| maskFold (Ab.map σ)) v
  | [], T, m, cm, v, hnd, hm => by
      rw [show (absorbAll (m, T) []).2 = T from rfl,
          show (absorbAll (m, T) []).1 = m from rfl,
          show maskFold (([] : List ℕ).map σ) = 0 from rfl,
          Nat.or_zero]
  | a :: t, T, m, cm, v, hnd, hm => by
      have hpair : absorbAll (m, T) (a :: t)
          = absorbAll ((add_controls m T [a]).1, T ++ [a]) t := by
        show absorbAll (add_controls m T [a]) t = _
        rw [show add_controls m T [a] = ((add_controls m T [a]).1, T ++ [a]) from rfl]
      rw [hpair]
      rw [applyAt_absorbAll W σ t (T ++ [a]) (add_controls m T [a]).1 cm v
            (by rwa [show (T ++ [a]) ++ t = T ++ a :: t from by
                  rw [List.append_assoc]; rfl])
            (by rw [add_controls_fst_length, hm, List.length_append]
                show 2 ^ 1 * 2 ^ T.length = 2 ^ (T.length + 1)
                rw [pow_succ]
                ring)]
      rw [show (T ++ [a]).map σ = T.map σ ++ [σ a] from by rw [List.map_append]; rfl]
      have hnd2 : (T.map σ ++ [σ a]).Nodup := by
        rw [show (T ++ a :: t).map σ = T.map σ ++ σ a :: t.map σ from by
              rw [List.map_append]; rfl] at hnd
        exact List.Nodup.sublist
          (List.Sublist.append_left (List.Sublist.cons₂ (σ a) (List.nil_sublist _)) _) hnd
      rw [applyAt_add_controls W (cm ||| maskFold (t.map σ)) (T.map σ) [σ a] T [a]
            rfl m (by rw [List.length_map]; exact hm) hnd2 v]
      rw [show (cm ||| maskFold (t.map σ)) ||| maskFold [σ a]
            = cm ||| maskFold ((a :: t).map σ) from by
        rw [show (a :: t).map σ = σ a :: t.map σ from rfl,
            show maskFold [σ a] = 2 ^ σ a ||| maskFold [] from maskFold_cons (σ a) [],
            show maskFold ([] : List ℕ) = 0 from rfl, Nat.or_zero,
            maskFold_cons (σ a) (t.map σ),
            Nat.or_assoc, Nat.or_comm (maskFold (t.map σ)) (2 ^ σ a)]]

theorem maskFold_append (l1 l2 : List ℕ) :
    maskFold (l1 ++ l2) = maskFold l1 ||| maskFold l2 := by
  apply Nat.eq_of_testBit_eq
  intro q
  rw [Nat.testBit_or, testBit_maskFold_eq, testBit_maskFold_eq, testBit_maskFold_eq]
  by_cases h1 : q ∈ l1
  · rw [decide_eq_true (List.mem_append_left l2 h1), decide_eq_true h1, Bool.true_or]
  · by_cases h2 : q ∈ l2
    · rw [decide_eq_true (List.mem_append_right l1 h2), decide_eq_true h2, Bool.or_true]
    · rw [decide_eq_false h1, decide_eq_false h2,
          decide_eq_false (by rw [List.mem_append]; tauto), Bool.or_false]

theorem maskFold_and_disjoint {l1 l2 : List ℕ}
    (h : ∀ x ∈ l1, x ∉ l2) : maskFold l1 &&& maskFold l2 = 0 := by
  apply Nat.eq_of_testBit_eq
  intro q
  rw [Nat.testBit_and, Nat.zero_testBit, testBit_maskFold_eq, testBit_maskFold_eq]
  by_cases h1 : q ∈ l1
  · rw [decide_eq_false (h q h1), Bool.and_false]
  · rw [decide_eq_false h1, Bool.false_and]

theorem filter_not_setMem_mem (CS C : List ℕ) (x : ℕ) :
    x ∈ C.filter (fun y => !setMem CS y) ↔ x ∈ C ∧ x ∉ CS := by
  rw [List.mem_filter]
  constructor
  · rintro ⟨h1, h2⟩
    refine ⟨h1, fun hx => ?_⟩
    rw [(setMem_iff CS x).mpr hx] at h2
    exact Bool.noConfusion h2
  · rintro ⟨h1, h2⟩
    refine ⟨h1, ?_⟩
    cases hm : setMem CS x
    · rfl
    · exact absurd ((setMem_iff CS x).mp hm) h2

theorem map_nodup_of_inj {σ : ℕ → ℕ} {l D : List ℕ} (hnd : l.Nodup)
    (hsub : ∀ x ∈ l, x ∈ D)
    (hinj : ∀ x ∈ D, ∀ y ∈ D, σ x = σ y → x = y) : (l.map σ).Nodup :=
  List.Nodup.map_on (fun x hx y hy h => hinj x (hsub x hx) y (hsub y hy) h) hnd

theorem listSem_append (W : ℕ) (σ : ℕ → ℕ) (cm : ℕ) (l1 l2 : List Item) (v : Vec) :
    listSem W σ cm (l1 ++ l2) v = listSem W σ cm l2 (listSem W σ cm l1 v) := by
  unfold listSem
  rw [List.foldl_append]

theorem listSem_map_congr (W : ℕ) (σ : ℕ → ℕ) (cm cm2 : ℕ) (g : Item → Item) :
    ∀ (items : List Item),
    (∀ it ∈ items, ∀ w, itemSem W σ cm2 (g it) w = itemSem W σ cm it w) →
    ∀ v, listSem W σ cm2 (items.map g) v = listSem W σ cm items v
  | [], _, v => rfl
  | it :: rest, h, v => by
      show listSem W σ cm2 (rest.map g) (itemSem W σ cm2 (g it) v)
        = listSem W σ cm rest (itemSem W σ cm it v)
      rw [h it (List.mem_cons_self it rest) v]
      exact listSem_map_congr W σ cm cm2 g rest
        (fun x hx w => h x (List.mem_cons_of_mem it hx) w) (itemSem W σ cm it v)

theorem insert_items_pos (F : Fusion) (hne : 0 < F.items.length) (m : Mat)
    (T C : List ℕ) (huh : 0 < (C.foldl setErase F.ctrl_set).length) :
    F.insert m T C
      = ⟨(C.foldl setErase F.ctrl_set).foldl setInsert
           ((C.filter (fun x => !setMem F.ctrl_set x)).foldl setInsert
             (T.foldl setInsert F.set)),
         F.items.map (fun it =>
           ⟨(add_controls it.mat it.idx (C.foldl setErase F.ctrl_set)).1,
            (add_controls it.mat it.idx (C.foldl setErase F.ctrl_set)).2⟩)
           ++ [⟨(absorbAll (m, T) (C.filter (fun x => !setMem F.ctrl_set x))).1,
               (absorbAll (m, T) (C.filter (fun x => !setMem F.ctrl_set x))).2⟩],
         (C.foldl setErase F.ctrl_set).foldl setErase F.ctrl_set⟩ := by
  rw [Fusion.insert_eq, show decide (0 < F.items.length) = true from decide_eq_true hne,
      hcfold_items F.ctrl_set C m T (T.foldl setInsert F.set) F.ctrl_set
        (fun x hx => hx),
      demote_eq, if_pos huh]

theorem insert_items_neg (F : Fusion) (hne : 0 < F.items.length) (m : Mat)
    (T C : List ℕ) (huh : ¬0 < (C.foldl setErase F.ctrl_set).length) :
    F.insert m T C
      = ⟨(C.filter (fun x => !setMem F.ctrl_set x)).foldl setInsert
           (T.foldl setInsert F.set),
         F.items
           ++ [⟨(absorbAll (m, T) (C.filter (fun x => !setMem F.ctrl_set x))).1,
               (absorbAll (m, T) (C.filter (fun x => !setMem F.ctrl_set x))).2⟩],
         F.ctrl_set⟩ := by
  rw [Fusion.insert_eq, show decide (0 < F.items.length) = true from decide_eq_true hne,
      hcfold_items F.ctrl_set C m T (T.foldl setInsert F.set) F.ctrl_set
        (fun x hx => hx),
      demote_eq, if_neg huh]

/-- One buffered gate command: matrix, targets and controls, as passed to
`apply_controlled_gate`. -/
structure Cmd where
  mat : Mat
  ids : List ℕ
  ctrls : List ℕ

/-- The reference semantics of one raw command. -/
def cmdSem (W : ℕ) (σ : ℕ → ℕ) (c : Cmd) (v : Vec) : Vec :=
  applyAt W (c.ids.map σ) c.mat (maskFold (c.ctrls.map σ)) v

/-- The documented validity requirements on one command. -/
def CmdWF (c : Cmd) : Prop :=
  c.ids ≠ [] ∧ c.ids.Nodup ∧ c.ctrls.Nodup ∧ (∀ x ∈ c.ids, x ∉ c.ctrls) ∧
  c.mat.length = 2 ^ c.ids.length

/-- The invariant maintained by `Fusion::insert` starting from an empty
buffer. -/
def FusionWF (F : Fusion) : Prop :=
  List.Sorted (· < ·) F.set ∧ List.Sorted (· < ·) F.ctrl_set ∧
  (∀ x ∈ F.ctrl_set, x ∉ F.set) ∧
  (∀ it ∈ F.items, it.idx.Nodup ∧ (∀ x ∈ it.idx, x ∈ F.set) ∧
    it.mat.length = 2 ^ it.idx.length) ∧
  (F.items = [] → F.set = [] ∧ F.ctrl_set = [])

/-- The reference semantics of the whole buffer: its items first to last
under the global control mask. -/
def bufSem (W : ℕ) (σ : ℕ → ℕ) (F : Fusion) (v : Vec) : Vec :=
  listSem W σ (maskFold (F.ctrl_set.map σ)) F.items v

theorem fusion_mk_ctrl_set (s : List ℕ) (i : List Item) (cs : List ℕ) :
    (Fusion.mk s i cs).ctrl_set = cs := rfl

theorem fusion_mk_items (s : List ℕ) (i : List Item) (cs : List ℕ) :
    (Fusion.mk s i cs).items = i := rfl

theorem fusion_mk_set (s : List ℕ) (i : List Item) (cs : List ℕ) :
    (Fusion.mk s i cs).set = s := rfl

theorem listSem_singleton (W : ℕ) (σ : ℕ → ℕ) (cm : ℕ) (it : Item) (w : Vec) :
    listSem W σ cm [it] w = itemSem W σ cm it w := rfl

theorem mem_map_iff_of_mem_iff {σ : ℕ → ℕ} {l1 l2 : List ℕ}
    (h : ∀ x, x ∈ l1 ↔ x ∈ l2) : ∀ q, q ∈ l1.map σ ↔ q ∈ l2.map σ := by
  intro q
  constructor
  · intro hq
    obtain ⟨y, hy, hyq⟩ := List.mem_map.mp hq
    exact List.mem_map.mpr ⟨y, (h y).mp hy, hyq⟩
  · intro hq
    obtain ⟨y, hy, hyq⟩ := List.mem_map.mp hq
    exact List.mem_map.mpr ⟨y, (h y).mpr hy, hyq⟩

theorem insert_of_empty (F : Fusion) (h1 : F.set = []) (h2 : F.ctrl_set = [])
    (h3 : F.items = []) (m : Mat) (T C : List ℕ) :
    F.insert m T C
      = ⟨T.foldl setInsert [], [⟨m, T⟩], C.foldl setInsert []⟩ := by
  rw [Fusion.insert_eq, h1, h2, h3,
      show decide (0 < List.length ([] : List Item)) = false from rfl]
  rw [hcfold_empty C m T (T.foldl setInsert []) [] List.sorted_nil]
  rw [demote_eq, if_neg (by simp)]
  rfl

/-- `Fusion::insert` is semantically transparent: the buffer after the
insertion denotes the new command applied after the old buffer. -/
theorem insert_sem (W : ℕ) (σ : ℕ → ℕ) (F : Fusion) (c : Cmd)
    (hF : FusionWF F) (hc : CmdWF c)
    (hinj : ∀ x ∈ F.set ++ F.ctrl_set ++ c.ids ++ c.ctrls,
            ∀ y ∈ F.set ++ F.ctrl_set ++ c.ids ++ c.ctrls, σ x = σ y → x = y)
    (v : Vec) :
    bufSem W σ (F.insert c.mat c.ids c.ctrls) v = cmdSem W σ c (bufSem W σ F v) := by
  obtain ⟨hsortS, hsortC, hdisjCS, hitemsWF, hempty⟩ := hF
  obtain ⟨hTne, hTnd, hCnd, hTC, hmlen⟩ := hc
  have hDs : ∀ x ∈ F.set, x ∈ F.set ++ F.ctrl_set ++ c.ids ++ c.ctrls :=
    fun x hx => List.mem_append_left _
      (List.mem_append_left _ (List.mem_append_left _ hx))
  have hDc : ∀ x ∈ F.ctrl_set, x ∈ F.set ++ F.ctrl_set ++ c.ids ++ c.ctrls :=
    fun x hx => List.mem_append_left _
      (List.mem_append_left _ (List.mem_append_right _ hx))
  have hDT : ∀ x ∈ c.ids, x ∈ F.set ++ F.ctrl_set ++ c.ids ++ c.ctrls :=
    fun x hx => List.mem_append_left _ (List.mem_append_right _ hx)
  have hDC : ∀ x ∈ c.ctrls, x ∈ F.set ++ F.ctrl_set ++ c.ids ++ c.ctrls :=
    fun x hx => List.mem_append_right _ hx
  rcases heq : F.items with _ | ⟨it0, rest⟩
  · obtain ⟨hs0, hc0⟩ := hempty heq
    rw [insert_of_empty F hs0 hc0 heq]
    unfold bufSem
    rw [fusion_mk_ctrl_set, fusion_mk_items, heq]
    show itemSem W σ (maskFold ((c.ctrls.foldl setInsert []).map σ)) ⟨c.mat, c.ids⟩ v
      = cmdSem W σ c v
    have hmask : ∀ q, q ∈ (c.ctrls.foldl setInsert []).map σ ↔ q ∈ c.ctrls.map σ :=
      mem_map_iff_of_mem_iff (fun x => by
        rw [foldl_setInsert_mem]
        constructor
        · intro h0
          rcases h0 with h0 | h0
          · exact absurd h0 (List.not_mem_nil x)
          · exact h0
        · intro h0
          exact Or.inr h0)
    show applyAt W (c.ids.map σ) c.mat
        (maskFold ((c.ctrls.foldl setInsert []).map σ)) v = cmdSem W σ c v
    rw [maskFold_eq_of_mem_iff hmask]
    rfl
  · have hne : 0 < F.items.length := by rw [heq]; simp
    have huh_mem : ∀ x, x ∈ c.ctrls.foldl setErase F.ctrl_set
        ↔ x ∈ F.ctrl_set ∧ x ∉ c.ctrls :=
      fun x => foldl_setErase_mem c.ctrls F.ctrl_set x
    have huh_sorted : List.Sorted (· < ·) (c.ctrls.foldl setErase F.ctrl_set) :=
      foldl_setErase_sorted c.ctrls hsortC
    have huh_nd : (c.ctrls.foldl setErase F.ctrl_set).Nodup :=
      List.Sorted.nodup huh_sorted
    have hAb_mem : ∀ x, x ∈ c.ctrls.filter (fun y => !setMem F.ctrl_set y)
        ↔ x ∈ c.ctrls ∧ x ∉ F.ctrl_set :=
      fun x => filter_not_setMem_mem F.ctrl_set c.ctrls x
    have hAb_nd : (c.ctrls.filter (fun y => !setMem F.ctrl_set y)).Nodup :=
      List.Nodup.filter _ hCnd
    have hTAb_nd : (c.ids ++ c.ctrls.filter (fun y => !setMem F.ctrl_set y)).Nodup := by
      rw [List.nodup_append]
      refine ⟨hTnd, hAb_nd, ?_⟩
      intro x hx hx2
      exact hTC x hx ((hAb_mem x).mp hx2).1
    have hTAb_map_nd :
        ((c.ids ++ c.ctrls.filter (fun y => !setMem F.ctrl_set y)).map σ).Nodup := by
      apply map_nodup_of_inj hTAb_nd ?_ hinj
      intro x hx
      rcases List.mem_append.mp hx with h0 | h0
      · exact hDT x h0
      · exact hDC x ((hAb_mem x).mp h0).1
    have hnew : ∀ (cm2 : ℕ) (w : Vec), itemSem W σ cm2
          ⟨(absorbAll (c.mat, c.ids) (c.ctrls.filter (fun y => !setMem F.ctrl_set y))).1,
           (absorbAll (c.mat, c.ids) (c.ctrls.filter (fun y => !setMem F.ctrl_set y))).2⟩ w
        = applyAt W (c.ids.map σ) c.mat
            (cm2 ||| maskFold ((c.ctrls.filter (fun y => !setMem F.ctrl_set y)).map σ)) w :=
      fun cm2 w => applyAt_absorbAll W σ _ c.ids c.mat cm2 w hTAb_map_nd hmlen
    by_cases huh : 0 < (c.ctrls.foldl setErase F.ctrl_set).length
    · rw [insert_items_pos F hne c.mat c.ids c.ctrls huh]
      unfold bufSem
      rw [fusion_mk_ctrl_set, fusion_mk_items, listSem_append, listSem_singleton]
      rw [listSem_map_congr W σ (maskFold (F.ctrl_set.map σ))
            (maskFold (((c.ctrls.foldl setErase F.ctrl_set).foldl setErase
              F.ctrl_set).map σ))
            (fun it => ⟨(add_controls it.mat it.idx (c.ctrls.foldl setErase F.ctrl_set)).1,
                        (add_controls it.mat it.idx (c.ctrls.foldl setErase F.ctrl_set)).2⟩)
            F.items ?hold v]
      case hold =>
        intro it hit w
        obtain ⟨hind, hisub, hilen⟩ := hitemsWF it hit
        show applyAt W
            (((add_controls it.mat it.idx (c.ctrls.foldl setErase F.ctrl_set)).2).map σ)
            (add_controls it.mat it.idx (c.ctrls.foldl setErase F.ctrl_set)).1
            (maskFold (((c.ctrls.foldl setErase F.ctrl_set).foldl setErase
              F.ctrl_set).map σ)) w
          = itemSem W σ (maskFold (F.ctrl_set.map σ)) it w
        rw [show (add_controls it.mat it.idx (c.ctrls.foldl setErase F.ctrl_set)).2
              = it.idx ++ c.ctrls.foldl setErase F.ctrl_set from rfl,
            List.map_append]
        rw [applyAt_add_controls W _ (it.idx.map σ)
              ((c.ctrls.foldl setErase F.ctrl_set).map σ)
              it.idx (c.ctrls.foldl setErase F.ctrl_set)
              (List.length_map _ _).symm it.mat
              (by rw [List.length_map]; exact hilen)
              (by
                rw [← List.map_append]
                apply map_nodup_of_inj ?_ ?_ hinj
                · rw [List.nodup_append]
                  refine ⟨hind, huh_nd, ?_⟩
                  intro x hx hx2
                  exact hdisjCS x ((huh_mem x).mp hx2).1 (hisub x hx)
                · intro x hx
                  rcases List.mem_append.mp hx with h0 | h0
                  · exact hDs x (hisub x h0)
                  · exact hDc x ((huh_mem x).mp h0).1) w]
        rw [show maskFold (((c.ctrls.foldl setErase F.ctrl_set).foldl setErase
                F.ctrl_set).map σ)
              ||| maskFold ((c.ctrls.foldl setErase F.ctrl_set).map σ)
            = maskFold (F.ctrl_set.map σ) from by
          rw [← maskFold_append, ← List.map_append]
          apply maskFold_eq_of_mem_iff
          apply mem_map_iff_of_mem_iff
          intro x
          rw [List.mem_append, foldl_setErase_mem, huh_mem x]
          by_cases hxC : x ∈ F.ctrl_set <;> by_cases hxU : x ∈ c.ctrls <;> tauto]
        rfl
      rw [hnew]
      rw [show maskFold (((c.ctrls.foldl setErase F.ctrl_set).foldl setErase
              F.ctrl_set).map σ)
            ||| maskFold ((c.ctrls.filter (fun y => !setMem F.ctrl_set y)).map σ)
          = maskFold (c.ctrls.map σ) from by
        rw [← maskFold_append, ← List.map_append]
        apply maskFold_eq_of_mem_iff
        apply mem_map_iff_of_mem_iff
        intro x
        rw [List.mem_append, foldl_setErase_mem, huh_mem x, hAb_mem x]
        by_cases hxC : x ∈ F.ctrl_set <;> by_cases hxU : x ∈ c.ctrls <;> tauto]
      rfl
    · rw [insert_items_neg F hne c.mat c.ids c.ctrls huh]
      have hCSsubC : ∀ x ∈ F.ctrl_set, x ∈ c.ctrls := by
        intro x hx
        by_contra hxc
        have hmem2 : x ∈ c.ctrls.foldl setErase F.ctrl_set := (huh_mem x).mpr ⟨hx, hxc⟩
        have h0 : (c.ctrls.foldl setErase F.ctrl_set).length = 0 := by omega
        rw [List.length_eq_zero.mp h0] at hmem2
        exact absurd hmem2 (List.not_mem_nil x)
      unfold bufSem
      rw [fusion_mk_ctrl_set, fusion_mk_items, listSem_append, listSem_singleton]
      rw [hnew]
      rw [show maskFold (F.ctrl_set.map σ)
            ||| maskFold ((c.ctrls.filter (fun y => !setMem F.ctrl_set y)).map σ)
          = maskFold (c.ctrls.map σ) from by
        rw [← maskFold_append, ← List.map_append]
        apply maskFold_eq_of_mem_iff
        apply mem_map_iff_of_mem_iff
        intro x
        rw [List.mem_append, hAb_mem x]
        constructor
        · intro h0
          rcases h0 with h0 | h0
          · exact hCSsubC x h0
          · exact h0.1
        · intro h0
          by_cases hxC : x ∈ F.ctrl_set
          · exact Or.inl hxC
          · exact Or.inr ⟨h0, hxC⟩]
      rfl

/-- `Fusion::insert` preserves the buffer invariant. -/
theorem insert_wf (F : Fusion) (c : Cmd) (hF : FusionWF F) (hc : CmdWF c) :
    FusionWF (F.insert c.mat c.ids c.ctrls) := by
  obtain ⟨hsortS, hsortC, hdisjCS, hitemsWF, hempty⟩ := hF
  obtain ⟨hTne, hTnd, hCnd, hTC, hmlen⟩ := hc
  rcases heq : F.items with _ | ⟨it0, rest⟩
  · obtain ⟨hs0, hc0⟩ := hempty heq
    rw [insert_of_empty F hs0 hc0 heq]
    refine ⟨?_, ?_, ?_, ?_, ?_⟩
    · exact foldl_setInsert_sorted c.ids List.sorted_nil
    · exact foldl_setInsert_sorted c.ctrls List.sorted_nil
    · intro x hx
      have hx' : x ∈ c.ctrls.foldl setInsert [] := hx
      rcases (foldl_setInsert_mem _ _ x).mp hx' with h0 | h0
      · exact absurd h0 (List.not_mem_nil x)
      · intro hx2
        have hx2' : x ∈ c.ids.foldl setInsert [] := hx2
        rcases (foldl_setInsert_mem _ _ x).mp hx2' with h1 | h1
        · exact absurd h1 (List.not_mem_nil x)
        · exact hTC x h1 h0
    · intro it hit
      have hit' : it ∈ [(⟨c.mat, c.ids⟩ : Item)] := hit
      rw [List.mem_singleton] at hit'
      subst hit'
      refine ⟨hTnd, ?_, hmlen⟩
      intro x hx
      exact (foldl_setInsert_mem _ _ x).mpr (Or.inr hx)
    · intro h
      exact absurd h (by simp)
  · have hne : 0 < F.items.length := by rw [heq]; simp
    have huh_mem : ∀ x, x ∈ c.ctrls.foldl setErase F.ctrl_set
        ↔ x ∈ F.ctrl_set ∧ x ∉ c.ctrls :=
      fun x => foldl_setErase_mem c.ctrls F.ctrl_set x
    have huh_nd : (c.ctrls.foldl setErase F.ctrl_set).Nodup :=
      List.Sorted.nodup (foldl_setErase_sorted c.ctrls hsortC)
    have hAb_mem : ∀ x, x ∈ c.ctrls.filter (fun y => !setMem F.ctrl_set y)
        ↔ x ∈ c.ctrls ∧ x ∉ F.ctrl_set :=
      fun x => filter_not_setMem_mem F.ctrl_set c.ctrls x
    have hAb_nd : (c.ctrls.filter (fun y => !setMem F.ctrl_set y)).Nodup :=
      List.Nodup.filter _ hCnd
    have hTAb_nd : (c.ids ++ c.ctrls.filter (fun y => !setMem F.ctrl_set y)).Nodup := by
      rw [List.nodup_append]
      refine ⟨hTnd, hAb_nd, ?_⟩
      intro x hx hx2
      exact hTC x hx ((hAb_mem x).mp hx2).1
    by_cases huh : 0 < (c.ctrls.foldl setErase F.ctrl_set).length
    · rw [insert_items_pos F hne c.mat c.ids c.ctrls huh]
      refine ⟨?_, ?_, ?_, ?_, ?_⟩
      · exact foldl_setInsert_sorted _
          (foldl_setInsert_sorted _ (foldl_setInsert_sorted _ hsortS))
      · exact foldl_setErase_sorted _ hsortC
      · intro x hx
        have hx' : x ∈ (c.ctrls.foldl setErase F.ctrl_set).foldl setErase
            F.ctrl_set := hx
        obtain ⟨hxCS, hxnU⟩ := (foldl_setErase_mem _ _ x).mp hx'
        have hxC : x ∈ c.ctrls := by
          by_contra hxc
          exact hxnU ((huh_mem x).mpr ⟨hxCS, hxc⟩)
        intro hx2
        have hx2' : x ∈ (c.ctrls.foldl setErase F.ctrl_set).foldl setInsert
            ((c.ctrls.filter (fun y => !setMem F.ctrl_set y)).foldl setInsert
              (c.ids.foldl setInsert F.set)) := hx2
        rcases (foldl_setInsert_mem _ _ x).mp hx2' with h0 | h0
        · rcases (foldl_setInsert_mem _ _ x).mp h0 with h1 | h1
          · rcases (foldl_setInsert_mem _ _ x).mp h1 with h2 | h2
            · exact hdisjCS x hxCS h2
            · exact hTC x h2 hxC
          · exact ((hAb_mem x).mp h1).2 hxCS
        · exact hxnU h0
      · intro it hit
        have hit' : it ∈ F.items.map (fun it =>
            (⟨(add_controls it.mat it.idx (c.ctrls.foldl setErase F.ctrl_set)).1,
              (add_controls it.mat it.idx (c.ctrls.foldl setErase F.ctrl_set)).2⟩ : Item))
            ++ [(⟨(absorbAll (c.mat, c.ids)
                    (c.ctrls.filter (fun y => !setMem F.ctrl_set y))).1,
                  (absorbAll (c.mat, c.ids)
                    (c.ctrls.filter (fun y => !setMem F.ctrl_set y))).2⟩ : Item)] := hit
        rcases List.mem_append.mp hit' with h0 | h0
        · obtain ⟨it2, hit2, rfl⟩ := List.mem_map.mp h0
          obtain ⟨hind, hisub, hilen⟩ := hitemsWF it2 hit2
          refine ⟨?_, ?_, ?_⟩
          · show (it2.idx ++ c.ctrls.foldl setErase F.ctrl_set).Nodup
            rw [List.nodup_append]
            refine ⟨hind, huh_nd, ?_⟩
            intro x hx hx2
            exact hdisjCS x ((huh_mem x).mp hx2).1 (hisub x hx)
          · intro x hx
            have hx' : x ∈ it2.idx ++ c.ctrls.foldl setErase F.ctrl_set := hx
            show x ∈ (c.ctrls.foldl setErase F.ctrl_set).foldl setInsert
              ((c.ctrls.filter (fun y => !setMem F.ctrl_set y)).foldl setInsert
                (c.ids.foldl setInsert F.set))
            apply (foldl_setInsert_mem _ _ x).mpr
            rcases List.mem_append.mp hx' with h1 | h1
            · left
              apply (foldl_setInsert_mem _ _ x).mpr
              left
              exact (foldl_setInsert_mem _ _ x).mpr (Or.inl (hisub x h1))
            · right
              exact h1
          · show (add_controls it2.mat it2.idx (c.ctrls.foldl setErase F.ctrl_set)).1.length
              = 2 ^ (it2.idx ++ c.ctrls.foldl setErase F.ctrl_set).length
            rw [add_controls_fst_length, hilen, List.length_append, Nat.pow_add]
            ring
        · rw [List.mem_singleton] at h0
          subst h0
          refine ⟨?_, ?_, ?_⟩
          · show ((absorbAll (c.mat, c.ids)
                (c.ctrls.filter (fun y => !setMem F.ctrl_set y))).2).Nodup
            rw [absorbAll_snd]
            exact hTAb_nd
          · intro x hx
            have hx' : x ∈ (absorbAll (c.mat, c.ids)
                (c.ctrls.filter (fun y => !setMem F.ctrl_set y))).2 := hx
            rw [absorbAll_snd] at hx'
            show x ∈ (c.ctrls.foldl setErase F.ctrl_set).foldl setInsert
              ((c.ctrls.filter (fun y => !setMem F.ctrl_set y)).foldl setInsert
                (c.ids.foldl setInsert F.set))
            apply (foldl_setInsert_mem _ _ x).mpr
            left
            apply (foldl_setInsert_mem _ _ x).mpr
            rcases List.mem_append.mp hx' with h1 | h1
            · left
              exact (foldl_setInsert_mem _ _ x).mpr (Or.inr h1)
            · right
              exact h1
          · show (absorbAll (c.mat, c.ids)
                (c.ctrls.filter (fun y => !setMem F.ctrl_set y))).1.length
              = 2 ^ ((absorbAll (c.mat, c.ids)
                  (c.ctrls.filter (fun y => !setMem F.ctrl_set y))).2).length
            rw [absorbAll_fst_length, absorbAll_snd, hmlen, List.length_append,
                Nat.pow_add]
            ring
      · intro h
        exact absurd h (by simp)
    · rw [insert_items_neg F hne c.mat c.ids c.ctrls huh]
      have hCSsubC : ∀ x ∈ F.ctrl_set, x ∈ c.ctrls := by
        intro x hx
        by_contra hxc
        have hmem2 : x ∈ c.ctrls.foldl setErase F.ctrl_set := (huh_mem x).mpr ⟨hx, hxc⟩
        have h0 : (c.ctrls.foldl setErase F.ctrl_set).length = 0 := by omega
        rw [List.length_eq_zero.mp h0] at hmem2
        exact absurd hmem2 (List.not_mem_nil x)
      refine ⟨?_, ?_, ?_, ?_, ?_⟩
      · exact foldl_setInsert_sorted _ (foldl_setInsert_sorted _ hsortS)
      · exact hsortC
      · intro x hx
        have hxC : x ∈ c.ctrls := hCSsubC x hx
        intro hx2
        have hx2' : x ∈ (c.ctrls.filter (fun y => !setMem F.ctrl_set y)).foldl setInsert
            (c.ids.foldl setInsert F.set) := hx2
        rcases (foldl_setInsert_mem _ _ x).mp hx2' with h0 | h0
        · rcases (foldl_setInsert_mem _ _ x).mp h0 with h1 | h1
          · exact hdisjCS x hx h1
          · exact hTC x h1 hxC
        · exact ((hAb_mem x).mp h0).2 hx
      · intro it hit
        have hit' : it ∈ F.items
            ++ [(⟨(absorbAll (c.mat, c.ids)
                    (c.ctrls.filter (fun y => !setMem F.ctrl_set y))).1,
                  (absorbAll (c.mat, c.ids)
                    (c.ctrls.filter (fun y => !setMem F.ctrl_set y))).2⟩ : Item)] := hit
        rcases List.mem_append.mp hit' with h0 | h0
        · obtain ⟨hind, hisub, hilen⟩ := hitemsWF it h0
          refine ⟨hind, ?_, hilen⟩
          intro x hx
          show x ∈ (c.ctrls.filter (fun y => !setMem F.ctrl_set y)).foldl setInsert
            (c.ids.foldl setInsert F.set)
          apply (foldl_setInsert_mem _ _ x).mpr
          left
          exact (foldl_setInsert_mem _ _ x).mpr (Or.inl (hisub x hx))
        · rw [List.mem_singleton] at h0
          subst h0
          refine ⟨?_, ?_, ?_⟩
          · show ((absorbAll (c.mat, c.ids)
                (c.ctrls.filter (fun y => !setMem F.ctrl_set y))).2).Nodup
            rw [absorbAll_snd]
            exact hTAb_nd
          · intro x hx
            have hx' : x ∈ (absorbAll (c.mat, c.ids)
                (c.ctrls.filter (fun y => !setMem F.ctrl_set y))).2 := hx
            rw [absorbAll_snd] at hx'
            show x ∈ (c.ctrls.filter (fun y => !setMem F.ctrl_set y)).foldl setInsert
              (c.ids.foldl setInsert F.set)
            apply (foldl_setInsert_mem _ _ x).mpr
            rcases List.mem_append.mp hx' with h1 | h1
            · left
              exact (foldl_setInsert_mem _ _ x).mpr (Or.inr h1)
            · right
              exact h1
          · show (absorbAll (c.mat, c.ids)
                (c.ctrls.filter (fun y => !setMem F.ctrl_set y))).1.length
              = 2 ^ ((absorbAll (c.mat, c.ids)
                  (c.ctrls.filter (fun y => !setMem F.ctrl_set y))).2).length
            rw [absorbAll_fst_length, absorbAll_snd, hmlen, List.length_append,
                Nat.pow_add]
            ring
      · intro h
        exact absurd h (by simp)

theorem insert_set_sub (F : Fusion) (c : Cmd) (hF : FusionWF F) :
    ∀ x ∈ (F.insert c.mat c.ids c.ctrls).set,
      x ∈ F.set ∨ x ∈ F.ctrl_set ∨ x ∈ c.ids ∨ x ∈ c.ctrls := by
  obtain ⟨hsortS, hsortC, hdisjCS, hitemsWF, hempty⟩ := hF
  rcases heq : F.items with _ | ⟨it0, rest⟩
  · obtain ⟨hs0, hc0⟩ := hempty heq
    rw [insert_of_empty F hs0 hc0 heq]
    intro x hx
    have hx' : x ∈ c.ids.foldl setInsert [] := hx
    rcases (foldl_setInsert_mem _ _ x).mp hx' with h0 | h0
    · exact absurd h0 (List.not_mem_nil x)
    · exact Or.inr (Or.inr (Or.inl h0))
  · have hne : 0 < F.items.length := by rw [heq]; simp
    by_cases huh : 0 < (c.ctrls.foldl setErase F.ctrl_set).length
    · rw [insert_items_pos F hne c.mat c.ids c.ctrls huh]
      intro x hx
      have hx' : x ∈ (c.ctrls.foldl setErase F.ctrl_set).foldl setInsert
          ((c.ctrls.filter (fun y => !setMem F.ctrl_set y)).foldl setInsert
            (c.ids.foldl setInsert F.set)) := hx
      rcases (foldl_setInsert_mem _ _ x).mp hx' with h0 | h0
      · rcases (foldl_setInsert_mem _ _ x).mp h0 with h1 | h1
        · rcases (foldl_setInsert_mem _ _ x).mp h1 with h2 | h2
          · exact Or.inl h2
          · exact Or.inr (Or.inr (Or.inl h2))
        · exact Or.inr (Or.inr (Or.inr ((filter_not_setMem_mem _ _ x).mp h1).1))
      · exact Or.inr (Or.inl ((foldl_setErase_mem _ _ x).mp h0).1)
    · rw [insert_items_neg F hne c.mat c.ids c.ctrls huh]
      intro x hx
      have hx' : x ∈ (c.ctrls.filter (fun y => !setMem F.ctrl_set y)).foldl setInsert
          (c.ids.foldl setInsert F.set) := hx
      rcases (foldl_setInsert_mem _ _ x).mp hx' with h0 | h0
      · rcases (foldl_setInsert_mem _ _ x).mp h0 with h1 | h1
        · exact Or.inl h1
        · exact Or.inr (Or.inr (Or.inl h1))
      · exact Or.inr (Or.inr (Or.inr ((filter_not_setMem_mem _ _ x).mp h0).1))

theorem insert_ctrl_sub (F : Fusion) (c : Cmd) (hF : FusionWF F) :
    ∀ x ∈ (F.insert c.mat c.ids c.ctrls).ctrl_set,
      x ∈ F.ctrl_set ∨ x ∈ c.ctrls := by
  obtain ⟨hsortS, hsortC, hdisjCS, hitemsWF, hempty⟩ := hF
  rcases heq : F.items with _ | ⟨it0, rest⟩
  · obtain ⟨hs0, hc0⟩ := hempty heq
    rw [insert_of_empty F hs0 hc0 heq]
    intro x hx
    have hx' : x ∈ c.ctrls.foldl setInsert [] := hx
    rcases (foldl_setInsert_mem _ _ x).mp hx' with h0 | h0
    · exact absurd h0 (List.not_mem_nil x)
    · exact Or.inr h0
  · have hne : 0 < F.items.length := by rw [heq]; simp
    by_cases huh : 0 < (c.ctrls.foldl setErase F.ctrl_set).length
    · rw [insert_items_pos F hne c.mat c.ids c.ctrls huh]
      intro x hx
      have hx' : x ∈ (c.ctrls.foldl setErase F.ctrl_set).foldl setErase
          F.ctrl_set := hx
      exact Or.inl ((foldl_setErase_mem _ _ x).mp hx').1
    · rw [insert_items_neg F hne c.mat c.ids c.ctrls huh]
      intro x hx
      exact Or.inl hx

/-- An index-map bijection makes the slot assignment injective and bounded
on the allocated ids. -/
theorem bij_slot_facts (s : Sim) (hbij : IndexMapBijection s) :
    (∀ x, mapCount s.map x = true → ∀ y, mapCount s.map y = true →
      mapFindD s.map x = mapFindD s.map y → x = y) ∧
    (∀ x, mapCount s.map x = true → mapFindD s.map x < s.N) := by
  obtain ⟨hwf, hperm⟩ := hbij
  have hvnd : (s.map.map Prod.snd).Nodup :=
    (List.Perm.nodup_iff hperm).mpr (List.nodup_range s.N)
  constructor
  · intro x hx y hy hxy
    have hpx := mapFindD_mem hx
    have hpy := mapFindD_mem hy
    have hpq := List.inj_on_of_nodup_map hvnd hpx hpy hxy
    exact congrArg Prod.fst hpq
  · intro x hx
    have hpx := mapFindD_mem hx
    have hmem : mapFindD s.map x ∈ s.map.map Prod.snd :=
      List.mem_map.mpr ⟨(x, mapFindD s.map x), hpx, rfl⟩
    exact List.mem_range.mp (hperm.subset hmem)

theorem foldl_setInsert_nil_length {T : List ℕ} (hnd : T.Nodup) :
    (T.foldl setInsert []).length = T.length := by
  have hnd2 : (T.foldl setInsert []).Nodup :=
    List.Sorted.nodup (foldl_setInsert_sorted T List.sorted_nil)
  have hperm : (T.foldl setInsert []).Perm T :=
    (List.perm_ext_iff_of_nodup hnd2 hnd).mpr (fun a => by
      rw [foldl_setInsert_mem]
      constructor
      · intro h0
        rcases h0 with h0 | h0
        · exact absurd h0 (List.not_mem_nil a)
        · exact h0
      · intro h0
        exact Or.inr h0)
  exact hperm.length_eq

theorem fusionWF_empty : FusionWF emptyFusion :=
  ⟨List.sorted_nil, List.sorted_nil, fun x hx => absurd hx (List.not_mem_nil x),
   fun it hit => absurd hit (List.not_mem_nil it), fun _ => ⟨rfl, rfl⟩⟩

/-- Flushing a valid nonempty buffer of width 1..5 computes the buffer's
reference semantics on the amplitude vector. -/
theorem run_vec_bufSem (t : SimF)
    (hsz : 1 ≤ t.fused_gates.fsize)
    (hψ : t.sim.vec.length = 2 ^ t.sim.N)
    (hFwf : FusionWF t.fused_gates)
    (hbuf : BufWF t)
    (hbij : IndexMapBijection t.sim)
    (hw1 : 1 ≤ t.fused_gates.num_qubits) (hw5 : t.fused_gates.num_qubits ≤ 5) :
    (Simulator.run t).sim.vec
      = bufSem t.sim.N (mapFindD t.sim.map) t.fused_gates t.sim.vec := by
  obtain ⟨hinj, hlt⟩ := bij_slot_facts t.sim hbij
  obtain ⟨hsortS, hsortC, hdisjCS, hitemsWF, hempty⟩ := hFwf
  have hsnd : (t.fused_gates.set.map (mapFindD t.sim.map)).Nodup :=
    List.Nodup.map_on
      (fun x hx y hy h => hinj x (hbuf.1 x hx) y (hbuf.1 y hy) h)
      (List.Sorted.nodup hsortS)
  have hslt : ∀ p ∈ t.fused_gates.set.map (mapFindD t.sim.map), p < t.sim.N := by
    intro p hp
    obtain ⟨x, hx, rfl⟩ := List.mem_map.mp hp
    exact hlt x (hbuf.1 x hx)
  have hdisj_slots : ∀ p ∈ t.fused_gates.ctrl_set.map (mapFindD t.sim.map),
      p ∉ t.fused_gates.set.map (mapFindD t.sim.map) := by
    intro p hp hp2
    obtain ⟨x, hx, hxp⟩ := List.mem_map.mp hp
    obtain ⟨y, hy, hyp⟩ := List.mem_map.mp hp2
    have hxy : x = y := hinj x (hbuf.2 x hx) y (hbuf.1 y hy) (hxp.trans hyp.symm)
    exact hdisjCS x hx (hxy ▸ hy)
  have hcdisj : maskFold (t.fused_gates.ctrl_set.map (mapFindD t.sim.map)) &&&
      maskFold (t.fused_gates.set.map (mapFindD t.sim.map)) = 0 :=
    maskFold_and_disjoint hdisj_slots
  rw [run_vec_applyAt t hsz hψ hbuf hw1 hw5 hsnd hslt hcdisj]
  rw [perform_fusion_applyAt t.sim.N (mapFindD t.sim.map) t.fused_gates
        (maskFold (t.fused_gates.ctrl_set.map (mapFindD t.sim.map)))
        hsortS hsnd hslt
        (fun p hp => testBit_maskFold_of_not_mem (fun hm => hdisj_slots p hm hp))
        (fun it hit => ⟨(hitemsWF it hit).1, (hitemsWF it hit).2.1⟩) t.sim.vec hψ]
  rfl

/-- Inserting one command into an empty buffer and flushing applies exactly
the reference semantics of that command, leaving map, qubit count and
buffer as before. -/
theorem step_one_cmd (t : SimF) (c : Cmd)
    (hbuf0 : t.fused_gates = emptyFusion)
    (hψ : t.sim.vec.length = 2 ^ t.sim.N)
    (hbij : IndexMapBijection t.sim)
    (hc : CmdWF c) (hw5 : c.ids.length ≤ 5)
    (hmT : ∀ x ∈ c.ids, mapCount t.sim.map x = true)
    (hmC : ∀ x ∈ c.ctrls, mapCount t.sim.map x = true) :
    (Simulator.run { t with
        fused_gates := t.fused_gates.insert c.mat c.ids c.ctrls }).sim.vec
      = cmdSem t.sim.N (mapFindD t.sim.map) c t.sim.vec ∧
    (Simulator.run { t with
        fused_gates := t.fused_gates.insert c.mat c.ids c.ctrls }).sim.map
      = t.sim.map ∧
    (Simulator.run { t with
        fused_gates := t.fused_gates.insert c.mat c.ids c.ctrls }).sim.N = t.sim.N ∧
    (Simulator.run { t with
        fused_gates := t.fused_gates.insert c.mat c.ids c.ctrls }).fused_gates
      = emptyFusion := by
  obtain ⟨hinj, hlt⟩ := bij_slot_facts t.sim hbij
  obtain ⟨hTne, hTnd, hCnd, hTC, hmlen⟩ := hc
  rw [hbuf0]
  have hWFB : FusionWF (emptyFusion.insert c.mat c.ids c.ctrls) :=
    insert_wf emptyFusion c fusionWF_empty ⟨hTne, hTnd, hCnd, hTC, hmlen⟩
  have hBs : ∀ x ∈ (emptyFusion.insert c.mat c.ids c.ctrls).set,
      mapCount t.sim.map x = true := by
    intro x hx
    rcases insert_set_sub emptyFusion c fusionWF_empty x hx with h0 | h0 | h0 | h0
    · exact absurd h0 (List.not_mem_nil x)
    · exact absurd h0 (List.not_mem_nil x)
    · exact hmT x h0
    · exact hmC x h0
  have hBc : ∀ x ∈ (emptyFusion.insert c.mat c.ids c.ctrls).ctrl_set,
      mapCount t.sim.map x = true := by
    intro x hx
    rcases insert_ctrl_sub emptyFusion c fusionWF_empty x hx with h0 | h0
    · exact absurd h0 (List.not_mem_nil x)
    · exact hmC x h0
  have hfsz : 1 ≤ (emptyFusion.insert c.mat c.ids c.ctrls).fsize := by
    rw [Fusion.insert_fsize]
    omega
  have hnq : (emptyFusion.insert c.mat c.ids c.ctrls).num_qubits = c.ids.length := by
    rw [insert_empty_eq]
    show (c.ids.foldl setInsert []).length = c.ids.length
    exact foldl_setInsert_nil_length hTnd
  have hw1' : 1 ≤ (emptyFusion.insert c.mat c.ids c.ctrls).num_qubits := by
    rw [hnq]
    have := List.length_pos.mpr hTne
    omega
  have hw5' : (emptyFusion.insert c.mat c.ids c.ctrls).num_qubits ≤ 5 := by
    rw [hnq]
    exact hw5
  have hinjB : ∀ x ∈ emptyFusion.set ++ emptyFusion.ctrl_set ++ c.ids ++ c.ctrls,
      ∀ y ∈ emptyFusion.set ++ emptyFusion.ctrl_set ++ c.ids ++ c.ctrls,
      mapFindD t.sim.map x = mapFindD t.sim.map y → x = y := by
    have hmm : ∀ z ∈ emptyFusion.set ++ emptyFusion.ctrl_set ++ c.ids ++ c.ctrls,
        mapCount t.sim.map z = true := by
      intro z hz
      rcases List.mem_append.mp hz with h0 | h0
      · rcases List.mem_append.mp h0 with h5 | h5
        · rcases List.mem_append.mp h5 with h6 | h6
          · exact absurd h6 (List.not_mem_nil z)
          · exact absurd h6 (List.not_mem_nil z)
        · exact hmT z h5
      · exact hmC z h0
    intro x hx y hy hxy
    exact hinj x (hmm x hx) y (hmm y hy) hxy
  refine ⟨?_, ?_, ?_, ?_⟩
  · rw [run_vec_bufSem { t with fused_gates := emptyFusion.insert c.mat c.ids c.ctrls }
          hfsz hψ hWFB ⟨hBs, hBc⟩ hbij hw1' hw5']
    show bufSem t.sim.N (mapFindD t.sim.map)
        (emptyFusion.insert c.mat c.ids c.ctrls) t.sim.vec
      = cmdSem t.sim.N (mapFindD t.sim.map) c t.sim.vec
    rw [insert_sem t.sim.N (mapFindD t.sim.map) emptyFusion c fusionWF_empty
          ⟨hTne, hTnd, hCnd, hTC, hmlen⟩ hinjB t.sim.vec]
    rfl
  · exact (@run_map_eq { t with
        fused_gates := emptyFusion.insert c.mat c.ids c.ctrls } ⟨hBs, hBc⟩).1
  · exact (@run_map_eq { t with
        fused_gates := emptyFusion.insert c.mat c.ids c.ctrls } ⟨hBs, hBc⟩).2
  · exact @run_fused_gates_of_pos { t with
        fused_gates := emptyFusion.insert c.mat c.ids c.ctrls } hfsz

theorem sideA_fold (M0 : Smap) (N0 : ℕ) :
    ∀ (cmds : List Cmd) (t : SimF),
    t.fused_gates = emptyFusion → t.sim.map = M0 → t.sim.N = N0 →
    t.sim.vec.length = 2 ^ N0 →
    IndexMapBijection t.sim →
    (∀ c ∈ cmds, CmdWF c ∧ c.ids.length ≤ 5 ∧
      (∀ x ∈ c.ids, mapCount M0 x = true) ∧ (∀ x ∈ c.ctrls, mapCount M0 x = true)) →
    (cmds.foldl (fun u c =>
        Simulator.run { u with fused_gates := u.fused_gates.insert c.mat c.ids c.ctrls })
      t).sim.vec
      = cmds.foldl (fun v c => cmdSem N0 (mapFindD M0) c v) t.sim.vec
  | [], t, _, _, _, _, _, _ => rfl
  | c :: rest, t, hbuf0, hmap0, hN0, hψ, hbij, hcmds => by
      rw [List.foldl_cons, List.foldl_cons]
      obtain ⟨hcWF, hw5, hmT, hmC⟩ := hcmds c (List.mem_cons_self c rest)
      have hψ' : t.sim.vec.length = 2 ^ t.sim.N := by
        rw [hN0]
        exact hψ
      obtain ⟨hv, hm, hN, hfg⟩ := step_one_cmd t c hbuf0 hψ' hbij hcWF hw5
        (fun x hx => by rw [hmap0]; exact hmT x hx)
        (fun x hx => by rw [hmap0]; exact hmC x hx)
      rw [hmap0, hN0] at hv
      rw [sideA_fold M0 N0 rest _ hfg (hm.trans hmap0) (hN.trans hN0)
            (by rw [hv]; exact applyAt_length _ _ _ _ _)
            (bij_of_eq hm hN hbij)
            (fun x hx => hcmds x (List.mem_cons_of_mem c hx))]
      rw [hv]

theorem sideB_fold (M0 : Smap) (N0 : ℕ)
    (hinj : ∀ x, mapCount M0 x = true → ∀ y, mapCount M0 y = true →
      mapFindD M0 x = mapFindD M0 y → x = y) :
    ∀ (cmds : List Cmd) (F : Fusion),
    FusionWF F →
    (∀ x ∈ F.set, mapCount M0 x = true) →
    (∀ x ∈ F.ctrl_set, mapCount M0 x = true) →
    (∀ c ∈ cmds, CmdWF c ∧
      (∀ x ∈ c.ids, mapCount M0 x = true) ∧ (∀ x ∈ c.ctrls, mapCount M0 x = true)) →
    FusionWF (cmds.foldl (fun G c => G.insert c.mat c.ids c.ctrls) F) ∧
    (∀ x ∈ (cmds.foldl (fun G c => G.insert c.mat c.ids c.ctrls) F).set,
      mapCount M0 x = true) ∧
    (∀ x ∈ (cmds.foldl (fun G c => G.insert c.mat c.ids c.ctrls) F).ctrl_set,
      mapCount M0 x = true) ∧
    ∀ v, bufSem N0 (mapFindD M0)
        (cmds.foldl (fun G c => G.insert c.mat c.ids c.ctrls) F) v
      = cmds.foldl (fun w c => cmdSem N0 (mapFindD M0) c w) (bufSem N0 (mapFindD M0) F v)
  | [], F, hF, hFs, hFc, _ => ⟨hF, hFs, hFc, fun v => rfl⟩
  | c :: rest, F, hF, hFs, hFc, hcmds => by
      rw [List.foldl_cons]
      obtain ⟨hcWF, hmT, hmC⟩ := hcmds c (List.mem_cons_self c rest)
      have hF' : FusionWF (F.insert c.mat c.ids c.ctrls) := insert_wf F c hF hcWF
      have hFs' : ∀ x ∈ (F.insert c.mat c.ids c.ctrls).set,
          mapCount M0 x = true := by
        intro x hx
        rcases insert_set_sub F c hF x hx with h0 | h0 | h0 | h0
        · exact hFs x h0
        · exact hFc x h0
        · exact hmT x h0
        · exact hmC x h0
      have hFc' : ∀ x ∈ (F.insert c.mat c.ids c.ctrls).ctrl_set,
          mapCount M0 x = true := by
        intro x hx
        rcases insert_ctrl_sub F c hF x hx with h0 | h0
        · exact hFc x h0
        · exact hmC x h0
      obtain ⟨h1, h2, h3, h4⟩ := sideB_fold M0 N0 hinj rest
        (F.insert c.mat c.ids c.ctrls) hF' hFs' hFc'
        (fun x hx => hcmds x (List.mem_cons_of_mem c hx))
      refine ⟨h1, h2, h3, fun v => ?_⟩
      rw [h4 v]
      rw [insert_sem N0 (mapFindD M0) F c hF hcWF ?hinj2 v]
      case hinj2 =>
        have hmm : ∀ z ∈ F.set ++ F.ctrl_set ++ c.ids ++ c.ctrls,
            mapCount M0 z = true := by
          intro z hz
          rcases List.mem_append.mp hz with h0 | h0
          · rcases List.mem_append.mp h0 with h5 | h5
            · rcases List.mem_append.mp h5 with h6 | h6
              · exact hFs z h6
              · exact hFc z h6
            · exact hmT z h5
          · exact hmC z h0
        intro x hx y hy hxy
        exact hinj x (hmm x hx) y (hmm y hy) hxy
      rw [List.foldl_cons]

/-- C1: Fusion transparency.  Starting from a flushed simulator whose index
map is a bijection, for every sequence of well-formed controlled gate
commands on allocated qubits (each with 1..5 targets, and a fused touched
width of 1..5 so that the single combined dispatch is in range of the
kernel switch), applying each gate to the amplitude vector one at a time —
inserting it into the empty fusion buffer and immediately flushing — yields
exactly the same final amplitude vector as inserting all of them into the
fusion buffer, fusing them into one combined matrix via `perform_fusion`,
and dispatching that single fused operation with one `run()`; in the exact
rational embedding the vectors are equal outright, hence in particular
within any floating tolerance. -/
theorem C1_fusion_transparency (s : SimF) (cmds : List Cmd)
    (hbuf0 : s.fused_gates = emptyFusion)
    (hψ : s.sim.vec.length = 2 ^ s.sim.N)
    (hbij : IndexMapBijection s.sim)
    (hcmds : ∀ c ∈ cmds, CmdWF c ∧ c.ids.length ≤ 5 ∧
      (∀ x ∈ c.ids, mapCount s.sim.map x = true) ∧
      (∀ x ∈ c.ctrls, mapCount s.sim.map x = true))
    (hfw1 : 1 ≤ (cmds.foldl (fun F c => F.insert c.mat c.ids c.ctrls)
        emptyFusion).num_qubits)
    (hfw5 : (cmds.foldl (fun F c => F.insert c.mat c.ids c.ctrls)
        emptyFusion).num_qubits ≤ 5) :
    (cmds.foldl (fun t c =>
        Simulator.run { t with fused_gates := t.fused_gates.insert c.mat c.ids c.ctrls })
      s).sim.vec
      = (Simulator.run { s with
          fused_gates := cmds.foldl (fun F c => F.insert c.mat c.ids c.ctrls)
            s.fused_gates }).sim.vec := by
  obtain ⟨hinj, hlt⟩ := bij_slot_facts s.sim hbij
  rw [sideA_fold s.sim.map s.sim.N cmds s hbuf0 rfl rfl hψ hbij hcmds]
  rw [hbuf0]
  obtain ⟨hFwf, hFs, hFc, hsem⟩ := sideB_fold s.sim.map s.sim.N hinj cmds emptyFusion
    fusionWF_empty (fun x hx => absurd hx (List.not_mem_nil x))
    (fun x hx => absurd hx (List.not_mem_nil x))
    (fun c hc => ⟨(hcmds c hc).1, (hcmds c hc).2.2.1, (hcmds c hc).2.2.2⟩)
  have hfsz : 1 ≤ (cmds.foldl (fun F c => F.insert c.mat c.ids c.ctrls)
      emptyFusion).fsize := by
    by_contra h0
    push_neg at h0
    have h0' : (cmds.foldl (fun F c => F.insert c.mat c.ids c.ctrls)
        emptyFusion).items.length < 1 := h0
    have hempty' : (cmds.foldl (fun F c => F.insert c.mat c.ids c.ctrls)
        emptyFusion).items = [] := List.length_eq_zero.mp (by omega)
    obtain ⟨hs0, _⟩ := hFwf.2.2.2.2 hempty'
    rw [show (cmds.foldl (fun F c => F.insert c.mat c.ids c.ctrls)
          emptyFusion).num_qubits
        = (cmds.foldl (fun F c => F.insert c.mat c.ids c.ctrls)
          emptyFusion).set.length from rfl, hs0] at hfw1
    simp at hfw1
  rw [run_vec_bufSem { s with
        fused_gates := cmds.foldl (fun F c => F.insert c.mat c.ids c.ctrls) emptyFusion }
      hfsz hψ hFwf ⟨hFs, hFc⟩ hbij hfw1 hfw5]
  show cmds.foldl (fun v c => cmdSem s.sim.N (mapFindD s.sim.map) c v) s.sim.vec
    = bufSem s.sim.N (mapFindD s.sim.map)
        (cmds.foldl (fun F c => F.insert c.mat c.ids c.ctrls) emptyFusion) s.sim.vec
  rw [hsem s.sim.vec]
  rfl

/-- A two-qubit simulator, flushed, amplitude vector `|00⟩`, identity map. -/
def c1Sf : SimF := ⟨⟨2, [⟨1, 0⟩, 0, 0, 0], [(0, 0), (1, 1)]⟩, emptyFusion⟩

instance (c : Cmd) : Decidable (CmdWF c) :=
  inferInstanceAs (Decidable (c.ids ≠ [] ∧ c.ids.Nodup ∧ c.ctrls.Nodup ∧
    (∀ x ∈ c.ids, x ∉ c.ctrls) ∧ c.mat.length = 2 ^ c.ids.length))

/-- `X` on qubit 0, uncontrolled. -/
def c1CmdA : Cmd := ⟨[[0, 1], [1, 0]], [0], []⟩

/-- `X` on qubit 1 controlled by qubit 0 (forces control handling in the
second insert, since the buffer already holds an item). -/
def c1CmdB : Cmd := ⟨[[0, 1], [1, 0]], [1], [0]⟩

theorem C1_fusion_transparency_witness :
    c1Sf.fused_gates = emptyFusion ∧
    c1Sf.sim.vec.length = 2 ^ c1Sf.sim.N ∧
    IndexMapBijection c1Sf.sim ∧
    (∀ c ∈ [c1CmdA, c1CmdB], CmdWF c ∧ c.ids.length ≤ 5 ∧
      (∀ x ∈ c.ids, mapCount c1Sf.sim.map x = true) ∧
      (∀ x ∈ c.ctrls, mapCount c1Sf.sim.map x = true)) ∧
    1 ≤ ([c1CmdA, c1CmdB].foldl (fun F c => F.insert c.mat c.ids c.ctrls)
        emptyFusion).num_qubits ∧
    ([c1CmdA, c1CmdB].foldl (fun F c => F.insert c.mat c.ids c.ctrls)
        emptyFusion).num_qubits ≤ 5 ∧
    ([c1CmdA, c1CmdB].foldl (fun t c =>
        Simulator.run { t with fused_gates := t.fused_gates.insert c.mat c.ids c.ctrls })
      c1Sf).sim.vec
      = (Simulator.run { c1Sf with
          fused_gates := [c1CmdA, c1CmdB].foldl (fun F c => F.insert c.mat c.ids c.ctrls)
            c1Sf.fused_gates }).sim.vec :=
  ⟨rfl, rfl,
   of_decide_eq_true (by with_unfolding_all rfl),
   of_decide_eq_true (by with_unfolding_all rfl),
   of_decide_eq_true (by with_unfolding_all rfl),
   of_decide_eq_true (by with_unfolding_all rfl),
   C1_fusion_transparency c1Sf [c1CmdA, c1CmdB] rfl rfl
     (of_decide_eq_true (by with_unfolding_all rfl))
     (of_decide_eq_true (by with_unfolding_all rfl))
     (of_decide_eq_true (by with_unfolding_all rfl))
     (of_decide_eq_true (by with_unfolding_all rfl))⟩
